import Mathlib

/-!
# A-Maze-ing: verification of the maze engine

Shallow embedding of the maze generation and solving engine of the
A-Maze-ing repository, together with proofs and refutations of the
specification's claims.

Conventions used throughout:

* Python `list[list[int]]` grids become `List (List Nat)`; a 4-bit wall
  mask per cell, bit 0 = North, bit 1 = East, bit 2 = South, bit 3 = West.
* Python integers are `Int` where sign matters (cell arithmetic in the
  generators) and `Nat` where the source only ever handles non-negative
  values.
* Python list indexing (which raises `IndexError` out of range and wraps
  negative indices) is modelled by `pyGet` / `pySet` returning `Option`.
* Randomness (`random.shuffle`, `random.choice`, `random.sample`,
  `random.randint`) is modelled nondeterministically by an oracle
  `Nat → Nat` consumed at successive positions of the random stream; the
  theorems quantify over all oracles.
-/

namespace AMazeIng

/-! ## Cells and grids -/

/-- A cell index pair.  `mazegen.py` and `mazegen/dfs.py`/`mazegen/hak.py`
use `(x, y)` with `x` the row index (bounded by the height) and `y` the
column index (bounded by the width); the pathfinder uses `(x, y)` with `x`
the column.  Each embedded function documents which convention it uses. -/
abbrev Cell := Int × Int

/-- A grid of wall masks, row-major: `grid[row][col]`. -/
abbrev Grid := List (List Nat)

/-- Python list read `l[i]`: valid for `-len l ≤ i < len l`, wrapping
negative indices; `none` models `IndexError`. -/
def pyGet (l : List α) (i : Int) : Option α :=
  if 0 ≤ i ∧ i < l.length then l.get? i.toNat
  else if -(l.length : Int) ≤ i ∧ i < 0 then l.get? (i + l.length).toNat
  else none

/-- Python list write `l[i] = a` with the same index rules as `pyGet`. -/
def pySet (l : List α) (i : Int) (a : α) : Option (List α) :=
  if 0 ≤ i ∧ i < l.length then some (l.set i.toNat a)
  else if -(l.length : Int) ≤ i ∧ i < 0 then some (l.set (i + l.length).toNat a)
  else none

/-- Read the wall mask of cell `(r, c)` (row, column): `grid[r][c]`. -/
def getCell (g : Grid) (r c : Int) : Option Nat :=
  match pyGet g r with
  | none => none
  | some row => pyGet row c

/-- Python `mask &= ~(1 << i)` on a non-negative mask: clear bit `i`.
Subtracting the isolated bit equals the bitwise difference
`mask & ~(1 << i)` (certified by `clearBit_eq_ldiff` below); the
subtraction form is used so that concrete runs evaluate. -/
def clearBit (m i : Nat) : Nat := m - (m &&& (1 <<< i))

/-- `grid[r][c] &= ~(1 << i)` with Python index semantics. -/
def clearCellBit (g : Grid) (r c : Int) (i : Nat) : Option Grid :=
  match pyGet g r with
  | none => none
  | some row =>
    match pyGet row c with
    | none => none
    | some m =>
      match pySet row c (clearBit m i) with
      | none => none
      | some row2 => pySet g r row2

/-- The direction offsets `[(-1, 0), (0, 1), (1, 0), (0, -1)]` shared by
`mazegen.py`, `mazegen/dfs.py` and `mazegen/hak.py` (row delta first). -/
def neighborsList : List (Int × Int) := [(-1, 0), (0, 1), (1, 0), (0, -1)]

/-- The opposite wall index table `[2, 3, 0, 1]`. -/
def oppositeWall : List Nat := [2, 3, 0, 1]

/-- The two carving lines
`grid[x][y] &= ~(1 << i); grid[x+dx][y+dy] &= ~(1 << opposite_wall[i])`,
shared verbatim by both DFS variants and by `mazegen/hak.py`. -/
def carve (g : Grid) (x y : Int) (i : Nat) (nx ny : Int) (j : Nat) :
    Option Grid :=
  match clearCellBit g x y i with
  | none => none
  | some g1 => clearCellBit g1 nx ny j

/-- `[[15 for _ in range(width)] for _ in range(height)]`. -/
def fullGrid (w h : Nat) : Grid := List.replicate h (List.replicate w 15)

/-- All in-range `(row, col)` cells, row-major. -/
def gridCells (w h : Nat) : List Cell :=
  ((List.range h) ×ˢ (List.range w)).map fun p => ((p.1 : Int), (p.2 : Int))

/-! ## The shuffle oracle -/

/-- Model of `random.shuffle(dir)`: the oracle value selects one of the
orderings of the four direction offsets.  Every permutation of
`neighborsList` is reachable, so theorems quantified over all oracles
cover every behaviour of the Python shuffle. -/
def shuffled (k : Nat) : List (Int × Int) :=
  (neighborsList.permutations').getD (k % neighborsList.permutations'.length)
    neighborsList

/-! ## DFS (iterative backtracker)

`mazegen.py` `MazeGenerator._dfs` and `mazegen/dfs.py` `dfs` share the
same loop; the package variant additionally skips cells of the fixed
"42 pattern".  The shared loop is `dfsLoop`, parameterised by a `blocked`
predicate; `blocked = fun _ _ => false` is exactly `mazegen.py`'s loop
(its extra test is identically false), and `blocked = p42 w h` is exactly
`mazegen/dfs.py`'s `if p42[x + dx][y + dy]: continue`. -/

/-- The 20 offsets of the "42 pattern" in `mazegen/dfs.py`, as
`(x - width // 2, y - height // 2)` pairs (column offset first). -/
def p42offsets : List (Int × Int) :=
  [(-3, -2), (-1, -2), (1, -2), (2, -2), (3, -2),
   (-3, -1), (-1, -1), (3, -1),
   (-3, 0), (-2, 0), (-1, 0), (1, 0), (2, 0), (3, 0),
   (-1, 1), (1, 1),
   (-1, 2), (1, 2), (2, 2), (3, 2)]

/-- `p42[r][c]` of `mazegen/dfs.py`: the comprehension marks cell
`(x = c, y = r)` iff `(c - width // 2, r - height // 2)` is one of the 20
offsets.  (The generated table is only ever indexed in range, where it
reduces to this condition.) -/
def p42 (w h : Nat) (r c : Int) : Bool :=
  (c - (w / 2 : Nat), r - (h / 2 : Nat)) ∈ p42offsets

/-- The inner `for dx, dy in dir:` scan: the first direction (in shuffled
order) whose target is in range, not blocked, and not visited.  For
`mazegen.py` the `blocked` test is constantly false. -/
def firstStep (w h : Nat) (blocked : Int → Int → Bool)
    (visited : List Cell) (x y : Int) : List (Int × Int) → Option (Int × Int)
  | [] => none
  | (dx, dy) :: rest =>
    if 0 ≤ x + dx ∧ x + dx < (h : Int) ∧ 0 ≤ y + dy ∧ y + dy < (w : Int) ∧
        blocked (x + dx) (y + dy) = false ∧ (x + dx, y + dy) ∉ visited
    then some (dx, dy)
    else firstStep w h blocked visited x y rest

theorem firstStep_spec {w h : Nat} {blocked : Int → Int → Bool}
    {visited : List Cell} {x y : Int} {l : List (Int × Int)} {dx dy : Int}
    (hs : firstStep w h blocked visited x y l = some (dx, dy)) :
    (dx, dy) ∈ l ∧ 0 ≤ x + dx ∧ x + dx < (h : Int) ∧ 0 ≤ y + dy ∧
      y + dy < (w : Int) ∧ blocked (x + dx) (y + dy) = false ∧
      (x + dx, y + dy) ∉ visited := by
  induction l with
  | nil => simp [firstStep] at hs
  | cons p rest ih =>
    obtain ⟨dx0, dy0⟩ := p
    rw [firstStep] at hs
    split at hs
    · rename_i hcond
      obtain ⟨rfl, rfl⟩ : dx0 = dx ∧ dy0 = dy := by
        have := Option.some.inj hs
        exact ⟨congrArg Prod.fst this, congrArg Prod.snd this⟩
      exact ⟨List.mem_cons_self _ _, hcond.1, hcond.2.1, hcond.2.2.1,
        hcond.2.2.2.1, hcond.2.2.2.2.1, hcond.2.2.2.2.2⟩
    · have := ih hs
      exact ⟨List.mem_cons_of_mem _ this.1, this.2.1, this.2.2.1, this.2.2.2.1,
        this.2.2.2.2.1, this.2.2.2.2.2.1, this.2.2.2.2.2.2⟩

/-! ### Termination bookkeeping for the generator loops -/

/-- Number of in-range cells not yet visited (termination measure). -/
def unvisitedCount (w h : Nat) (visited : List Cell) : Nat :=
  ((gridCells w h).filter (fun c => c ∉ visited)).length

theorem mem_gridCells {w h : Nat} {x y : Int} :
    (x, y) ∈ gridCells w h ↔
      0 ≤ x ∧ x < (h : Int) ∧ 0 ≤ y ∧ y < (w : Int) := by
  constructor
  · intro hmem
    obtain ⟨⟨r, c⟩, hp, heq⟩ := List.mem_map.mp hmem
    obtain ⟨hr, hc⟩ := List.pair_mem_product.mp hp
    have hr' := List.mem_range.mp hr
    have hc' := List.mem_range.mp hc
    have h1 : (r : Int) = x := congrArg Prod.fst heq
    have h2 : (c : Int) = y := congrArg Prod.snd heq
    omega
  · rintro ⟨h1, h2, h3, h4⟩
    apply List.mem_map.mpr
    refine ⟨(x.toNat, y.toNat), List.pair_mem_product.mpr
      ⟨List.mem_range.mpr (by omega), List.mem_range.mpr (by omega)⟩, ?_⟩
    show ((x.toNat : Int), (y.toNat : Int)) = (x, y)
    rw [Int.toNat_of_nonneg h1, Int.toNat_of_nonneg h3]

theorem gridCells_nodup {w h : Nat} : (gridCells w h).Nodup := by
  apply List.Nodup.map
  · intro a b hab
    have h1 : ((a.1 : Int)) = (b.1 : Int) := congrArg Prod.fst hab
    have h2 : ((a.2 : Int)) = (b.2 : Int) := congrArg Prod.snd hab
    have ha1 : a.1 = b.1 := by exact_mod_cast h1
    have ha2 : a.2 = b.2 := by exact_mod_cast h2
    cases a; cases b; simp_all
  · exact List.Nodup.product (List.nodup_range _) (List.nodup_range _)

theorem length_filter_le_of_imp {p q : α → Bool} (l : List α)
    (h : ∀ a, p a = true → q a = true) :
    (l.filter p).length ≤ (l.filter q).length := by
  induction l with
  | nil => simp
  | cons b t ih =>
    by_cases hp : p b = true
    · rw [List.filter_cons_of_pos hp, List.filter_cons_of_pos (h b hp)]
      simpa using ih
    · rw [List.filter_cons_of_neg hp]
      by_cases hq : q b = true
      · rw [List.filter_cons_of_pos hq]
        exact le_trans ih (Nat.le_succ _)
      · rw [List.filter_cons_of_neg hq]
        exact ih

theorem length_filter_lt_of_pointwise {p q : α → Bool} {l : List α} {a : α}
    (ha : a ∈ l) (hpa : p a = false) (hqa : q a = true)
    (himp : ∀ c, p c = true → q c = true) :
    (l.filter p).length < (l.filter q).length := by
  induction l with
  | nil => cases ha
  | cons b t ih =>
    have hmono := length_filter_le_of_imp t himp
    by_cases hba : b = a
    · subst hba
      rw [List.filter_cons_of_neg (by simp [hpa]),
        List.filter_cons_of_pos hqa]
      simp only [List.length_cons]
      omega
    · have ha' : a ∈ t := by
        rcases List.mem_cons.mp ha with hh | hh
        · exact absurd hh.symm hba
        · exact hh
      have hrec := ih ha'
      by_cases hp : p b = true
      · rw [List.filter_cons_of_pos hp, List.filter_cons_of_pos (himp b hp)]
        simpa using hrec
      · rw [List.filter_cons_of_neg hp]
        by_cases hq : q b = true
        · rw [List.filter_cons_of_pos hq]
          exact Nat.lt_trans hrec (Nat.lt_succ_self _)
        · rw [List.filter_cons_of_neg hq]
          exact hrec

theorem unvisitedCount_cons_lt {w h : Nat} {a : Cell} {vis : List Cell}
    (ha : a ∈ gridCells w h) (hna : a ∉ vis) :
    unvisitedCount w h (a :: vis) < unvisitedCount w h vis := by
  unfold unvisitedCount
  apply length_filter_lt_of_pointwise ha
  · simp
  · simpa using hna
  · intro c hc
    simp only [decide_eq_true_eq] at hc ⊢
    intro hcv
    exact hc (List.mem_cons_of_mem _ hcv)

/-! ### The DFS loop -/

/-- The `while stack:` loop shared by `mazegen.py._dfs` (with
`blocked = fun _ _ => false`) and `mazegen/dfs.py dfs` (with
`blocked = p42 w h`).  The stack is kept head-first (`stack[-1]` is the
head, `append`/`pop` are `cons`/`tail`); `o fuel` feeds `random.shuffle`
(each iteration has a distinct fuel value, hence its own oracle slot).
Result `none` models an uncaught `IndexError` during carving; the fuel
passed by `dfsRun`/`dfs42Run` strictly exceeds the number of loop
iterations (each iteration visits a fresh cell or pops the stack), so
fuel exhaustion also returning `none` never occurs on those runs. -/
def dfsLoop (w h : Nat) (blocked : Int → Int → Bool) (o : Nat → Nat)
    (fuel : Nat) (g : Grid) (stack visited : List Cell) :
    Option (Grid × List Cell) :=
  match fuel with
  | 0 => none
  | fuel + 1 =>
    match stack with
    | [] => some (g, visited)
    | (x, y) :: rest =>
      match firstStep w h blocked visited x y (shuffled (o fuel)) with
      | some (dx, dy) =>
        -- `i = neighbors.index((dx, dy))`; the found direction is always
        -- a member, so the index is in range for `opposite_wall[i]`.
        let i := neighborsList.indexOf (dx, dy)
        match carve g x y i (x + dx) (y + dy) (oppositeWall.getD i 0) with
        | none => none
        | some g2 =>
          dfsLoop w h blocked o fuel g2
            ((x + dx, y + dy) :: (x, y) :: rest) ((x + dx, y + dy) :: visited)
      | none => dfsLoop w h blocked o fuel g rest visited

/-- Fuel bound for the generator loops: strictly more than the number of
iterations any of them can perform on a `w × h` grid. -/
def genFuel (w h : Nat) : Nat := 2 * (w * h) + 2

/-- `MazeGenerator._dfs` of `mazegen.py`: seed the stack and the visited
set with the entry cell and run the loop on a fully-walled grid.  The
entry pair is used as `(row, col)` by the loop. -/
def dfsRun (w h : Nat) (entry : Cell) (o : Nat → Nat) :
    Option (Grid × List Cell) :=
  dfsLoop w h (fun _ _ => false) o (genFuel w h) (fullGrid w h)
    [entry] [entry]

/-- `dfs` of `mazegen/dfs.py`: identical to `MazeGenerator._dfs` except
that carving into a 42-pattern cell is skipped
(`if p42[x + dx][y + dy]: continue`). -/
def dfs42Run (w h : Nat) (entry : Cell) (o : Nat → Nat) :
    Option (Grid × List Cell) :=
  dfsLoop w h (p42 w h) o (genFuel w h) (fullGrid w h) [entry] [entry]

/-! ## Configuration validation (`parser.py ConfigParser._validate`) -/

/-- The numeric validation of `ConfigParser._validate`, applied to parsed
values (missing-key and file handling happen earlier in `parse`): width
and height positive, area at least 2, entry and exit non-negative and
inside `[0, width) × [0, height)`, entry distinct from exit.  The
small-maze "42 pattern" warning only prints and rejects nothing. -/
def configOK (width height : Int) (en xt : Int × Int) : Bool :=
  decide (1 ≤ width) && decide (1 ≤ height) &&
  decide (2 ≤ width * height) &&
  decide (0 ≤ en.1 ∧ 0 ≤ en.2) &&
  decide (0 ≤ en.1 ∧ en.1 < width ∧ 0 ≤ en.2 ∧ en.2 < height) &&
  decide (0 ≤ xt.1 ∧ 0 ≤ xt.2) &&
  decide (0 ≤ xt.1 ∧ xt.1 < width ∧ 0 ≤ xt.2 ∧ xt.2 < height) &&
  decide (en ≠ xt)

/-! ### Facts about the shuffle oracle -/

theorem shuffled_perm (k : Nat) : (shuffled k).Perm neighborsList := by
  have hpos : 0 < neighborsList.permutations'.length :=
    List.length_pos_of_mem (List.mem_permutations'.mpr (List.Perm.refl _))
  have hlt : k % neighborsList.permutations'.length <
      neighborsList.permutations'.length := Nat.mod_lt _ hpos
  have hmem : (shuffled k) ∈ neighborsList.permutations' := by
    unfold shuffled
    rw [List.getD_eq_getElem _ _ hlt]
    exact List.getElem_mem hlt
  exact (List.mem_permutations'.mp hmem)

theorem mem_shuffled {k : Nat} {d : Int × Int} :
    d ∈ shuffled k ↔ d ∈ neighborsList := (shuffled_perm k).mem_iff

/-! ## Claim C9: row/column transposition crash in `_dfs`

`ConfigParser._validate` bounds the entry's first coordinate by the
width, but `MazeGenerator._dfs` uses it as a row index bounded by the
height (`self._grid[x][y]`), so an accepted non-square configuration can
make generation fail with an `IndexError`.  On width 5, height 2, entry
`(2, 0)`, the only in-range direction from `(2, 0)` is `(-1, 0)`
whatever the shuffle produced, and the subsequent access `grid[2][0]`
is out of range for the 2-row grid. -/

theorem firstStep_c9 (l : List (Int × Int)) (hsub : l ⊆ neighborsList) :
    firstStep 5 2 (fun _ _ => false) [((2 : Int), (0 : Int))] 2 0 l =
      if ((-1 : Int), (0 : Int)) ∈ l then some (-1, 0) else none := by
  induction l with
  | nil => simp [firstStep]
  | cons d t ih =>
    have hd : d ∈ neighborsList := hsub (List.mem_cons_self _ _)
    have hsub' : t ⊆ neighborsList := fun a ha =>
      hsub (List.mem_cons_of_mem _ ha)
    have iht := ih hsub'
    fin_cases hd
    · rw [firstStep, if_pos (by decide), if_pos (List.mem_cons_self _ _)]
    · rw [firstStep, if_neg (by decide), iht]
      have hne : (((-1 : Int), (0 : Int)) ∈
          (((0 : Int), (1 : Int)) :: t)) ↔ ((-1 : Int), (0 : Int)) ∈ t := by
        simp
      by_cases hm : ((-1 : Int), (0 : Int)) ∈ t
      · rw [if_pos hm, if_pos (hne.mpr hm)]
      · rw [if_neg hm, if_neg (fun hx => hm (hne.mp hx))]
    · rw [firstStep, if_neg (by decide), iht]
      have hne : (((-1 : Int), (0 : Int)) ∈
          (((1 : Int), (0 : Int)) :: t)) ↔ ((-1 : Int), (0 : Int)) ∈ t := by
        simp
      by_cases hm : ((-1 : Int), (0 : Int)) ∈ t
      · rw [if_pos hm, if_pos (hne.mpr hm)]
      · rw [if_neg hm, if_neg (fun hx => hm (hne.mp hx))]
    · rw [firstStep, if_neg (by decide), iht]
      have hne : (((-1 : Int), (0 : Int)) ∈
          (((0 : Int), (-1 : Int)) :: t)) ↔ ((-1 : Int), (0 : Int)) ∈ t := by
        simp
      by_cases hm : ((-1 : Int), (0 : Int)) ∈ t
      · rw [if_pos hm, if_pos (hne.mpr hm)]
      · rw [if_neg hm, if_neg (fun hx => hm (hne.mp hx))]

/-- **C9.**  There is a `MazeSpec` accepted by `ConfigParser._validate`
(width 5, height 2, entry `(2, 0)`, exit `(4, 1)`) on which
`MazeGenerator._dfs` performs an out-of-range grid access and fails for
every possible shuffle outcome: validation bounds the entry's first
coordinate by the width while the generator uses it as a row index
bounded by the height, so non-square grids can crash generation. -/
theorem dfs_crash_on_accepted_nonsquare_spec :
    configOK 5 2 (2, 0) (4, 1) = true ∧
      ∀ o : Nat → Nat, dfsRun 5 2 (2, 0) o = none := by
  constructor
  · decide
  · intro o
    have hmem : ((-1 : Int), (0 : Int)) ∈ shuffled (o 21) :=
      mem_shuffled.mpr (by decide)
    have h1 : firstStep 5 2 (fun _ _ => false) [((2 : Int), (0 : Int))]
        2 0 (shuffled (o 21)) = some (-1, 0) := by
      rw [firstStep_c9 _ (shuffled_perm (o 21)).subset, if_pos hmem]
    show dfsLoop 5 2 (fun _ _ => false) o (genFuel 5 2) (fullGrid 5 2)
      [(2, 0)] [(2, 0)] = none
    rw [show genFuel 5 2 = 21 + 1 from rfl, dfsLoop, h1]
    rfl

/-- Witness for C9: the crash at the concrete oracle `fun _ => 0`. -/
theorem dfs_crash_on_accepted_nonsquare_spec_witness :
    dfsRun 5 2 (2, 0) (fun _ => 0) = none :=
  dfs_crash_on_accepted_nonsquare_spec.2 (fun _ => 0)

/-! ## The text codec

Files are modelled as lists of newline-terminated lines, each line a
list of characters without its terminator.  Every `write` in the Python
savers ends with `"\n"`, and `readlines` + `strip` recovers exactly
these lines, so the line-level model matches the byte-level files. -/

abbrev Line := List Char

/-- The whitespace characters stripped by Python's `str.strip()`. -/
def pySpace (c : Char) : Bool :=
  c = ' ' || c = '\t' || c = '\n' || c = '\r' ||
    c = Char.ofNat 11 || c = Char.ofNat 12

/-- Python `str.strip()`. -/
def pyStrip (l : Line) : Line :=
  ((l.dropWhile pySpace).reverse.dropWhile pySpace).reverse

/-- `hex(v)[2:].upper()` (and `format(walls, 'X')`) for a wall mask
`v < 16`: one uppercase hexadecimal digit. -/
def hexDigit (v : Nat) : Char :=
  ['0', '1', '2', '3', '4', '5', '6', '7',
   '8', '9', 'A', 'B', 'C', 'D', 'E', 'F'].getD v '0'

/-- `int(c, 16)` on a single character: hexadecimal digit value, `none`
models the `ValueError` on anything else. -/
def hexVal (c : Char) : Option Nat :=
  if '0' ≤ c ∧ c ≤ '9' then some (c.toNat - '0'.toNat)
  else if 'a' ≤ c ∧ c ≤ 'f' then some (c.toNat - 'a'.toNat + 10)
  else if 'A' ≤ c ∧ c ≤ 'F' then some (c.toNat - 'A'.toNat + 10)
  else none

/-- The decimal digit characters. -/
def decDigit (d : Nat) : Char :=
  ['0', '1', '2', '3', '4', '5', '6', '7', '8', '9'].getD d '0'

/-- Decimal rendering of a natural number, most significant digit first
(`f"{n}"` for the non-negative coordinates the savers write).  The fuel
argument only bounds the digit count; `natRepr` supplies `n + 1`, which
always suffices. -/
def natReprAux : Nat → Nat → List Char
  | 0, _ => []
  | fuel + 1, n =>
    if n < 10 then [decDigit n]
    else natReprAux fuel (n / 10) ++ [decDigit (n % 10)]

def natRepr (n : Nat) : List Char := natReprAux (n + 1) n

/-- `int(c)` value of one character, `none` on a non-digit. -/
def decVal (c : Char) : Option Nat :=
  if '0' ≤ c ∧ c ≤ '9' then some (c.toNat - '0'.toNat) else none

/-- `int(s)` for the coordinate fields: strip surrounding whitespace,
then read a non-empty all-digit string.  (Python's `int` also accepts a
sign, which the engine never writes and the in-bounds claims never
need.) -/
def pyNat (l : Line) : Option Nat :=
  let s := pyStrip l
  if s.isEmpty then none
  else
    s.foldl
      (fun acc c =>
        match acc, decVal c with
        | some a, some d => some (10 * a + d)
        | _, _ => none)
      (some 0)

/-- Python `line.split(',')`. -/
def pySplitComma : Line → List Line
  | [] => [[]]
  | c :: t =>
    if c = ',' then [] :: pySplitComma t
    else
      match pySplitComma t with
      | [] => [[c]]
      | p :: r => (c :: p) :: r

/-- A hex row line: one digit per cell (`save`/`write`/`to_hex`). -/
def rowLine (row : List Nat) : Line := row.map hexDigit

/-- Coordinate line `f"{a}, {b}"` written by `mazegen.py
MazeGenerator.save` and `mazegen/mazegen.py MazeGenerator.write`:
comma followed by a single space. -/
def coordLineSp (p : Nat × Nat) : Line :=
  natRepr p.1 ++ [','] ++ [' '] ++ natRepr p.2

/-- Coordinate line `f"{a},{b}"` written by `mazegen_hak.py
HaKMazeGenerator.save`: no space after the comma. -/
def coordLineHak (p : Nat × Nat) : Line :=
  natRepr p.1 ++ [','] ++ natRepr p.2

/-- The lines written by `MazeGenerator.save` of `mazegen.py`: the hex
rows, a blank separator line, then the entry and exit lines. -/
def saveLines (g : Grid) (en xt : Nat × Nat) : List Line :=
  g.map rowLine ++ [[], coordLineSp en, coordLineSp xt]

/-- The lines written by `MazeGenerator.write` of `mazegen/mazegen.py`:
same layout and same `X, Y` coordinate pattern as `mazegen.py`. -/
def writeLines (g : Grid) (en xt : Nat × Nat) : List Line :=
  g.map rowLine ++ [[], coordLineSp en, coordLineSp xt]

/-! ### Deserialization (`pathfinder.py PathFinder._load_maze`) -/

/-- `[int(c, 16) for c in line]`; `none` models the `ValueError` a
non-hex character raises. -/
def parseRow : Line → Option (List Nat)
  | [] => some []
  | c :: t =>
    match hexVal c, parseRow t with
    | some v, some r => some (v :: r)
    | _, _ => none

/-- The leading `while` of `_load_maze`: consume stripped lines as hex
rows until the first blank line (consuming it) or end of file, returning
the grid and the remaining lines. -/
def loadRowsAux : List Line → Grid → Option (Grid × List Line)
  | [], acc => some (acc, [])
  | l :: t, acc =>
    let s := pyStrip l
    if s.isEmpty then some (acc, t)
    else
      match parseRow s with
      | none => none
      | some row => loadRowsAux t (acc ++ [row])

/-- One coordinate line: `line.strip().split(',')`, then
`int(parts[0].strip()), int(parts[1].strip())`; parts beyond the second
are ignored, fewer than two parts raise. -/
def parseCoord (l : Line) : Option (Nat × Nat) :=
  match pySplitComma (pyStrip l) with
  | p0 :: p1 :: _ =>
    match pyNat p0, pyNat p1 with
    | some a, some b => some (a, b)
    | _, _ => none
  | _ => none

/-- `PathFinder._load_maze`: grid rows, derived width and height
(`len(grid[0]) if grid else 0`), then the optional entry and exit
coordinate lines. -/
def loadMaze (ls : List Line) :
    Option (Grid × Nat × Nat × Option (Nat × Nat) × Option (Nat × Nat)) :=
  match loadRowsAux ls [] with
  | none => none
  | some (grid, rest) =>
    let height := grid.length
    let width := (grid.headD []).length
    match rest with
    | [] => some (grid, width, height, none, none)
    | e :: rest2 =>
      match parseCoord e with
      | none => none
      | some en =>
        match rest2 with
        | [] => some (grid, width, height, some en, none)
        | x :: _ =>
          match parseCoord x with
          | none => none
          | some xt => some (grid, width, height, some en, some xt)

/-- Checks the literal coordinate-line pattern `X, Y`: decimal digits,
one comma, exactly one following space, decimal digits. -/
def isDigits (l : Line) : Bool :=
  !l.isEmpty && l.all fun c => decide ('0' ≤ c) && decide (c ≤ '9')

/-- A single space followed by decimal digits. -/
def spaceThenDigits : Line → Bool
  | [] => false
  | c :: rest => decide (c = ' ') && isDigits rest

def coordPattern (l : Line) : Bool :=
  match pySplitComma l with
  | [p1, p2] => isDigits p1 && spaceThenDigits p2
  | _ => false

/-! ### Codec lemmas -/

theorem hexVal_hexDigit : ∀ v, v < 16 → hexVal (hexDigit v) = some v := by
  decide

theorem hexDigit_not_space : ∀ v, v < 16 → pySpace (hexDigit v) = false := by
  decide

theorem decVal_decDigit : ∀ d, d < 10 → decVal (decDigit d) = some d := by
  decide

theorem decDigit_not_space : ∀ d, d < 10 → pySpace (decDigit d) = false := by
  decide

theorem decDigit_ne_comma : ∀ d, d < 10 → decDigit d ≠ ',' := by decide

theorem parseRow_rowLine {row : List Nat} (h : ∀ m ∈ row, m < 16) :
    parseRow (rowLine row) = some row := by
  induction row with
  | nil => rfl
  | cons m t ih =>
    have hm : m < 16 := h m (List.mem_cons_self _ _)
    have ht : ∀ v ∈ t, v < 16 := fun v hv => h v (List.mem_cons_of_mem _ hv)
    show parseRow (hexDigit m :: rowLine t) = some (m :: t)
    rw [parseRow, hexVal_hexDigit m hm, ih ht]

theorem dropWhile_eq_self_of_head {p : Char → Bool} : ∀ {l : Line},
    (∀ c, l.headD ' ' = c → l ≠ [] → p c = false) → l.dropWhile p = l := by
  intro l h
  cases l with
  | nil => rfl
  | cons a t =>
    have ha : p a = false := h a rfl (by simp)
    rw [List.dropWhile_cons, ha]
    simp

theorem pyStrip_eq_self_of_all {l : Line}
    (h : ∀ c ∈ l, pySpace c = false) : pyStrip l = l := by
  unfold pyStrip
  have h1 : l.dropWhile pySpace = l := by
    apply dropWhile_eq_self_of_head
    intro c hc hne
    apply h
    cases l with
    | nil => exact absurd rfl hne
    | cons a t => rw [← hc]; exact List.mem_cons_self _ _
  rw [h1]
  have h2 : l.reverse.dropWhile pySpace = l.reverse := by
    apply dropWhile_eq_self_of_head
    intro c hc hne
    apply h
    rw [← List.mem_reverse]
    cases hrev : l.reverse with
    | nil => rw [hrev] at hne; exact absurd rfl hne
    | cons a t =>
      rw [hrev] at hc
      simp only [List.headD_cons] at hc
      subst hc
      exact List.mem_cons_self _ _
  rw [h2, List.reverse_reverse]

theorem pyStrip_eq_self_of_ends {a b : Char} {m : Line}
    (ha : pySpace a = false) (hb : pySpace b = false) :
    pyStrip (a :: (m ++ [b])) = a :: (m ++ [b]) := by
  unfold pyStrip
  rw [List.dropWhile_cons, ha]
  simp only [Bool.false_eq_true, if_false]
  have hrev : (a :: (m ++ [b])).reverse = b :: (m.reverse ++ [a]) := by
    simp
  rw [hrev, List.dropWhile_cons, hb]
  simp only [Bool.false_eq_true, if_false]
  rw [← hrev, List.reverse_reverse]

theorem pyStrip_cons_space {l : Line} : pyStrip (' ' :: l) = pyStrip l := by
  unfold pyStrip
  rw [List.dropWhile_cons]
  norm_num [pySpace]

theorem natReprAux_digits : ∀ fuel n c, c ∈ natReprAux fuel n →
    ∃ d, d < 10 ∧ c = decDigit d := by
  intro fuel
  induction fuel with
  | zero => intro n c hc; cases hc
  | succ f ih =>
    intro n c hc
    rw [natReprAux] at hc
    by_cases hn : n < 10
    · rw [if_pos hn] at hc
      rcases List.mem_singleton.mp hc with rfl
      exact ⟨n, hn, rfl⟩
    · rw [if_neg hn] at hc
      rcases List.mem_append.mp hc with hc | hc
      · exact ih _ _ hc
      · rcases List.mem_singleton.mp hc with rfl
        exact ⟨n % 10, Nat.mod_lt _ (by omega), rfl⟩

theorem natRepr_digits {n : Nat} {c : Char} (hc : c ∈ natRepr n) :
    ∃ d, d < 10 ∧ c = decDigit d := natReprAux_digits _ _ _ hc

theorem natReprAux_ne_nil : ∀ fuel n, n < fuel → natReprAux fuel n ≠ [] := by
  intro fuel
  induction fuel with
  | zero => intro n hn; omega
  | succ f ih =>
    intro n hn
    rw [natReprAux]
    by_cases h10 : n < 10
    · rw [if_pos h10]; simp
    · rw [if_neg h10]; simp

theorem natRepr_ne_nil (n : Nat) : natRepr n ≠ [] :=
  natReprAux_ne_nil _ _ (Nat.lt_succ_self n)

theorem natRepr_not_space {n : Nat} {c : Char} (hc : c ∈ natRepr n) :
    pySpace c = false := by
  obtain ⟨d, hd, rfl⟩ := natRepr_digits hc
  exact decDigit_not_space d hd

theorem natRepr_ne_comma {n : Nat} {c : Char} (hc : c ∈ natRepr n) :
    c ≠ ',' := by
  obtain ⟨d, hd, rfl⟩ := natRepr_digits hc
  exact decDigit_ne_comma d hd

theorem valFold_natReprAux : ∀ fuel n a, n < fuel →
    ∃ p, 0 < p ∧
      (natReprAux fuel n).foldl
        (fun acc c =>
          match acc, decVal c with
          | some a0, some d => some (10 * a0 + d)
          | _, _ => none)
        (some a) = some (a * p + n) := by
  intro fuel
  induction fuel with
  | zero => intro n a hn; omega
  | succ f ih =>
    intro n a hn
    rw [natReprAux]
    by_cases h10 : n < 10
    · rw [if_pos h10]
      refine ⟨10, by omega, ?_⟩
      simp only [List.foldl_cons, List.foldl_nil, decVal_decDigit n h10]
      congr 1
      omega
    · rw [if_neg h10]
      have hdiv : n / 10 < f := by
        have h1 : n / 10 < n := Nat.div_lt_self (by omega) (by omega)
        omega
      obtain ⟨p, hp, hfold⟩ := ih (n / 10) a hdiv
      refine ⟨10 * p, by omega, ?_⟩
      rw [List.foldl_append, hfold]
      simp only [List.foldl_cons, List.foldl_nil,
        decVal_decDigit (n % 10) (Nat.mod_lt _ (by omega))]
      congr 1
      have := Nat.div_add_mod n 10
      calc 10 * (a * p + n / 10) + n % 10
          = a * (10 * p) + (10 * (n / 10) + n % 10) := by ring
        _ = a * (10 * p) + n := by omega

theorem pyNat_natRepr (n : Nat) : pyNat (natRepr n) = some n := by
  unfold pyNat
  rw [pyStrip_eq_self_of_all (fun c hc => natRepr_not_space hc)]
  simp only
  rw [if_neg (by simpa using natRepr_ne_nil n)]
  obtain ⟨p, hp, hfold⟩ := valFold_natReprAux (n + 1) n 0 (Nat.lt_succ_self n)
  rw [show natRepr n = natReprAux (n + 1) n from rfl, hfold]
  simp

theorem pyNat_cons_space (l : Line) : pyNat (' ' :: l) = pyNat l := by
  unfold pyNat
  rw [pyStrip_cons_space]

theorem pySplitComma_no_comma {l : Line} (h : ∀ c ∈ l, c ≠ ',') :
    pySplitComma l = [l] := by
  induction l with
  | nil => rfl
  | cons c t ih =>
    rw [pySplitComma]
    rw [if_neg (by simpa using h c (List.mem_cons_self _ _))]
    rw [ih (fun d hd => h d (List.mem_cons_of_mem _ hd))]

theorem pySplitComma_append {l1 l2 : Line} (h : ∀ c ∈ l1, c ≠ ',') :
    pySplitComma (l1 ++ ',' :: l2) = l1 :: pySplitComma l2 := by
  induction l1 with
  | nil =>
    show pySplitComma (',' :: l2) = [] :: pySplitComma l2
    rw [pySplitComma, if_pos rfl]
  | cons c t ih =>
    show pySplitComma (c :: (t ++ ',' :: l2)) = (c :: t) :: pySplitComma l2
    rw [pySplitComma]
    rw [if_neg (by simpa using h c (List.mem_cons_self _ _))]
    rw [ih (fun d hd => h d (List.mem_cons_of_mem _ hd))]

theorem pySplitComma_ne_nil (l : Line) : pySplitComma l ≠ [] := by
  cases l with
  | nil => simp [pySplitComma]
  | cons c t =>
    rw [pySplitComma]
    by_cases hc : c = ','
    · rw [if_pos hc]; simp
    · rw [if_neg hc]
      cases hrec : pySplitComma t with
      | nil => simp
      | cons p r => simp

theorem parseCoord_coordLineSp (a b : Nat) :
    parseCoord (coordLineSp (a, b)) = some (a, b) := by
  unfold parseCoord coordLineSp
  have hshape : natRepr a ++ [','] ++ [' '] ++ natRepr b =
      natRepr a ++ ',' :: (' ' :: natRepr b) := by simp
  rw [hshape]
  have hstrip : pyStrip (natRepr a ++ ',' :: (' ' :: natRepr b)) =
      natRepr a ++ ',' :: (' ' :: natRepr b) := by
    obtain ⟨a0, ta, hna⟩ : ∃ a0 ta, natRepr a = a0 :: ta := by
      cases hra : natRepr a with
      | nil => exact absurd hra (natRepr_ne_nil a)
      | cons a0 ta => exact ⟨a0, ta, rfl⟩
    obtain ⟨tb, b0, hnb⟩ : ∃ tb b0, natRepr b = tb ++ [b0] := by
      cases hrb : (natRepr b).reverse with
      | nil =>
        exfalso
        apply natRepr_ne_nil b
        simpa using congrArg List.reverse hrb
      | cons b0 tb =>
        refine ⟨tb.reverse, b0, ?_⟩
        have := congrArg List.reverse hrb
        simpa using this
    have ha0 : pySpace a0 = false :=
      natRepr_not_space (by rw [hna]; exact List.mem_cons_self _ _)
    have hb0 : pySpace b0 = false :=
      natRepr_not_space (n := b) (by rw [hnb]; simp)
    rw [hna, hnb]
    have hshape2 : (a0 :: ta) ++ ',' :: (' ' :: (tb ++ [b0])) =
        a0 :: ((ta ++ ',' :: ' ' :: tb) ++ [b0]) := by simp
    rw [hshape2, pyStrip_eq_self_of_ends ha0 hb0]
  rw [hstrip]
  rw [pySplitComma_append (fun c hc => natRepr_ne_comma hc)]
  rw [pySplitComma_no_comma (l := ' ' :: natRepr b) (by
    intro c hc
    rcases List.mem_cons.mp hc with rfl | hc
    · simp
    · exact natRepr_ne_comma hc)]
  simp only
  rw [pyNat_natRepr a, pyNat_cons_space, pyNat_natRepr b]

theorem rowLine_strip {row : List Nat} (h : ∀ m ∈ row, m < 16) :
    pyStrip (rowLine row) = rowLine row := by
  apply pyStrip_eq_self_of_all
  intro c hc
  obtain ⟨m, hm, rfl⟩ := List.mem_map.mp hc
  exact hexDigit_not_space m (h m hm)

theorem loadRowsAux_saveRows :
    ∀ (g : Grid) (acc : Grid) (r2 : List Line),
      (∀ row ∈ g, ∀ m ∈ row, m < 16) → (∀ row ∈ g, row ≠ []) →
      loadRowsAux (g.map rowLine ++ [] :: r2) acc = some (acc ++ g, r2) := by
  intro g
  induction g with
  | nil =>
    intro acc r2 _ _
    show loadRowsAux ([] :: r2) acc = some (acc ++ [], r2)
    rw [loadRowsAux]
    simp [pyStrip]
  | cons row grest ih =>
    intro acc r2 hm hne
    have hmr : ∀ m ∈ row, m < 16 := hm row (List.mem_cons_self _ _)
    have hner : row ≠ [] := hne row (List.mem_cons_self _ _)
    show loadRowsAux (rowLine row :: (grest.map rowLine ++ [] :: r2)) acc =
      some (acc ++ row :: grest, r2)
    rw [loadRowsAux]
    simp only [rowLine_strip hmr]
    rw [if_neg (by
      simp only [List.isEmpty_iff]
      intro hx
      exact hner (by
        cases row with
        | nil => rfl
        | cons a t => simp [rowLine] at hx))]
    rw [parseRow_rowLine hmr]
    simp only
    rw [ih (acc ++ [row]) r2 (fun r hr => hm r (List.mem_cons_of_mem _ hr))
      (fun r hr => hne r (List.mem_cons_of_mem _ hr))]
    simp

/-- **C4.**  Round trip: deserializing the file serialized by
`MazeGenerator.save` (hex rows, blank separator line, two coordinate
lines) reproduces the original grid values, width, height, entry and
exit exactly, for every valid grid of masks `0–15` with in-bounds
coordinates. -/
theorem codec_roundtrip (g : Grid) (w h : Nat) (en xt : Nat × Nat)
    (hh : g.length = h) (hw : ∀ row ∈ g, row.length = w)
    (hm : ∀ row ∈ g, ∀ v ∈ row, v < 16)
    (hw1 : 1 ≤ w) (hh1 : 1 ≤ h)
    (hen : en.1 < w ∧ en.2 < h) (hxt : xt.1 < w ∧ xt.2 < h) :
    loadMaze (saveLines g en xt) = some (g, w, h, some en, some xt) := by
  unfold loadMaze saveLines
  have hne : ∀ row ∈ g, row ≠ [] := by
    intro row hr hcon
    have := hw row hr
    rw [hcon] at this
    simp at this
    omega
  have hrows := loadRowsAux_saveRows g [] [coordLineSp en, coordLineSp xt]
    hm hne
  rw [show (g.map rowLine ++ [[], coordLineSp en, coordLineSp xt]) =
    (g.map rowLine ++ [] :: [coordLineSp en, coordLineSp xt]) from by simp,
    hrows]
  simp only [List.nil_append]
  rw [parseCoord_coordLineSp, parseCoord_coordLineSp]
  simp only [hh]
  have hgne : g ≠ [] := by
    intro hcon
    rw [hcon] at hh
    simp at hh
    omega
  obtain ⟨r0, grest, rfl⟩ : ∃ r0 grest, g = r0 :: grest := by
    cases g with
    | nil => exact absurd rfl hgne
    | cons r0 grest => exact ⟨r0, grest, rfl⟩
  simp only [List.headD_cons]
  rw [hw r0 (List.mem_cons_self _ _)]

/-- Witness for C4: the round trip on a concrete 1×1 grid. -/
theorem codec_roundtrip_witness :
    loadMaze (saveLines [[15]] (0, 0) (0, 0)) =
      some ([[15]], 1, 1, some (0, 0), some (0, 0)) :=
  codec_roundtrip [[15]] 1 1 (0, 0) (0, 0) (by decide)
    (by decide) (by decide) (by decide) (by decide) (by decide) (by decide)

/-! ## `mazegen_hak.py`: the Cell-object Hunt-and-Kill generator

`Cell` objects carry their coordinates, a wall mask and a visited flag;
the grid is `grid[y][x]` with `x` the column.  All cell accesses in the
source are guarded to be in range, so reads use a default value that no
in-range run ever observes. -/

structure HCell where
  x : Nat
  y : Nat
  walls : Nat
  visited : Bool
deriving DecidableEq

/-- Out-of-range read default (all accesses in the source are in range). -/
def hzero : HCell := ⟨0, 0, 15, false⟩

abbrev HGrid := List (List HCell)

/-- `self.grid[yy][xx]`. -/
def hGet (g : HGrid) (yy xx : Nat) : HCell := (g.getD yy []).getD xx hzero

/-- Replace the cell at `(yy, xx)`. -/
def hSet (g : HGrid) (yy xx : Nat) (c : HCell) : HGrid :=
  g.set yy ((g.getD yy []).set xx c)

/-- `Cell.remove_wall(direction)`: `walls &= ~direction`. -/
def hRemoveWall (g : HGrid) (yy xx : Nat) (d : Nat) : HGrid :=
  hSet g yy xx { hGet g yy xx with walls := Nat.ldiff (hGet g yy xx).walls d }

/-- `cell.visited = True`. -/
def hSetVisited (g : HGrid) (yy xx : Nat) : HGrid :=
  hSet g yy xx { hGet g yy xx with visited := true }

/-- `_opposite`: NORTH(1) ↔ SOUTH(4), EAST(2) ↔ WEST(8, the `else`). -/
def hOpp (d : Nat) : Nat :=
  if d = 1 then 4 else if d = 4 then 1 else if d = 2 then 8 else 2

/-- `_create_grid`: all walls closed, coordinates stored per cell. -/
def hCreateGrid (w h : Nat) : HGrid :=
  (List.range h).map fun y => (List.range w).map fun x => ⟨x, y, 15, false⟩

/-- `_get_unvisited_neighbors`: N, E, S, W order with bounds guards. -/
def hUnvisitedNeighbors (g : HGrid) (w h : Nat) (c : HCell) :
    List (HCell × Nat) :=
  (if 0 < c.y ∧ (hGet g (c.y - 1) c.x).visited = false
   then [(hGet g (c.y - 1) c.x, 1)] else []) ++
  (if c.x < w - 1 ∧ (hGet g c.y (c.x + 1)).visited = false
   then [(hGet g c.y (c.x + 1), 2)] else []) ++
  (if c.y < h - 1 ∧ (hGet g (c.y + 1) c.x).visited = false
   then [(hGet g (c.y + 1) c.x, 4)] else []) ++
  (if 0 < c.x ∧ (hGet g c.y (c.x - 1)).visited = false
   then [(hGet g c.y (c.x - 1), 8)] else [])

/-- `_get_visited_neighbors`: same scan for visited neighbours. -/
def hVisitedNeighbors (g : HGrid) (w h : Nat) (c : HCell) :
    List (HCell × Nat) :=
  (if 0 < c.y ∧ (hGet g (c.y - 1) c.x).visited = true
   then [(hGet g (c.y - 1) c.x, 1)] else []) ++
  (if c.x < w - 1 ∧ (hGet g c.y (c.x + 1)).visited = true
   then [(hGet g c.y (c.x + 1), 2)] else []) ++
  (if c.y < h - 1 ∧ (hGet g (c.y + 1) c.x).visited = true
   then [(hGet g (c.y + 1) c.x, 4)] else []) ++
  (if 0 < c.x ∧ (hGet g c.y (c.x - 1)).visited = true
   then [(hGet g c.y (c.x - 1), 8)] else [])

/-- `_kill`: walk to random unvisited neighbours until stuck, opening
the wall both ways and marking each step visited.  `k` is the position
in the random stream (`random.choice`), advanced once per choice; the
fuel strictly exceeds the number of steps (each step marks a fresh cell
visited). -/
def hKill (o : Nat → Nat) (w h : Nat) :
    Nat → Nat → HGrid → HCell → HGrid × HCell × Nat
  | 0, k, g, c => (g, c, k)
  | fuel + 1, k, g, c =>
    let ns := hUnvisitedNeighbors g w h c
    if ns.isEmpty then (g, c, k)
    else
      let pick := ns.getD (o k % ns.length) (hzero, 1)
      let g1 := hRemoveWall g c.y c.x pick.2
      let g2 := hRemoveWall g1 pick.1.y pick.1.x (hOpp pick.2)
      let g3 := hSetVisited g2 pick.1.y pick.1.x
      hKill o w h fuel (k + 1) g3 (hGet g3 pick.1.y pick.1.x)

/-- The row-major scan order of `_hunt` (and of `_create_loops`):
`for y in range(height): for x in range(width)` as `(y, x)` pairs. -/
def hScanCoords (w h : Nat) : List (Nat × Nat) :=
  (List.range h) ×ˢ (List.range w)

/-- `_hunt`: first unvisited cell with a visited neighbour; open a wall
to a random visited neighbour, mark it visited, return it. -/
def hHuntAux (o : Nat → Nat) (k w h : Nat) (g : HGrid) :
    List (Nat × Nat) → Option (HGrid × HCell)
  | [] => none
  | (yy, xx) :: rest =>
    let c := hGet g yy xx
    if c.visited then hHuntAux o k w h g rest
    else
      let ns := hVisitedNeighbors g w h c
      if ns.isEmpty then hHuntAux o k w h g rest
      else
        let pick := ns.getD (o k % ns.length) (hzero, 1)
        let g1 := hRemoveWall g c.y c.x pick.2
        let g2 := hRemoveWall g1 pick.1.y pick.1.x (hOpp pick.2)
        let g3 := hSetVisited g2 c.y c.x
        some (g3, hGet g3 c.y c.x)

def hHunt (o : Nat → Nat) (k w h : Nat) (g : HGrid) :
    Option (HGrid × HCell) :=
  hHuntAux o k w h g (hScanCoords w h)

/-- `_all_visited`. -/
def hAllVisited (g : HGrid) : Bool := g.all fun row => row.all (·.visited)

/-- The `while not self._all_visited()` loop of `generate`: kill, then
hunt, continuing from the hunted cell.  When hunt finds nothing while
unvisited cells remain the Python loop never terminates; the fuel bound
models that unreachable divergence by returning the current grid. -/
def hGenLoop (o : Nat → Nat) (w h : Nat) :
    Nat → Nat → HGrid → HCell → HGrid
  | 0, _, g, _ => g
  | fuel + 1, k, g, c =>
    if hAllVisited g then g
    else
      let r1 := hKill o w h (w * h + 1) k g c
      match hHunt o r1.2.2 w h r1.1 with
      | none =>
        if hAllVisited r1.1 then r1.1
        else hGenLoop o w h fuel (r1.2.2 + 1) r1.1 r1.2.1
      | some (g2, c2) => hGenLoop o w h fuel (r1.2.2 + 1) g2 c2

/-- `random.sample(l, n)`: pick `n` distinct positions, one uniformly
random remaining element at a time. -/
def sampleIdx (o : Nat → Nat) : Nat → Nat → List α → List α
  | _, 0, _ => []
  | k, n + 1, l =>
    if l.isEmpty then []
    else
      let i := o k % l.length
      match l.get? i with
      | none => []
      | some a => a :: sampleIdx o (k + 1) n (l.eraseIdx i)

/-- `_create_loops`' candidate enumeration: every still-standing EAST
wall keyed at its left cell and every SOUTH wall keyed at its top cell,
in row-major order (`has_wall` is `walls & direction`). -/
def removableWalls (g : HGrid) (w h : Nat) : List (HCell × HCell × Nat) :=
  (hScanCoords w h).flatMap fun p =>
    let c := hGet g p.1 p.2
    (if p.2 < w - 1 ∧ (c.walls &&& 2) ≠ 0
     then [(c, hGet g p.1 (p.2 + 1), 2)] else []) ++
    (if p.1 < h - 1 ∧ (c.walls &&& 4) ≠ 0
     then [(c, hGet g (p.1 + 1) p.2, 4)] else [])

/-- `_create_loops`: `num_to_remove = int(len(removable_walls) * 0.05)`.
The float product `n * 0.05` rounds to a value whose truncation is
`n / 20` for every grid-realistic `n` (the fractional parts of `n / 20`
are multiples of `1/20`, far beyond the rounding error), so the count is
modelled as `n / 20`.  Each sampled wall is opened on both sides. -/
def hCreateLoops (o : Nat → Nat) (g : HGrid) (w h : Nat) : HGrid :=
  let cands := removableWalls g w h
  let num := cands.length / 20
  let chosen := sampleIdx o 0 num cands
  chosen.foldl
    (fun gg t =>
      hRemoveWall (hRemoveWall gg t.1.y t.1.x t.2.2) t.2.1.y t.2.1.x
        (hOpp t.2.2))
    g

/-- `HaKMazeGenerator.__init__` + `generate`: fully-walled grid, random
start cell (`randint` twice), the kill/hunt loop, then `_create_loops`
exactly when the perfection flag `is False`. -/
def hGen (o : Nat → Nat) (w h : Nat) (perfect : Option Bool) : HGrid :=
  let g0 := hCreateGrid w h
  let sy := o 0 % h
  let sx := o 1 % w
  let g1 := hSetVisited g0 sy sx
  let gT := hGenLoop o w h (w * h + 1) 2 g1 (hGet g1 sy sx)
  if perfect = some false then hCreateLoops o gT w h else gT

/-- The lines written by `HaKMazeGenerator.save`: hex rows from
`to_hex`, a blank line, then the `X,Y` coordinate lines (no space). -/
def hakSaveLines (g : HGrid) (en xt : Nat × Nat) : List Line :=
  g.map (fun row => row.map fun c => hexDigit c.walls) ++
    [[], coordLineHak en, coordLineHak xt]

/-! ## `mazegen/hak.py`: the integer-grid Hunt-and-Kill generator

Shares `DIRS`/`OPP` (= `neighborsList`/`oppositeWall`) and the carving
lines with the DFS variants; `(x, y)` is `(row, col)` as in the DFS.
`k` threads the random-stream position of `random.choice`. -/

/-- The neighbour scan `for i, (dx, dy) in enumerate(DIRS)` of `kill`
(with `wantVisited = false`) and `hunt` (with `wantVisited = true`):
in-range targets whose membership in `visited` matches the flag,
together with the direction index. -/
def dirCandidates (w h : Nat) (vis : List Cell) (x y : Int)
    (wantVisited : Bool) : List (Int × Int × Nat) :=
  (List.range neighborsList.length).filterMap fun i =>
    match neighborsList.get? i with
    | none => none
    | some (dx, dy) =>
      if 0 ≤ x + dx ∧ x + dx < (h : Int) ∧ 0 ≤ y + dy ∧ y + dy < (w : Int) ∧
          ((x + dx, y + dy) ∈ vis) = (wantVisited = true)
      then some (x + dx, y + dy, i)
      else none

/-- The `while True` of `kill`: carve to random unvisited neighbours
until stuck; `none` models an `IndexError` while carving (only possible
from an out-of-range start cell). -/
def killLoop (o : Nat → Nat) (w h : Nat) :
    Nat → Nat → Grid → List Cell → Int → Int →
      Option (Grid × List Cell × Cell × Nat)
  | 0, _, _, _, _, _ => none
  | fuel + 1, k, g, vis, x, y =>
    let ns := dirCandidates w h vis x y false
    if ns.isEmpty then some (g, vis, (x, y), k)
    else
      let pick := ns.getD (o k % ns.length) (0, 0, 0)
      match carve g x y pick.2.2 pick.1 pick.2.1
          (oppositeWall.getD pick.2.2 0) with
      | none => none
      | some g2 =>
        killLoop o w h fuel (k + 1) g2 ((pick.1, pick.2.1) :: vis)
          pick.1 pick.2.1

/-- `hunt`: row-major scan (`for x in range(height): for y in
range(width)`) for the first unvisited cell with visited neighbours;
carve to a random one and return the cell. -/
def huntPkgAux (o : Nat → Nat) (k : Nat) (w h : Nat) (g : Grid)
    (vis : List Cell) : List Cell → Option (Option (Grid × List Cell × Cell))
  | [] => some none
  | (x, y) :: rest =>
    if (x, y) ∈ vis then huntPkgAux o k w h g vis rest
    else
      let cs := dirCandidates w h vis x y true
      if cs.isEmpty then huntPkgAux o k w h g vis rest
      else
        let pick := cs.getD (o k % cs.length) (0, 0, 0)
        match carve g x y pick.2.2 pick.1 pick.2.1
            (oppositeWall.getD pick.2.2 0) with
        | none => none
        | some g2 => some (some (g2, (x, y) :: vis, (x, y)))

def huntPkg (o : Nat → Nat) (k : Nat) (w h : Nat) (g : Grid)
    (vis : List Cell) : Option (Option (Grid × List Cell × Cell)) :=
  huntPkgAux o k w h g vis (gridCells w h)

/-- The outer `while True: kill; hunt; if not found: break` of `hak`. -/
def hakLoopPkg (o : Nat → Nat) (w h : Nat) :
    Nat → Nat → Grid → List Cell → Int → Int → Option (Grid × List Cell)
  | 0, _, _, _, _, _ => none
  | fuel + 1, k, g, vis, x, y =>
    match killLoop o w h (w * h + 1) k g vis x y with
    | none => none
    | some (g1, vis1, c1, k1) =>
      match huntPkg o k1 w h g1 vis1 with
      | none => none
      | some none => some (g1, vis1)
      | some (some (g2, vis2, c2)) =>
        hakLoopPkg o w h fuel (k1 + 1) g2 vis2 c2.1 c2.2

/-- `hak` of `mazegen/hak.py`: start from the entry (as `(row, col)`,
like the DFS), visited seeded with it, fully-walled grid. -/
def hakRunPkg (w h : Nat) (entry : Cell) (o : Nat → Nat) :
    Option (Grid × List Cell) :=
  hakLoopPkg o w h (w * h + 1) 0 (fullGrid w h) [entry] entry.1 entry.2

/-- `MazeGenerator.generate` of `mazegen/mazegen.py`: dispatch on the
algorithm name, `dfs` for anything unrecognised.  The perfection flag is
a field of the generator but — unlike `mazegen_hak.py` — is never read
here: no loop-carving step exists in the package generator. -/
def pkgGenerate (alg : Option String) (perfect : Bool) (w h : Nat)
    (entry : Cell) (o : Nat → Nat) : Option (Grid × List Cell) :=
  match alg with
  | some "dfs" => dfs42Run w h entry o
  | some "hak" => hakRunPkg w h entry o
  | _ => dfs42Run w h entry o

/-! ## Claim C8: the coordinate-line pattern -/

theorem decDigit_digit_range : ∀ d, d < 10 →
    (decide ('0' ≤ decDigit d) && decide (decDigit d ≤ '9')) = true := by
  decide

theorem decDigit_ne_space : ∀ d, d < 10 → decDigit d ≠ ' ' := by decide

theorem isDigits_natRepr (n : Nat) : isDigits (natRepr n) = true := by
  unfold isDigits
  apply Bool.and_eq_true_iff.mpr
  constructor
  · simpa using natRepr_ne_nil n
  · apply List.all_eq_true.mpr
    intro c hc
    obtain ⟨d, hd, rfl⟩ := natRepr_digits hc
    exact decDigit_digit_range d hd

theorem pySplitComma_coordLineSp (a b : Nat) :
    pySplitComma (coordLineSp (a, b)) = [natRepr a, ' ' :: natRepr b] := by
  unfold coordLineSp
  have hshape : natRepr a ++ [','] ++ [' '] ++ natRepr b =
      natRepr a ++ ',' :: (' ' :: natRepr b) := by simp
  rw [hshape, pySplitComma_append (fun c hc => natRepr_ne_comma hc)]
  rw [pySplitComma_no_comma (l := ' ' :: natRepr b) (by
    intro c hc
    rcases List.mem_cons.mp hc with rfl | hc
    · simp
    · exact natRepr_ne_comma hc)]

theorem coordPattern_coordLineSp (a b : Nat) :
    coordPattern (coordLineSp (a, b)) = true := by
  unfold coordPattern
  rw [pySplitComma_coordLineSp]
  simp only [isDigits_natRepr, Bool.true_and]
  rw [spaceThenDigits]
  simp [isDigits_natRepr]

theorem coordPattern_coordLineHak (a b : Nat) :
    coordPattern (coordLineHak (a, b)) = false := by
  unfold coordPattern coordLineHak
  have hshape : natRepr a ++ [','] ++ natRepr b =
      natRepr a ++ ',' :: natRepr b := by simp
  rw [hshape, pySplitComma_append (fun c hc => natRepr_ne_comma hc)]
  rw [pySplitComma_no_comma (l := natRepr b)
    (fun c hc => natRepr_ne_comma hc)]
  simp only
  obtain ⟨b0, tb, hnb⟩ : ∃ b0 tb, natRepr b = b0 :: tb := by
    cases hrb : natRepr b with
    | nil => exact absurd hrb (natRepr_ne_nil b)
    | cons b0 tb => exact ⟨b0, tb, rfl⟩
  rw [hnb]
  have hb0 : b0 ≠ ' ' := by
    have : b0 ∈ natRepr b := by rw [hnb]; exact List.mem_cons_self _ _
    obtain ⟨d, hd, rfl⟩ := natRepr_digits this
    exact decDigit_ne_space d hd
  have hm : spaceThenDigits (b0 :: tb) = false := by
    rw [spaceThenDigits]
    simp [hb0]
  simp only [hm, Bool.and_false]

theorem lines_getD_append (A B : List Line) (k : Nat) :
    (A ++ B).getD (A.length + k) [] = B.getD k [] := by
  induction A with
  | nil => simp
  | cons a t ih =>
    show ((a :: (t ++ B)).getD (t.length + 1 + k) []) = B.getD k []
    have hsh : t.length + 1 + k = (t.length + k) + 1 := by omega
    rw [hsh, List.getD_cons_succ, ih]

/-- **C8 counterexample.**  `HaKMazeGenerator.save` writes its entry
coordinate line without the space: on a 1×1 grid with entry `(1, 2)` the
line is `1,2`, which does not match the `X, Y` pattern, refuting the
claim that every save/write operation uses `X, Y`. -/
theorem hak_save_coordinate_line_without_space :
    (hakSaveLines [[⟨0, 0, 15, false⟩]] (1, 2) (3, 4)).getD 2 [] =
      ['1', ',', '2'] ∧
      coordPattern ['1', ',', '2'] = false := by
  constructor
  · decide
  · decide

/-- **C8 (amended).**  `MazeGenerator.save` (`mazegen.py`) and
`MazeGenerator.write` (`mazegen/mazegen.py`) write both coordinate lines
in the literal `X, Y` pattern (comma plus a single space), whereas
`HaKMazeGenerator.save` (`mazegen_hak.py`) writes `X,Y` with no space,
so its coordinate lines never match the pattern. -/
theorem coordinate_line_patterns (g : Grid) (hg : HGrid)
    (en xt : Nat × Nat) :
    coordPattern ((saveLines g en xt).getD (g.length + 1) []) = true ∧
    coordPattern ((saveLines g en xt).getD (g.length + 2) []) = true ∧
    coordPattern ((writeLines g en xt).getD (g.length + 1) []) = true ∧
    coordPattern ((writeLines g en xt).getD (g.length + 2) []) = true ∧
    coordPattern ((hakSaveLines hg en xt).getD (hg.length + 1) []) = false ∧
    coordPattern ((hakSaveLines hg en xt).getD (hg.length + 2) []) = false := by
  obtain ⟨e1, e2⟩ := en
  obtain ⟨x1, x2⟩ := xt
  have hs1 : (saveLines g (e1, e2) (x1, x2)).getD (g.length + 1) [] =
      coordLineSp (e1, e2) := by
    unfold saveLines
    rw [show g.length = (g.map rowLine).length from
      (List.length_map _ _).symm, lines_getD_append]
    rfl
  have hs2 : (saveLines g (e1, e2) (x1, x2)).getD (g.length + 2) [] =
      coordLineSp (x1, x2) := by
    unfold saveLines
    rw [show g.length = (g.map rowLine).length from
      (List.length_map _ _).symm, lines_getD_append]
    rfl
  have hw1 : (writeLines g (e1, e2) (x1, x2)).getD (g.length + 1) [] =
      coordLineSp (e1, e2) := by
    unfold writeLines
    rw [show g.length = (g.map rowLine).length from
      (List.length_map _ _).symm, lines_getD_append]
    rfl
  have hw2 : (writeLines g (e1, e2) (x1, x2)).getD (g.length + 2) [] =
      coordLineSp (x1, x2) := by
    unfold writeLines
    rw [show g.length = (g.map rowLine).length from
      (List.length_map _ _).symm, lines_getD_append]
    rfl
  have hk1 : (hakSaveLines hg (e1, e2) (x1, x2)).getD (hg.length + 1) [] =
      coordLineHak (e1, e2) := by
    unfold hakSaveLines
    rw [show hg.length =
      (hg.map (fun row => row.map fun c => hexDigit c.walls)).length from
      (List.length_map _ _).symm, lines_getD_append]
    rfl
  have hk2 : (hakSaveLines hg (e1, e2) (x1, x2)).getD (hg.length + 2) [] =
      coordLineHak (x1, x2) := by
    unfold hakSaveLines
    rw [show hg.length =
      (hg.map (fun row => row.map fun c => hexDigit c.walls)).length from
      (List.length_map _ _).symm, lines_getD_append]
    rfl
  rw [hs1, hs2, hw1, hw2, hk1, hk2]
  exact ⟨coordPattern_coordLineSp e1 e2, coordPattern_coordLineSp x1 x2,
    coordPattern_coordLineSp e1 e2, coordPattern_coordLineSp x1 x2,
    coordPattern_coordLineHak e1 e2, coordPattern_coordLineHak x1 x2⟩

/-- Witness for the amended C8 at concrete grids and coordinates. -/
theorem coordinate_line_patterns_witness :
    coordPattern ((saveLines [[15]] (0, 1) (2, 3)).getD 2 []) = true ∧
      coordPattern ((hakSaveLines [[⟨0, 0, 15, false⟩]] (0, 1)
        (2, 3)).getD 2 []) = false :=
  ⟨(coordinate_line_patterns [[15]] [[⟨0, 0, 15, false⟩]] (0, 1) (2, 3)).1,
    (coordinate_line_patterns [[15]] [[⟨0, 0, 15, false⟩]] (0, 1)
      (2, 3)).2.2.2.2.1⟩

/-! ## `pathfinder.py PathFinder`

The pathfinder's `(x, y)` has `x` the column: it reads
`walls = self.grid[y][x]`.  Coordinates are `Nat` (the engine writes
non-negative coordinates; the claims below all concern in-bounds cells).
-/

/-- `_get_neighbors`: accessible neighbours of `pos` in the fixed
N, E, S, W order.  Only the **current** cell's wall bits are tested
(`walls & (1 << k)`); the neighbour's opposite bit is not consulted.
`none` models the `IndexError` of reading `grid[y][x]` out of range. -/
def getNeighbors (grid : Grid) (width height : Nat) (p : Nat × Nat) :
    Option (List ((Nat × Nat) × Char)) :=
  match grid.get? p.2 with
  | none => none
  | some row =>
    match row.get? p.1 with
    | none => none
    | some walls =>
      some
        ((if 0 < p.2 ∧ (walls &&& (1 <<< 0)) = 0
          then [((p.1, p.2 - 1), 'N')] else []) ++
         (if p.1 < width - 1 ∧ (walls &&& (1 <<< 1)) = 0
          then [((p.1 + 1, p.2), 'E')] else []) ++
         (if p.2 < height - 1 ∧ (walls &&& (1 <<< 2)) = 0
          then [((p.1, p.2 + 1), 'S')] else []) ++
         (if 0 < p.1 ∧ (walls &&& (1 <<< 3)) = 0
          then [((p.1 - 1, p.2), 'W')] else []))

/-- One step of the pathfinder's traversal graph: `b` is enumerated by
`_get_neighbors` from `a`. -/
def PathStep (grid : Grid) (w h : Nat) (a b : Nat × Nat) : Prop :=
  ∃ ns c, getNeighbors grid w h a = some ns ∧ (b, c) ∈ ns

/-- Walks of exactly `n` edges in the traversal graph. -/
def WalkLen (grid : Grid) (w h : Nat) : Nat → (Nat × Nat) → (Nat × Nat) → Prop
  | 0, a, b => a = b
  | n + 1, a, b =>
    ∃ p ∈ (getNeighbors grid w h a).getD [], WalkLen grid w h n p.1 b

def walkLenDec (grid : Grid) (w h : Nat) :
    (n : Nat) → (a b : Nat × Nat) → Decidable (WalkLen grid w h n a b)
  | 0, a, b => by unfold WalkLen; infer_instance
  | n + 1, a, b => by
    unfold WalkLen
    have inst := fun (p : (Nat × Nat) × Char) => walkLenDec grid w h n p.1 b
    exact List.decidableBEx _ _

instance (grid : Grid) (w h n : Nat) (a b : Nat × Nat) :
    Decidable (WalkLen grid w h n a b) := walkLenDec grid w h n a b

/-- Reachability in the pathfinder's traversal graph. -/
def Reach (grid : Grid) (w h : Nat) (a b : Nat × Nat) : Prop :=
  ∃ n, WalkLen grid w h n a b

/-- Follow a direction string step by step through the traversal
graph. -/
def follow (grid : Grid) (w h : Nat) :
    (Nat × Nat) → List Char → Option (Nat × Nat)
  | p, [] => some p
  | p, c :: cs =>
    match getNeighbors grid w h p with
    | none => none
    | some ns =>
      match ns.find? (fun q => q.2 = c) with
      | none => none
      | some q => follow grid w h q.1 cs

/-- Result of `find_path`: `crash` models an uncaught exception (or the
divergence of a cyclic parent chain, which the invariants below rule
out), `noPath` is the `None` return, `found` a returned string. -/
inductive PFResult
  | crash
  | noPath
  | found (p : List Char)
deriving DecidableEq

/-- `_build_path`: walk the parent map from `end` back to `start`,
collecting direction characters.  The fuel (`buildPath` passes one more
than the number of parent entries) exceeds the chain length whenever the
parent map is acyclic, which BFS guarantees. -/
def buildPathAux (pm : List ((Nat × Nat) × (Nat × Nat)))
    (dm : List ((Nat × Nat) × Char)) (start : Nat × Nat) :
    Nat → (Nat × Nat) → List Char → Option (List Char)
  | 0, _, _ => none
  | fuel + 1, cur, acc =>
    if cur = start then some acc
    else
      match dm.lookup cur with
      | none => none
      | some d =>
        match pm.lookup cur with
        | none => none
        | some p => buildPathAux pm dm start fuel p (d :: acc)

def buildPath (pm : List ((Nat × Nat) × (Nat × Nat)))
    (dm : List ((Nat × Nat) × Char)) (start tgt : Nat × Nat) :
    Option (List Char) :=
  buildPathAux pm dm start (pm.length + 1) tgt []

/-- The `for neighbor, dir_char in self._get_neighbors(current)` body:
append fresh neighbours to the queue, mark them visited, record parent
and direction. -/
def processNs (cur : Nat × Nat) :
    List ((Nat × Nat) × Char) → List (Nat × Nat) → List (Nat × Nat) →
    List ((Nat × Nat) × (Nat × Nat)) → List ((Nat × Nat) × Char) →
    List (Nat × Nat) × List (Nat × Nat) ×
      List ((Nat × Nat) × (Nat × Nat)) × List ((Nat × Nat) × Char)
  | [], q, vis, pm, dm => (q, vis, pm, dm)
  | (n, c) :: rest, q, vis, pm, dm =>
    if n ∈ vis then processNs cur rest q vis pm dm
    else
      processNs cur rest (q ++ [n]) (n :: vis) ((n, cur) :: pm)
        ((n, c) :: dm)

/-- The BFS `while queue` loop of `find_path`.  The fuel passed by
`findPath` strictly exceeds the iteration count (each iteration pops one
entry and every enqueue marks a fresh visited cell). -/
def bfsLoop (grid : Grid) (w h : Nat) (start tgt : Nat × Nat) :
    Nat → List (Nat × Nat) → List (Nat × Nat) →
    List ((Nat × Nat) × (Nat × Nat)) → List ((Nat × Nat) × Char) →
      PFResult
  | 0, _, _, _, _ => .crash
  | fuel + 1, q, vis, pm, dm =>
    match q with
    | [] => .noPath
    | cur :: rest =>
      if cur = tgt then
        match buildPath pm dm start tgt with
        | some p => .found p
        | none => .crash
      else
        match getNeighbors grid w h cur with
        | none => .crash
        | some ns =>
          let st := processNs cur ns rest vis pm dm
          bfsLoop grid w h start tgt fuel st.1 st.2.1 st.2.2.1 st.2.2.2

/-- `find_path`: width and height as `_load_maze` derives them, BFS from
the entry with the entry pre-visited. -/
def findPath (grid : Grid) (en xt : Nat × Nat) : PFResult :=
  bfsLoop grid (grid.headD []).length grid.length en xt
    (2 * ((grid.headD []).length * grid.length) + 2) [en] [en] [] []

/-! ## Claim C7: the neighbour test reads one side only -/

/-- Wall mask of a pathfinder cell (in-bounds reads only). -/
def maskAt (g : Grid) (p : Nat × Nat) : Nat := (g.getD p.2 []).getD p.1 0

/-- Grid adjacency of two pathfinder cells (column, row). -/
def gridAdjP (a b : Nat × Nat) : Prop :=
  (a.2 = b.2 ∧ (b.1 = a.1 + 1 ∨ a.1 = b.1 + 1)) ∨
    (a.1 = b.1 ∧ (b.2 = a.2 + 1 ∨ a.2 = b.2 + 1))

/-- Direction index (N=0, E=1, S=2, W=3) from `a` to an adjacent `b`. -/
def dirIdxP (a b : Nat × Nat) : Nat :=
  if b.2 + 1 = a.2 then 0
  else if b.1 = a.1 + 1 then 1
  else if b.2 = a.2 + 1 then 2
  else 3

theorem mem_if_singleton {α : Type} {P : Prop} [Decidable P] {x y : α} :
    (y ∈ if P then [x] else []) ↔ P ∧ y = x := by
  split <;> simp_all

instance {a b : Nat × Nat} : Decidable (gridAdjP a b) := by
  unfold gridAdjP
  infer_instance

/-- **C7 counterexample.**  On the asymmetric 1×2 grid `[[13, 15]]`
(cell `(0,0)` has its East bit clear but cell `(1,0)` keeps its West
bit), `_get_neighbors` still yields `(1,0)` from `(0,0)`: the neighbour
is enumerated even though its own wall bit facing the current cell is
set, refuting the claimed "neither cell's bit" test. -/
theorem getNeighbors_ignores_far_side :
    getNeighbors [[13, 15]] 2 1 (0, 0) = some [((1, 0), 'E')] ∧
      (maskAt [[13, 15]] (1, 0)) &&& (1 <<< 3) ≠ 0 := by
  constructor
  · decide
  · decide

/-- **C7 (amended).**  For every grid and every in-bounds pair of
grid-adjacent cells, `_get_neighbors` yields the neighbour iff the
**current** cell's wall bit facing it is clear — the neighbour's own
facing bit is not consulted. -/
theorem getNeighbors_iff_current_bit_clear (g : Grid) (w h : Nat)
    (a b : Nat × Nat) (hh : g.length = h) (hw : ∀ row ∈ g, row.length = w)
    (ha1 : a.1 < w) (ha2 : a.2 < h) (hb1 : b.1 < w) (hb2 : b.2 < h)
    (hadj : gridAdjP a b) :
    ∃ ns, getNeighbors g w h a = some ns ∧
      ((∃ c, (b, c) ∈ ns) ↔ (maskAt g a) &&& (1 <<< dirIdxP a b) = 0) := by
  obtain ⟨a1, a2⟩ := a
  obtain ⟨b1, b2⟩ := b
  simp only at ha1 ha2 hb1 hb2
  have hlt2 : a2 < g.length := by omega
  have hg2 : g.get? a2 = some (g.get ⟨a2, hlt2⟩) := List.get?_eq_get hlt2
  have hrl : (g.get ⟨a2, hlt2⟩).length = w := hw _ (g.get_mem _ _)
  have hlt1 : a1 < (g.get ⟨a2, hlt2⟩).length := by omega
  have hg1 : (g.get ⟨a2, hlt2⟩).get? a1 =
      some ((g.get ⟨a2, hlt2⟩).get ⟨a1, hlt1⟩) := List.get?_eq_get hlt1
  have hmask : maskAt g (a1, a2) = (g.get ⟨a2, hlt2⟩).get ⟨a1, hlt1⟩ := by
    unfold maskAt
    simp only
    rw [List.getD_eq_getD_get?, List.getD_eq_getD_get?, hg2]
    simp only [Option.getD_some]
    rw [hg1]
    rfl
  set walls := (g.get ⟨a2, hlt2⟩).get ⟨a1, hlt1⟩ with hwalls
  have hns : getNeighbors g w h (a1, a2) =
      some ((if 0 < a2 ∧ (walls &&& (1 <<< 0)) = 0
          then [((a1, a2 - 1), 'N')] else []) ++
        (if a1 < w - 1 ∧ (walls &&& (1 <<< 1)) = 0
          then [((a1 + 1, a2), 'E')] else []) ++
        (if a2 < h - 1 ∧ (walls &&& (1 <<< 2)) = 0
          then [((a1, a2 + 1), 'S')] else []) ++
        (if 0 < a1 ∧ (walls &&& (1 <<< 3)) = 0
          then [((a1 - 1, a2), 'W')] else [])) := by
    simp only [getNeighbors, hg2, hg1]
  refine ⟨_, hns, ?_⟩
  rw [hmask]
  simp only [List.append_assoc, List.mem_append, mem_if_singleton,
    Prod.mk.injEq]
  unfold gridAdjP at hadj
  simp only at hadj
  unfold dirIdxP
  simp only
  rcases hadj with ⟨hr, he | hw'⟩ | ⟨hc, hs | hn⟩
  · -- East: b = (a1 + 1, a2)
    rw [if_neg (by omega), if_pos (by omega)]
    constructor
    · rintro ⟨c, (⟨⟨hc1, hc2⟩, ⟨e1, e2⟩, ec⟩ | ⟨⟨hc1, hc2⟩, ⟨e1, e2⟩, ec⟩ |
        ⟨⟨hc1, hc2⟩, ⟨e1, e2⟩, ec⟩ | ⟨⟨hc1, hc2⟩, ⟨e1, e2⟩, ec⟩)⟩
      · omega
      · exact hc2
      · omega
      · omega
    · intro hbit
      exact ⟨'E', Or.inr (Or.inl ⟨⟨by omega, hbit⟩, ⟨by omega, by omega⟩,
        rfl⟩)⟩
  · -- West: a1 = b1 + 1
    rw [if_neg (by omega), if_neg (by omega), if_neg (by omega)]
    constructor
    · rintro ⟨c, (⟨⟨hc1, hc2⟩, ⟨e1, e2⟩, ec⟩ | ⟨⟨hc1, hc2⟩, ⟨e1, e2⟩, ec⟩ |
        ⟨⟨hc1, hc2⟩, ⟨e1, e2⟩, ec⟩ | ⟨⟨hc1, hc2⟩, ⟨e1, e2⟩, ec⟩)⟩
      · omega
      · omega
      · omega
      · exact hc2
    · intro hbit
      exact ⟨'W', Or.inr (Or.inr (Or.inr ⟨⟨by omega, hbit⟩,
        ⟨by omega, by omega⟩, rfl⟩))⟩
  · -- South: b2 = a2 + 1
    rw [if_neg (by omega), if_neg (by omega), if_pos (by omega)]
    constructor
    · rintro ⟨c, (⟨⟨hc1, hc2⟩, ⟨e1, e2⟩, ec⟩ | ⟨⟨hc1, hc2⟩, ⟨e1, e2⟩, ec⟩ |
        ⟨⟨hc1, hc2⟩, ⟨e1, e2⟩, ec⟩ | ⟨⟨hc1, hc2⟩, ⟨e1, e2⟩, ec⟩)⟩
      · omega
      · omega
      · exact hc2
      · omega
    · intro hbit
      exact ⟨'S', Or.inr (Or.inr (Or.inl ⟨⟨by omega, hbit⟩,
        ⟨by omega, by omega⟩, rfl⟩))⟩
  · -- North: a2 = b2 + 1
    rw [if_pos (by omega)]
    constructor
    · rintro ⟨c, (⟨⟨hc1, hc2⟩, ⟨e1, e2⟩, ec⟩ | ⟨⟨hc1, hc2⟩, ⟨e1, e2⟩, ec⟩ |
        ⟨⟨hc1, hc2⟩, ⟨e1, e2⟩, ec⟩ | ⟨⟨hc1, hc2⟩, ⟨e1, e2⟩, ec⟩)⟩
      · exact hc2
      · omega
      · omega
      · omega
    · intro hbit
      exact ⟨'N', Or.inl ⟨⟨by omega, hbit⟩, ⟨by omega, by omega⟩, rfl⟩⟩

/-- Witness for the amended C7 on a concrete open 1×2 grid. -/
theorem getNeighbors_iff_current_bit_clear_witness :
    ∃ ns, getNeighbors [[13, 15]] 2 1 (0, 0) = some ns ∧
      ((∃ c, ((1, 0), c) ∈ ns) ↔
        (maskAt [[13, 15]] (0, 0)) &&& (1 <<< dirIdxP (0, 0) (1, 0)) = 0) :=
  getNeighbors_iff_current_bit_clear [[13, 15]] 2 1 (0, 0) (1, 0)
    (by decide) (by decide) (by decide) (by decide) (by decide) (by decide)
    (by decide)

/-! ## BFS support lemmas (towards C3 and C6) -/

section Bfs

variable {g : Grid} {w h : Nat}

/-- On a rectangular grid, `_get_neighbors` succeeds at in-bounds
cells. -/
theorem getNeighbors_isSome (hh : g.length = h)
    (hw : ∀ row ∈ g, row.length = w) {p : Nat × Nat}
    (hp1 : p.1 < w) (hp2 : p.2 < h) :
    ∃ ns, getNeighbors g w h p = some ns := by
  have hlt2 : p.2 < g.length := by omega
  have hg2 : g.get? p.2 = some (g.get ⟨p.2, hlt2⟩) := List.get?_eq_get hlt2
  have hlt1 : p.1 < (g.get ⟨p.2, hlt2⟩).length := by
    rw [hw _ (g.get_mem _ _)]; exact hp1
  have hg1 : (g.get ⟨p.2, hlt2⟩).get? p.1 =
      some ((g.get ⟨p.2, hlt2⟩).get ⟨p.1, hlt1⟩) := List.get?_eq_get hlt1
  have hs : (getNeighbors g w h p).isSome = true := by
    unfold getNeighbors
    rw [hg2]
    dsimp only
    rw [hg1]
    rfl
  exact Option.isSome_iff_exists.mp hs

/-- Every enumerated neighbour of an in-bounds cell is in bounds. -/
theorem getNeighbors_mem_bounds (hh : g.length = h)
    (hw : ∀ row ∈ g, row.length = w) {p n : Nat × Nat} {c : Char}
    {ns : List ((Nat × Nat) × Char)}
    (hp1 : p.1 < w) (hp2 : p.2 < h)
    (hns : getNeighbors g w h p = some ns) (hmem : (n, c) ∈ ns) :
    n.1 < w ∧ n.2 < h := by
  obtain ⟨p1, p2⟩ := p
  simp only at hp1 hp2
  unfold getNeighbors at hns
  dsimp only at hns
  rcases hg2 : g.get? p2 with _ | row
  · rw [hg2] at hns; cases hns
  rw [hg2] at hns
  dsimp only at hns
  rcases hg1 : row.get? p1 with _ | walls
  · rw [hg1] at hns; cases hns
  rw [hg1] at hns
  simp only [Option.some.injEq] at hns
  subst hns
  simp only [List.append_assoc, List.mem_append, mem_if_singleton,
    Prod.mk.injEq] at hmem
  rcases hmem with ⟨hc, he, _⟩ | ⟨hc, he, _⟩ | ⟨hc, he, _⟩ | ⟨hc, he, _⟩ <;>
    obtain ⟨n1, n2⟩ := n <;> simp only [Prod.mk.injEq] at he <;>
    obtain ⟨e1, e2⟩ := he <;> constructor <;> omega

/-- Neighbour lists contain at most one entry per direction
character. -/
theorem getNeighbors_char_unique {p : Nat × Nat}
    {ns : List ((Nat × Nat) × Char)}
    (hns : getNeighbors g w h p = some ns) {n1 n2 : Nat × Nat} {c : Char}
    (h1 : (n1, c) ∈ ns) (h2 : (n2, c) ∈ ns) : n1 = n2 := by
  obtain ⟨p1, p2⟩ := p
  unfold getNeighbors at hns
  dsimp only at hns
  rcases hg2 : g.get? p2 with _ | row
  · rw [hg2] at hns; cases hns
  rw [hg2] at hns
  dsimp only at hns
  rcases hg1 : row.get? p1 with _ | walls
  · rw [hg1] at hns; cases hns
  rw [hg1] at hns
  simp only [Option.some.injEq] at hns
  subst hns
  simp only [List.append_assoc, List.mem_append, mem_if_singleton,
    Prod.mk.injEq] at h1 h2
  rcases h1 with ⟨_, e1, ec1⟩ | ⟨_, e1, ec1⟩ | ⟨_, e1, ec1⟩ | ⟨_, e1, ec1⟩ <;>
    rcases h2 with ⟨_, e2, ec2⟩ | ⟨_, e2, ec2⟩ | ⟨_, e2, ec2⟩ |
      ⟨_, e2, ec2⟩ <;>
    first
      | (subst ec1; exact absurd ec2 (by decide))
      | (rw [e1, e2])

/-- A successful `follow` is a walk of the path's length. -/
theorem follow_walkLen : ∀ (p : List Char) (a b : Nat × Nat),
    follow g w h a p = some b → WalkLen g w h p.length a b := by
  intro p
  induction p with
  | nil =>
    intro a b hf
    simp only [follow, Option.some.injEq] at hf
    exact hf
  | cons c cs ih =>
    intro a b hf
    unfold follow at hf
    rcases hns : getNeighbors g w h a with _ | ns
    · rw [hns] at hf; cases hf
    rw [hns] at hf
    dsimp only at hf
    rcases hfind : ns.find? (fun q => q.2 = c) with _ | q
    · rw [hfind] at hf; cases hf
    rw [hfind] at hf
    have hqmem : q ∈ ns := List.mem_of_find?_eq_some hfind
    show ∃ r ∈ (getNeighbors g w h a).getD [], WalkLen g w h cs.length r.1 b
    rw [hns]
    exact ⟨q, hqmem, ih _ _ hf⟩

/-- The one-step unfolding of `follow`. -/
theorem follow_cons (a : Nat × Nat) (c : Char) (r : List Char) :
    follow g w h a (c :: r) =
      match getNeighbors g w h a with
      | none => none
      | some ns =>
        match ns.find? (fun q => q.2 = c) with
        | none => none
        | some q => follow g w h q.1 r := rfl

/-- `follow` over an appended path. -/
theorem follow_append : ∀ (p1 p2 : List Char) (a : Nat × Nat),
    follow g w h a (p1 ++ p2) =
      match follow g w h a p1 with
      | none => none
      | some m => follow g w h m p2 := by
  intro p1
  induction p1 with
  | nil => intro p2 a; rfl
  | cons c cs ih =>
    intro p2 a
    rw [show (c :: cs) ++ p2 = c :: (cs ++ p2) from rfl, follow_cons,
      follow_cons]
    rcases hns : getNeighbors g w h a with _ | ns
    · rfl
    · dsimp only
      rcases hfind : ns.find? (fun q => q.2 = c) with _ | q
      · rw [hfind]
      · rw [hfind]
        exact ih p2 q.1

/-- One explicit step of `follow`. -/
theorem follow_single {a f : Nat × Nat} {c : Char}
    {ns : List ((Nat × Nat) × Char)}
    (hns : getNeighbors g w h a = some ns) (hmem : (f, c) ∈ ns) :
    follow g w h a [c] = some f := by
  rw [follow_cons, hns]
  dsimp only
  have hex : ∃ x ∈ ns, (fun q => decide (q.2 = c)) x = true :=
    ⟨(f, c), hmem, by simp⟩
  rcases hfind : ns.find? (fun q => decide (q.2 = c)) with _ | q
  · rw [List.find?_eq_none] at hfind
    obtain ⟨x, hx, hpx⟩ := hex
    exact absurd hpx (by simpa using hfind x hx)
  · have hq : q ∈ ns := List.mem_of_find?_eq_some hfind
    have hqc : q.2 = c := by
      have := List.find?_some hfind
      simpa using this
    have hq1 : q.1 = f := by
      have hmem2 : (q.1, c) ∈ ns := by
        rw [← hqc]
        exact hq
      exact getNeighbors_char_unique hns hmem2 hmem
    rw [hfind]
    show follow g w h q.1 [] = some f
    rw [follow, hq1]

end Bfs

/-! ### Association-list lemmas -/

section Lookup

variable {α β : Type} [BEq α] [LawfulBEq α]

theorem lookup_append (l1 l2 : List (α × β)) (k : α) :
    (l1 ++ l2).lookup k =
      match l1.lookup k with
      | some v => some v
      | none => l2.lookup k := by
  induction l1 with
  | nil => rfl
  | cons e t ih =>
    obtain ⟨ek, ev⟩ := e
    show List.lookup k ((ek, ev) :: (t ++ l2)) = _
    rw [List.lookup]
    by_cases hk : k = ek
    · subst hk
      simp [List.lookup]
    · have hb : (k == ek) = false := by
        simp [hk]
      rw [hb]
      rw [ih]
      have : List.lookup k ((ek, ev) :: t) = List.lookup k t := by
        rw [List.lookup, hb]
      rw [this]

theorem lookup_append_of_forall_ne {l1 l2 : List (α × β)} {k : α}
    (h : ∀ e ∈ l1, e.1 ≠ k) : (l1 ++ l2).lookup k = l2.lookup k := by
  rw [lookup_append]
  have h1 : l1.lookup k = none := by
    induction l1 with
    | nil => rfl
    | cons e t ih =>
      obtain ⟨ek, ev⟩ := e
      rw [List.lookup]
      have hne : ek ≠ k := h _ (List.mem_cons_self _ _)
      have hb : (k == ek) = false := by
        simp
        exact fun hx => hne hx.symm
      rw [hb, ih (fun e he => h e (List.mem_cons_of_mem _ he))]
  rw [h1]

theorem lookup_eq_some_of_mem_nodup {l : List (α × β)} {k : α} {v : β}
    (hnd : (l.map Prod.fst).Nodup) (hm : (k, v) ∈ l) :
    l.lookup k = some v := by
  induction l with
  | nil => cases hm
  | cons e t ih =>
    obtain ⟨ek, ev⟩ := e
    rw [List.lookup]
    rcases List.mem_cons.mp hm with he | ht
    · obtain ⟨rfl, rfl⟩ : ek = k ∧ ev = v := by
        have h1 := congrArg Prod.fst he
        have h2 := congrArg Prod.snd he
        simp at h1 h2
        exact ⟨h1.symm, h2.symm⟩
      simp
    · have hkt : k ∈ t.map Prod.fst :=
        List.mem_map.mpr ⟨(k, v), ht, rfl⟩
      have hcons : ek ∉ t.map Prod.fst ∧ (t.map Prod.fst).Nodup := by
        have h0 : (ek :: t.map Prod.fst).Nodup := by simpa using hnd
        exact List.nodup_cons.mp h0
      have hne : k ≠ ek := fun hx => hcons.1 (hx ▸ hkt)
      have hb : (k == ek) = false := by simp [hne]
      rw [hb]
      exact ih hcons.2 ht

theorem lookup_mem {l : List (α × β)} {k : α} {v : β}
    (h : l.lookup k = some v) : (k, v) ∈ l := by
  induction l with
  | nil => cases h
  | cons e t ih =>
    obtain ⟨ek, ev⟩ := e
    rw [List.lookup] at h
    by_cases hk : k = ek
    · subst hk
      have hb : (k == k) = true := by simp
      rw [hb] at h
      cases h
      exact List.mem_cons_self _ _
    · have hb : (k == ek) = false := by simp [hk]
      rw [hb] at h
      exact List.mem_cons_of_mem _ (ih h)

theorem lookup_isSome_iff {l : List (α × β)} {k : α} :
    (l.lookup k).isSome = true ↔ k ∈ l.map Prod.fst := by
  induction l with
  | nil => simp [List.lookup]
  | cons e t ih =>
    obtain ⟨ek, ev⟩ := e
    rw [List.lookup]
    by_cases hk : k = ek
    · subst hk
      simp
    · have hb : (k == ek) = false := by simp [hk]
      rw [hb]
      simp only [List.map_cons, List.mem_cons]
      rw [ih]
      constructor
      · exact Or.inr
      · rintro (he | ht)
        · exact absurd he hk
        · exact ht

end Lookup

/-! ### `_build_path` lemmas -/

section BuildPath

theorem buildPathAux_acc (pm : List ((Nat × Nat) × (Nat × Nat)))
    (dm : List ((Nat × Nat) × Char)) (s : Nat × Nat) :
    ∀ (fuel : Nat) (v : Nat × Nat) (acc : List Char),
      buildPathAux pm dm s fuel v acc =
        (buildPathAux pm dm s fuel v []).map (· ++ acc) := by
  intro fuel
  induction fuel with
  | zero => intro v acc; rfl
  | succ f ih =>
    intro v acc
    rw [buildPathAux, buildPathAux]
    by_cases hv : v = s
    · rw [if_pos hv, if_pos hv]
      simp
    · rw [if_neg hv, if_neg hv]
      rcases hd : dm.lookup v with _ | d
      · rfl
      rcases hp : pm.lookup v with _ | p
      · rfl
      dsimp only
      rw [ih p (d :: acc), ih p [d]]
      cases hx : buildPathAux pm dm s f p [] with
      | none => rfl
      | some r => simp

theorem buildPathAux_mono (pm : List ((Nat × Nat) × (Nat × Nat)))
    (dm : List ((Nat × Nat) × Char)) (s : Nat × Nat) :
    ∀ (f1 f2 : Nat) (v : Nat × Nat) (acc r : List Char),
      f1 ≤ f2 → buildPathAux pm dm s f1 v acc = some r →
      buildPathAux pm dm s f2 v acc = some r := by
  intro f1
  induction f1 with
  | zero => intro f2 v acc r _ hx; cases hx
  | succ f ih =>
    intro f2 v acc r hle hx
    obtain ⟨f2', rfl⟩ : ∃ f2', f2 = f2' + 1 := by
      cases f2 with
      | zero => omega
      | succ n => exact ⟨n, rfl⟩
    rw [buildPathAux] at hx ⊢
    by_cases hv : v = s
    · rw [if_pos hv] at hx ⊢
      exact hx
    · rw [if_neg hv] at hx ⊢
      rcases hd : dm.lookup v with _ | d
      · rw [hd] at hx
        exact Option.noConfusion hx
      · rw [hd] at hx
        rcases hp : pm.lookup v with _ | p
        · rw [hp] at hx
          exact Option.noConfusion hx
        · rw [hp] at hx
          exact ih f2' p (d :: acc) r (by omega) hx

theorem buildPathAux_extend {pm E : List ((Nat × Nat) × (Nat × Nat))}
    {dm : List ((Nat × Nat) × Char)} {D : List ((Nat × Nat) × Char)}
    {vis : List (Nat × Nat)} {s : Nat × Nat}
    (hE : ∀ e ∈ E, e.1 ∉ vis) (hD : ∀ e ∈ D, e.1 ∉ vis)
    (hpv : ∀ u p, pm.lookup u = some p → p ∈ vis) :
    ∀ (fuel : Nat) (v : Nat × Nat) (acc r : List Char), v ∈ vis →
      buildPathAux pm dm s fuel v acc = some r →
      buildPathAux (E ++ pm) (D ++ dm) s fuel v acc = some r := by
  intro fuel
  induction fuel with
  | zero => intro v acc r _ hx; cases hx
  | succ f ih =>
    intro v acc r hv hx
    rw [buildPathAux] at hx ⊢
    by_cases hvs : v = s
    · rw [if_pos hvs] at hx ⊢
      exact hx
    · rw [if_neg hvs] at hx ⊢
      have hDv : (D ++ dm).lookup v = dm.lookup v :=
        lookup_append_of_forall_ne (fun e he hx2 => hD e he (hx2 ▸ hv))
      have hEv : (E ++ pm).lookup v = pm.lookup v :=
        lookup_append_of_forall_ne (fun e he hx2 => hE e he (hx2 ▸ hv))
      rw [hDv, hEv]
      rcases hd : dm.lookup v with _ | d
      · rw [hd] at hx
        exact Option.noConfusion hx
      · rw [hd] at hx
        rcases hp : pm.lookup v with _ | p
        · rw [hp] at hx
          exact Option.noConfusion hx
        · rw [hp] at hx
          exact ih p (d :: acc) r (hpv v p hp) hx

/-- Chain length of a visited cell, read off `_build_path`. -/
def clF (pm : List ((Nat × Nat) × (Nat × Nat)))
    (dm : List ((Nat × Nat) × Char)) (s v : Nat × Nat) : Nat :=
  ((buildPath pm dm s v).getD []).length

theorem clF_eq {pm : List ((Nat × Nat) × (Nat × Nat))}
    {dm : List ((Nat × Nat) × Char)} {s v : Nat × Nat} {p : List Char}
    (h : buildPath pm dm s v = some p) : clF pm dm s v = p.length := by
  unfold clF
  rw [h]
  rfl

theorem buildPath_start (pm : List ((Nat × Nat) × (Nat × Nat)))
    (dm : List ((Nat × Nat) × Char)) (s : Nat × Nat) :
    buildPath pm dm s s = some [] := by
  unfold buildPath
  rw [buildPathAux, if_pos rfl]

end BuildPath

/-! ### `processNs` specification -/

theorem processNs_spec (cur : Nat × Nat) :
    ∀ (ns : List ((Nat × Nat) × Char)) (q vis : List (Nat × Nat))
      (pm : List ((Nat × Nat) × (Nat × Nat)))
      (dm : List ((Nat × Nat) × Char)),
      ∃ fresh : List ((Nat × Nat) × Char),
        processNs cur ns q vis pm dm =
          (q ++ fresh.map Prod.fst, (fresh.map Prod.fst).reverse ++ vis,
            (fresh.map fun fc => (fc.1, cur)).reverse ++ pm,
            fresh.reverse ++ dm) ∧
        (∀ fc ∈ fresh, fc ∈ ns ∧ fc.1 ∉ vis) ∧
        (fresh.map Prod.fst).Nodup ∧
        (∀ (n : Nat × Nat) (c : Char), (n, c) ∈ ns → n ∉ vis →
          n ∈ fresh.map Prod.fst) := by
  intro ns
  induction ns with
  | nil =>
    intro q vis pm dm
    exact ⟨[], by simp [processNs], by simp, by simp, by simp⟩
  | cons nc rest ih =>
    intro q vis pm dm
    obtain ⟨n, c⟩ := nc
    rw [processNs]
    by_cases hnv : n ∈ vis
    · rw [if_pos hnv]
      obtain ⟨fresh, heq, hmem, hnd, hcov⟩ := ih q vis pm dm
      refine ⟨fresh, heq, ?_, hnd, ?_⟩
      · intro fc hfc
        obtain ⟨h1, h2⟩ := hmem fc hfc
        exact ⟨List.mem_cons_of_mem _ h1, h2⟩
      · intro n' c' hm hnv'
        rcases List.mem_cons.mp hm with he | ht
        · obtain ⟨rfl, rfl⟩ : n = n' ∧ c = c' := by
            exact ⟨(congrArg Prod.fst he).symm, (congrArg Prod.snd he).symm⟩
          exact absurd hnv hnv'
        · exact hcov n' c' ht hnv'
    · rw [if_neg hnv]
      obtain ⟨fresh, heq, hmem, hnd, hcov⟩ :=
        ih (q ++ [n]) (n :: vis) ((n, cur) :: pm) ((n, c) :: dm)
      refine ⟨(n, c) :: fresh, ?_, ?_, ?_, ?_⟩
      · rw [heq]
        simp [List.append_assoc]
      · intro fc hfc
        rcases List.mem_cons.mp hfc with rfl | ht
        · exact ⟨List.mem_cons_self _ _, hnv⟩
        · obtain ⟨h1, h2⟩ := hmem fc ht
          refine ⟨List.mem_cons_of_mem _ h1, ?_⟩
          intro hx
          exact h2 (List.mem_cons_of_mem _ hx)
      · simp only [List.map_cons, List.nodup_cons]
        refine ⟨?_, hnd⟩
        intro hx
        obtain ⟨fc, hfc, hfc1⟩ := List.mem_map.mp hx
        exact (hmem fc hfc).2 (hfc1 ▸ List.mem_cons_self _ _)
      · intro n' c' hm hnv'
        rcases List.mem_cons.mp hm with he | ht
        · obtain ⟨rfl, rfl⟩ : n = n' ∧ c = c' := by
            exact ⟨(congrArg Prod.fst he).symm, (congrArg Prod.snd he).symm⟩
          simp
        · by_cases hn' : n' = n
          · subst hn'
            simp
          · have : n' ∉ (n :: vis) := by
              intro hx
              rcases List.mem_cons.mp hx with rfl | hx2
              · exact hn' rfl
              · exact hnv' hx2
            have := hcov n' c' ht this
            simp only [List.map_cons, List.mem_cons]
            exact Or.inr this

/-! ### BFS measure and walk lemmas -/

/-- All in-bounds pathfinder cells `(x, y)`. -/
def cellsP (w h : Nat) : List (Nat × Nat) := (List.range w) ×ˢ (List.range h)

theorem mem_cellsP {w h : Nat} {a : Nat × Nat} :
    a ∈ cellsP w h ↔ a.1 < w ∧ a.2 < h := by
  obtain ⟨a1, a2⟩ := a
  constructor
  · intro hx
    have hp := List.pair_mem_product.mp hx
    exact ⟨List.mem_range.mp hp.1, List.mem_range.mp hp.2⟩
  · intro hx
    exact List.pair_mem_product.mpr
      ⟨List.mem_range.mpr hx.1, List.mem_range.mpr hx.2⟩

/-- Number of in-bounds cells not yet visited: the BFS fuel measure. -/
def unvisP (w h : Nat) (vis : List (Nat × Nat)) : Nat :=
  ((cellsP w h).filter (fun c => c ∉ vis)).length

theorem unvisP_cons_lt {w h : Nat} {a : Nat × Nat} {vis : List (Nat × Nat)}
    (ha : a ∈ cellsP w h) (hna : a ∉ vis) :
    unvisP w h (a :: vis) < unvisP w h vis := by
  unfold unvisP
  apply length_filter_lt_of_pointwise ha
  · simp
  · simpa using hna
  · intro c hc
    simp only [decide_eq_true_eq] at hc ⊢
    intro hcv
    exact hc (List.mem_cons_of_mem _ hcv)

theorem unvisP_fresh : ∀ (L vis : List (Nat × Nat)), L.Nodup →
    (∀ x ∈ L, x ∈ cellsP w h ∧ x ∉ vis) →
    unvisP w h (L.reverse ++ vis) + L.length ≤ unvisP w h vis := by
  intro L
  induction L with
  | nil => intro vis _ _; simp
  | cons a t ih =>
    intro vis hnd hx
    have h1 : (a :: t).reverse ++ vis = t.reverse ++ (a :: vis) := by simp
    rw [h1]
    have hstep : unvisP w h (a :: vis) < unvisP w h vis :=
      unvisP_cons_lt (hx a (List.mem_cons_self _ _)).1
        (hx a (List.mem_cons_self _ _)).2
    have hrec := ih (a :: vis) (List.Nodup.of_cons hnd) (by
      intro x hxt
      refine ⟨(hx x (List.mem_cons_of_mem _ hxt)).1, ?_⟩
      intro hmem
      rcases List.mem_cons.mp hmem with rfl | hv
      · exact (List.nodup_cons.mp hnd).1 hxt
      · exact (hx x (List.mem_cons_of_mem _ hxt)).2 hv)
    simp only [List.length_cons]
    omega

section WalkLemmas

variable {g : Grid} {w h : Nat}

/-- Append one traversal edge to the end of a walk. -/
theorem walkLen_snoc : ∀ {n : Nat} {a b f : Nat × Nat}
    {ns : List ((Nat × Nat) × Char)} {c : Char},
    WalkLen g w h n a b → getNeighbors g w h b = some ns → (f, c) ∈ ns →
    WalkLen g w h (n + 1) a f := by
  intro n
  induction n with
  | zero =>
    intro a b f ns c hw hns hmem
    rcases hw with rfl
    show ∃ p ∈ (getNeighbors g w h a).getD [], WalkLen g w h 0 p.1 f
    rw [hns]
    exact ⟨(f, c), hmem, rfl⟩
  | succ m ih =>
    intro a b f ns c hw hns hmem
    obtain ⟨p, hp, hrest⟩ := hw
    exact ⟨p, hp, ih hrest hns hmem⟩

/-- Split the last edge off a walk. -/
theorem walkLen_unsnoc : ∀ {n : Nat} {a b : Nat × Nat},
    WalkLen g w h (n + 1) a b →
    ∃ m ns c, WalkLen g w h n a m ∧ getNeighbors g w h m = some ns ∧
      (b, c) ∈ ns := by
  intro n
  induction n with
  | zero =>
    intro a b hw
    obtain ⟨p, hp, heq⟩ := hw
    rcases hns : getNeighbors g w h a with _ | ns
    · rw [hns] at hp; cases hp
    rw [hns] at hp
    rcases heq with rfl
    exact ⟨a, ns, p.2, rfl, hns, by simpa using hp⟩
  | succ m ih =>
    intro a b hw
    obtain ⟨p, hp, hrest⟩ := hw
    obtain ⟨mm, ns, c, hwalk, hns, hmem⟩ := ih hrest
    rcases hns2 : getNeighbors g w h a with _ | ns2
    · rw [hns2] at hp; cases hp
    rw [hns2] at hp
    exact ⟨mm, ns, c, ⟨p, by rw [hns2]; exact hp, hwalk⟩, hns, hmem⟩

end WalkLemmas

/-! ### The BFS loop invariant -/

/-- Invariant of `find_path`'s BFS loop.  `clF` is the chain length read
off `_build_path`; the queue is sorted by chain length with spread at
most one, settled (visited, dequeued) cells carry minimal chains, and
every neighbour of a settled cell is visited with a chain at most one
longer. -/
def BfsInv (g : Grid) (w h : Nat) (start : Nat × Nat)
    (q vis : List (Nat × Nat)) (pm : List ((Nat × Nat) × (Nat × Nat)))
    (dm : List ((Nat × Nat) × Char)) : Prop :=
  start ∈ vis ∧
  vis.Nodup ∧
  (∀ v ∈ vis, v.1 < w ∧ v.2 < h) ∧
  (∀ v ∈ q, v ∈ vis) ∧
  q.Nodup ∧
  (∀ v, ((pm.lookup v).isSome = true ↔ (v ∈ vis ∧ v ≠ start))) ∧
  (∀ u p, pm.lookup u = some p → p ∈ vis) ∧
  (∀ v ∈ vis, ∃ p, buildPath pm dm start v = some p ∧
    follow g w h start p = some v) ∧
  (∀ v ∈ vis, v ∉ q →
    ∀ m, WalkLen g w h m start v → clF pm dm start v ≤ m) ∧
  (∀ v ∈ vis, v ∉ q → ∀ ns, getNeighbors g w h v = some ns →
    ∀ nc ∈ ns, nc.1 ∈ vis ∧
      clF pm dm start nc.1 ≤ clF pm dm start v + 1) ∧
  q.Pairwise (fun a b => clF pm dm start a ≤ clF pm dm start b) ∧
  (∀ a ∈ q, ∀ b ∈ q, clF pm dm start a ≤ clF pm dm start b + 1)

theorem bfsInv_init {g : Grid} {w h : Nat} {start : Nat × Nat}
    (hs1 : start.1 < w) (hs2 : start.2 < h) :
    BfsInv g w h start [start] [start] [] [] := by
  refine ⟨List.mem_singleton_self _, List.nodup_singleton _, ?_, ?_,
    List.nodup_singleton _, ?_, ?_, ?_, ?_, ?_, ?_, ?_⟩
  · intro v hv
    rcases List.mem_singleton.mp hv with rfl
    exact ⟨hs1, hs2⟩
  · intro v hv
    exact hv
  · intro v
    constructor
    · intro hx
      simp [List.lookup] at hx
    · rintro ⟨hv, hne⟩
      rcases List.mem_singleton.mp hv with rfl
      exact absurd rfl hne
  · intro u p hx
    simp [List.lookup] at hx
  · intro v hv
    rcases List.mem_singleton.mp hv with rfl
    exact ⟨[], buildPath_start _ _ _, rfl⟩
  · intro v hv hnq
    rcases List.mem_singleton.mp hv with rfl
    exact absurd (List.mem_singleton_self _) hnq
  · intro v hv hnq
    rcases List.mem_singleton.mp hv with rfl
    exact absurd (List.mem_singleton_self _) hnq
  · exact List.pairwise_singleton _ _
  · intro a ha b hb
    rcases List.mem_singleton.mp ha with rfl
    rcases List.mem_singleton.mp hb with rfl
    omega

/-- The chain of the start cell is empty. -/
theorem clF_start (pm : List ((Nat × Nat) × (Nat × Nat)))
    (dm : List ((Nat × Nat) × Char)) (s : Nat × Nat) :
    clF pm dm s s = 0 := clF_eq (buildPath_start pm dm s)

/-- Cover: any walk from the start to an unsettled cell is at least as
long as some queued chain. -/
theorem bfs_cover {g : Grid} {w h : Nat} {start : Nat × Nat}
    {q vis : List (Nat × Nat)} {pm : List ((Nat × Nat) × (Nat × Nat))}
    {dm : List ((Nat × Nat) × Char)}
    (inv : BfsInv g w h start q vis pm dm) :
    ∀ (n : Nat) (v : Nat × Nat), WalkLen g w h n start v →
      (v ∉ vis ∨ v ∈ q) → ∃ u ∈ q, clF pm dm start u ≤ n := by
  obtain ⟨hstart, hvnd, hvb, hqv, hqnd, hkeys, hpv, hchain, hsettled,
    hfrontier, hsort, hspread⟩ := inv
  intro n
  induction n with
  | zero =>
    intro v hw hv
    rcases hw with rfl
    rcases hv with hv | hv
    · exact absurd hstart hv
    · exact ⟨start, hv, le_of_eq (clF_start pm dm start)⟩
  | succ m ih =>
    intro v hw hv
    obtain ⟨mid, ns, c, hwalk, hns, hmem⟩ := walkLen_unsnoc hw
    by_cases hproc : mid ∈ vis ∧ mid ∉ q
    · have hmin := hsettled mid hproc.1 hproc.2 m hwalk
      have hfr := hfrontier mid hproc.1 hproc.2 ns hns (v, c) hmem
      rcases hv with hv | hv
      · exact absurd hfr.1 hv
      · exact ⟨v, hv, by
          have := hfr.2
          simp only at this
          omega⟩
    · have hmid : mid ∉ vis ∨ mid ∈ q := by
        by_cases h1 : mid ∈ vis
        · right
          by_contra h2
          exact hproc ⟨h1, h2⟩
        · exact Or.inl h1
      obtain ⟨u, hu, hcl⟩ := ih mid hwalk hmid
      exact ⟨u, hu, by omega⟩

/-- The popped head of the queue carries a minimal chain. -/
theorem bfs_pop_min {g : Grid} {w h : Nat} {start cur : Nat × Nat}
    {rest vis : List (Nat × Nat)} {pm : List ((Nat × Nat) × (Nat × Nat))}
    {dm : List ((Nat × Nat) × Char)}
    (inv : BfsInv g w h start (cur :: rest) vis pm dm) :
    ∀ m, WalkLen g w h m start cur → clF pm dm start cur ≤ m := by
  intro m hwalk
  obtain ⟨u, hu, hcl⟩ := bfs_cover inv m cur hwalk
    (Or.inr (List.mem_cons_self _ _))
  have hsort := inv.2.2.2.2.2.2.2.2.2.2.1
  rcases List.mem_cons.mp hu with rfl | hrest
  · exact hcl
  · have := (List.pairwise_cons.mp hsort).1 u hrest
    omega

theorem pairwise_of_mem {α : Type} {R : α → α → Prop} :
    ∀ {l : List α}, (∀ a ∈ l, ∀ b ∈ l, R a b) → l.Pairwise R := by
  intro l
  induction l with
  | nil => intro _; exact List.Pairwise.nil
  | cons a t ih =>
    intro hf
    refine List.Pairwise.cons ?_ (ih ?_)
    · intro b hb
      exact hf a (List.mem_cons_self _ _) b (List.mem_cons_of_mem _ hb)
    · intro x hx y hy
      exact hf x (List.mem_cons_of_mem _ hx) y (List.mem_cons_of_mem _ hy)

/-- Invariant maintenance across one dequeue-and-expand step of the BFS
loop, together with the structural facts the fuel argument needs. -/
theorem bfs_step_inv {g : Grid} {w h : Nat} {start cur : Nat × Nat}
    {rest vis : List (Nat × Nat)} {pm : List ((Nat × Nat) × (Nat × Nat))}
    {dm : List ((Nat × Nat) × Char)} {ns : List ((Nat × Nat) × Char)}
    (hh : g.length = h) (hwrect : ∀ row ∈ g, row.length = w)
    (inv : BfsInv g w h start (cur :: rest) vis pm dm)
    (hns : getNeighbors g w h cur = some ns) :
    BfsInv g w h start (processNs cur ns rest vis pm dm).1
      (processNs cur ns rest vis pm dm).2.1
      (processNs cur ns rest vis pm dm).2.2.1
      (processNs cur ns rest vis pm dm).2.2.2 ∧
    ∃ F : List (Nat × Nat),
      (processNs cur ns rest vis pm dm).1 = rest ++ F ∧
      (processNs cur ns rest vis pm dm).2.1 = F.reverse ++ vis ∧
      F.Nodup ∧ (∀ f ∈ F, f ∈ cellsP w h ∧ f ∉ vis) := by
  obtain ⟨hstart, hvnd, hvb, hqv, hqnd, hkeys, hpv, hchain, hsettled,
    hfrontier, hsort, hspread⟩ := inv
  obtain ⟨fresh, heq, hmem, hnd, hcov⟩ := processNs_spec cur ns rest vis pm dm
  set F := fresh.map Prod.fst with hF
  set N := fresh.map (fun fc => (fc.1, cur)) with hN
  set pm2 := N.reverse ++ pm with hpm2
  set dm2 := fresh.reverse ++ dm with hdm2
  rw [heq]
  dsimp only
  have hcur_vis : cur ∈ vis := hqv cur (List.mem_cons_self _ _)
  have hcurb := hvb cur hcur_vis
  have hFnotvis : ∀ f ∈ F, f ∉ vis := by
    intro f hf
    obtain ⟨fc, hfc, rfl⟩ := List.mem_map.mp hf
    exact (hmem fc hfc).2
  have hFbounds : ∀ f ∈ F, f.1 < w ∧ f.2 < h := by
    intro f hf
    obtain ⟨fc, hfc, rfl⟩ := List.mem_map.mp hf
    have hin : (fc.1, fc.2) ∈ ns := by
      have := (hmem fc hfc).1
      simpa using this
    exact getNeighbors_mem_bounds hh hwrect hcurb.1 hcurb.2 hns hin
  have hNkeys : N.reverse.map Prod.fst = F.reverse := by
    rw [hN, hF]
    simp [List.map_reverse, List.map_map, Function.comp]
  have hDkeys : fresh.reverse.map Prod.fst = F.reverse := by
    rw [hF]
    simp [List.map_reverse]
  have hNnot : ∀ e ∈ N.reverse, e.1 ∉ vis := by
    intro e he
    have : e.1 ∈ N.reverse.map Prod.fst := List.mem_map.mpr ⟨e, he, rfl⟩
    rw [hNkeys] at this
    exact hFnotvis _ (List.mem_reverse.mp this)
  have hDnot : ∀ e ∈ fresh.reverse, e.1 ∉ vis := by
    intro e he
    have : e.1 ∈ fresh.reverse.map Prod.fst := List.mem_map.mpr ⟨e, he, rfl⟩
    rw [hDkeys] at this
    exact hFnotvis _ (List.mem_reverse.mp this)
  have hvis2 : ∀ v : Nat × Nat, v ∈ F.reverse ++ vis ↔ v ∈ F ∨ v ∈ vis := by
    intro v
    rw [List.mem_append, List.mem_reverse]
  -- chain preservation for previously visited cells
  have hpres : ∀ v ∈ vis, ∀ p, buildPath pm dm start v = some p →
      buildPath pm2 dm2 start v = some p := by
    intro v hv p hbp
    unfold buildPath at hbp ⊢
    have h1 := buildPathAux_extend (E := N.reverse) (D := fresh.reverse)
      hNnot hDnot hpv (pm.length + 1) v [] p hv hbp
    apply buildPathAux_mono pm2 dm2 start (pm.length + 1) (pm2.length + 1)
      v [] p ?_ ?_
    · rw [hpm2]
      simp only [List.length_append]
      omega
    · rw [hpm2, hdm2]
      exact h1
  have hclF_pres : ∀ v ∈ vis, clF pm2 dm2 start v = clF pm dm start v := by
    intro v hv
    obtain ⟨p, hbp, _⟩ := hchain v hv
    rw [clF_eq (hpres v hv p hbp), clF_eq hbp]
  -- chains for freshly visited cells
  obtain ⟨pcur, hbpc, hfolc⟩ := hchain cur hcur_vis
  have hlookup_pm2 : ∀ fc ∈ fresh, pm2.lookup fc.1 = some cur := by
    intro fc hfc
    have hkey : fc.1 ∈ N.reverse.map Prod.fst := by
      rw [hNkeys, hF]
      exact List.mem_reverse.mpr (List.mem_map.mpr ⟨fc, hfc, rfl⟩)
    have hiso : (N.reverse.lookup fc.1).isSome = true :=
      lookup_isSome_iff.mpr hkey
    obtain ⟨val, hval⟩ := Option.isSome_iff_exists.mp hiso
    have hvmem := lookup_mem hval
    have hvcur : val = cur := by
      have := List.mem_reverse.mp hvmem
      obtain ⟨fc2, _, heq2⟩ := List.mem_map.mp this
      exact (congrArg Prod.snd heq2).symm
    rw [hpm2, lookup_append, hval, hvcur]
  have hlookup_dm2 : ∀ fc ∈ fresh, dm2.lookup fc.1 = some fc.2 := by
    intro fc hfc
    have hndrev : (fresh.reverse.map Prod.fst).Nodup := by
      rw [hDkeys]
      exact List.nodup_reverse.mpr hnd
    have h1 : fresh.reverse.lookup fc.1 = some fc.2 :=
      lookup_eq_some_of_mem_nodup hndrev
        (List.mem_reverse.mpr (by simpa using hfc))
    rw [hdm2, lookup_append, h1]
  have hfresh_ne_nil : ∀ fc ∈ fresh, 1 ≤ fresh.length := by
    intro fc hfc
    cases fresh with
    | nil => cases hfc
    | cons a t => simp
  have hchain_cur2 : ∀ fc ∈ fresh,
      buildPathAux pm2 dm2 start pm2.length cur [] = some pcur := by
    intro fc hfc
    have h1 : buildPathAux pm dm start (pm.length + 1) cur [] = some pcur :=
      hbpc
    have h2 := buildPathAux_extend (E := N.reverse) (D := fresh.reverse)
      hNnot hDnot hpv (pm.length + 1) cur [] pcur hcur_vis h1
    apply buildPathAux_mono pm2 dm2 start (pm.length + 1) pm2.length
      cur [] pcur ?_ ?_
    · rw [hpm2, hN]
      simp only [List.length_append, List.length_reverse, List.length_map]
      have := hfresh_ne_nil fc hfc
      omega
    · rw [hpm2, hdm2]
      exact h2
  have hfreshchain : ∀ fc ∈ fresh,
      buildPath pm2 dm2 start fc.1 = some (pcur ++ [fc.2]) := by
    intro fc hfc
    have hne : fc.1 ≠ start := by
      intro hx
      exact hFnotvis fc.1 (List.mem_map.mpr ⟨fc, hfc, rfl⟩) (hx ▸ hstart)
    unfold buildPath
    obtain ⟨fl, hfl⟩ : ∃ fl, pm2.length + 1 = fl + 1 := ⟨pm2.length, rfl⟩
    rw [hfl, buildPathAux, if_neg hne, hlookup_dm2 fc hfc,
      hlookup_pm2 fc hfc]
    have hflen : fl = pm2.length := by omega
    rw [hflen]
    dsimp only
    rw [buildPathAux_acc, hchain_cur2 fc hfc]
    rfl
  have hfreshfollow : ∀ fc ∈ fresh,
      follow g w h start (pcur ++ [fc.2]) = some fc.1 := by
    intro fc hfc
    rw [follow_append, hfolc]
    exact follow_single hns (by simpa using (hmem fc hfc).1)
  have hclF_fresh : ∀ fc ∈ fresh,
      clF pm2 dm2 start fc.1 = clF pm dm start cur + 1 := by
    intro fc hfc
    rw [clF_eq (hfreshchain fc hfc), clF_eq hbpc]
    simp
  -- spread facts about the old queue
  have hrest_le : ∀ a ∈ rest, clF pm dm start a ≤ clF pm dm start cur + 1 :=
    fun a ha => hspread a (List.mem_cons_of_mem _ ha) cur
      (List.mem_cons_self _ _)
  have hrest_ge : ∀ a ∈ rest, clF pm dm start cur ≤ clF pm dm start a :=
    fun a ha => (List.pairwise_cons.mp hsort).1 a ha
  have hrest_vis : ∀ a ∈ rest, a ∈ vis :=
    fun a ha => hqv a (List.mem_cons_of_mem _ ha)
  -- the new-queue chain-length bounds
  have hq2_le : ∀ a ∈ rest ++ F,
      clF pm2 dm2 start a ≤ clF pm dm start cur + 1 := by
    intro a ha
    rcases List.mem_append.mp ha with ha | ha
    · rw [hclF_pres a (hrest_vis a ha)]
      exact hrest_le a ha
    · obtain ⟨fc, hfc, rfl⟩ := List.mem_map.mp ha
      rw [hclF_fresh fc hfc]
  have hq2_ge : ∀ a ∈ rest ++ F,
      clF pm dm start cur ≤ clF pm2 dm2 start a := by
    intro a ha
    rcases List.mem_append.mp ha with ha | ha
    · rw [hclF_pres a (hrest_vis a ha)]
      exact hrest_ge a ha
    · obtain ⟨fc, hfc, rfl⟩ := List.mem_map.mp ha
      rw [hclF_fresh fc hfc]
      omega
  refine ⟨⟨?_, ?_, ?_, ?_, ?_, ?_, ?_, ?_, ?_, ?_, ?_, ?_⟩,
    F, rfl, rfl, hnd, ?_⟩
  · -- start visited
    exact (hvis2 start).mpr (Or.inr hstart)
  · -- vis nodup
    apply List.Nodup.append (List.nodup_reverse.mpr hnd) hvnd
    intro a ha hav
    exact hFnotvis a (List.mem_reverse.mp ha) hav
  · -- bounds
    intro v hv
    rcases (hvis2 v).mp hv with hv | hv
    · exact hFbounds v hv
    · exact hvb v hv
  · -- queue ⊆ visited
    intro v hv
    rcases List.mem_append.mp hv with hv | hv
    · exact (hvis2 v).mpr (Or.inr (hrest_vis v hv))
    · exact (hvis2 v).mpr (Or.inl hv)
  · -- queue nodup
    apply List.Nodup.append (List.Nodup.of_cons hqnd) hnd
    intro a ha haF
    exact hFnotvis a haF (hrest_vis a ha)
  · -- parent keys
    intro v
    rw [hpm2, lookup_append]
    by_cases hvF : v ∈ F
    · have hkey : v ∈ N.reverse.map Prod.fst := by
        rw [hNkeys]
        exact List.mem_reverse.mpr hvF
      have hiso : (N.reverse.lookup v).isSome = true :=
        lookup_isSome_iff.mpr hkey
      obtain ⟨val, hval⟩ := Option.isSome_iff_exists.mp hiso
      rw [hval]
      simp only [Option.isSome_some, true_iff]
      refine ⟨(hvis2 v).mpr (Or.inl hvF), ?_⟩
      intro hx
      exact hFnotvis v hvF (hx ▸ hstart)
    · have hnone : N.reverse.lookup v = none := by
        rcases hlv : N.reverse.lookup v with _ | val
        · rfl
        · exfalso
          have : v ∈ N.reverse.map Prod.fst :=
            lookup_isSome_iff.mp (by rw [hlv]; rfl)
          rw [hNkeys] at this
          exact hvF (List.mem_reverse.mp this)
      rw [hnone]
      rw [hkeys v]
      constructor
      · rintro ⟨hv, hne⟩
        exact ⟨(hvis2 v).mpr (Or.inr hv), hne⟩
      · rintro ⟨hv, hne⟩
        rcases (hvis2 v).mp hv with hv | hv
        · exact absurd hv hvF
        · exact ⟨hv, hne⟩
  · -- parent values visited
    intro u p hup
    rw [hpm2, lookup_append] at hup
    rcases hlv : N.reverse.lookup u with _ | val
    · rw [hlv] at hup
      exact (hvis2 p).mpr (Or.inr (hpv u p hup))
    · rw [hlv] at hup
      have hup2 : some val = some p := hup
      have hpe : val = p := Option.some.inj hup2
      have hvmem := lookup_mem hlv
      have hsnd : val ∈ N.reverse.map Prod.snd :=
        List.mem_map.mpr ⟨(u, val), hvmem, rfl⟩
      have hval_cur : val = cur := by
        rw [hN] at hsnd
        simp only [List.map_reverse, List.map_map, Function.comp] at hsnd
        rw [List.mem_reverse] at hsnd
        obtain ⟨fc, _, heq2⟩ := List.mem_map.mp hsnd
        exact heq2.symm
      rw [← hpe, hval_cur]
      exact (hvis2 cur).mpr (Or.inr hcur_vis)
  · -- chains
    intro v hv
    rcases (hvis2 v).mp hv with hvF | hvv
    · obtain ⟨fc, hfc, rfl⟩ := List.mem_map.mp hvF
      exact ⟨pcur ++ [fc.2], hfreshchain fc hfc, hfreshfollow fc hfc⟩
    · obtain ⟨p, hbp, hfol⟩ := hchain v hvv
      exact ⟨p, hpres v hvv p hbp, hfol⟩
  · -- settled minimality
    intro v hv hnq m hwalk
    rcases (hvis2 v).mp hv with hvF | hvv
    · exact absurd (List.mem_append.mpr (Or.inr hvF)) hnq
    · have hvnrest : v ∉ rest := fun hx =>
        hnq (List.mem_append.mpr (Or.inl hx))
      by_cases hvcur : v = cur
      · subst hvcur
        rw [hclF_pres v hvv]
        exact bfs_pop_min ⟨hstart, hvnd, hvb, hqv, hqnd, hkeys, hpv,
          hchain, hsettled, hfrontier, hsort, hspread⟩ m hwalk
      · rw [hclF_pres v hvv]
        apply hsettled v hvv ?_ m hwalk
        intro hx
        rcases List.mem_cons.mp hx with rfl | hx
        · exact hvcur rfl
        · exact hvnrest hx
  · -- frontier
    intro v hv hnq ns2 hns2 nc hnc
    rcases (hvis2 v).mp hv with hvF | hvv
    · exact absurd (List.mem_append.mpr (Or.inr hvF)) hnq
    · have hvnrest : v ∉ rest := fun hx =>
        hnq (List.mem_append.mpr (Or.inl hx))
      by_cases hvcur : v = cur
      · subst hvcur
        have hns_eq : ns2 = ns := by
          rw [hns] at hns2
          exact (Option.some.inj hns2).symm
        subst hns_eq
        by_cases hncv : nc.1 ∈ vis
        · refine ⟨(hvis2 nc.1).mpr (Or.inr hncv), ?_⟩
          rw [hclF_pres nc.1 hncv, hclF_pres v hcur_vis]
          by_cases hncq : nc.1 ∈ v :: rest
          · exact hspread nc.1 hncq v (List.mem_cons_self _ _)
          · have hwalk2 : WalkLen g w h (clF pm dm start v + 1) start
                nc.1 := by
              have hw1 : WalkLen g w h pcur.length start v :=
                follow_walkLen pcur start v hfolc
              have := walkLen_snoc hw1 hns (by
                show (nc.1, nc.2) ∈ ns2
                simpa using hnc)
              rwa [clF_eq hbpc]
            exact hsettled nc.1 hncv hncq _ hwalk2
        · have hncF : nc.1 ∈ F :=
            hcov nc.1 nc.2 (by simpa using hnc) hncv
          refine ⟨(hvis2 nc.1).mpr (Or.inl hncF), ?_⟩
          obtain ⟨fc, hfc, hfc1⟩ := List.mem_map.mp hncF
          rw [← hfc1, hclF_fresh fc hfc, hclF_pres v hcur_vis]
      · have hvq : v ∉ cur :: rest := by
          intro hx
          rcases List.mem_cons.mp hx with rfl | hx
          · exact hvcur rfl
          · exact hvnrest hx
        have hold := hfrontier v hvv hvq ns2 hns2 nc hnc
        refine ⟨(hvis2 nc.1).mpr (Or.inr hold.1), ?_⟩
        rw [hclF_pres nc.1 hold.1, hclF_pres v hvv]
        exact hold.2
  · -- queue sorted
    rw [List.pairwise_append]
    refine ⟨?_, ?_, ?_⟩
    · apply List.Pairwise.imp_of_mem ?_
        (List.Pairwise.of_cons hsort)
      intro a b ha hb hab
      rw [hclF_pres a (hrest_vis a ha), hclF_pres b (hrest_vis b hb)]
      exact hab
    · apply pairwise_of_mem
      intro a ha b hb
      obtain ⟨fa, hfa, rfl⟩ := List.mem_map.mp ha
      obtain ⟨fb, hfb, rfl⟩ := List.mem_map.mp hb
      rw [hclF_fresh fa hfa, hclF_fresh fb hfb]
    · intro a ha b hb
      obtain ⟨fb, hfb, rfl⟩ := List.mem_map.mp hb
      rw [hclF_pres a (hrest_vis a ha), hclF_fresh fb hfb]
      exact hrest_le a ha
  · -- queue spread
    intro a ha b hb
    have h1 := hq2_le a ha
    have h2 := hq2_ge b hb
    omega
  · -- structural facts for the measure
    intro f hf
    exact ⟨mem_cellsP.mpr (hFbounds f hf), hFnotvis f hf⟩

/-- One-step unfolding of `bfsLoop` on the empty queue. -/
theorem bfsLoop_nil (grid : Grid) (w h : Nat) (start tgt : Nat × Nat)
    (fuel : Nat) (vis : List (Nat × Nat))
    (pm : List ((Nat × Nat) × (Nat × Nat)))
    (dm : List ((Nat × Nat) × Char)) :
    bfsLoop grid w h start tgt (fuel + 1) [] vis pm dm = .noPath := rfl

/-- One-step unfolding of `bfsLoop` on a non-empty queue. -/
theorem bfsLoop_cons (grid : Grid) (w h : Nat) (start tgt : Nat × Nat)
    (fuel : Nat) (cur : Nat × Nat) (rest vis : List (Nat × Nat))
    (pm : List ((Nat × Nat) × (Nat × Nat)))
    (dm : List ((Nat × Nat) × Char)) :
    bfsLoop grid w h start tgt (fuel + 1) (cur :: rest) vis pm dm =
      if cur = tgt then
        match buildPath pm dm start tgt with
        | some p => .found p
        | none => .crash
      else
        match getNeighbors grid w h cur with
        | none => .crash
        | some ns =>
          let st := processNs cur ns rest vis pm dm
          bfsLoop grid w h start tgt fuel st.1 st.2.1 st.2.2.1
            st.2.2.2 := rfl

/-- When the target is reachable and not yet settled, the BFS loop
returns a direction string that reaches the target and is no longer than
any walk from the start to the target. -/
theorem bfsLoop_found {g : Grid} {w h : Nat} {start tgt : Nat × Nat}
    (hh : g.length = h) (hwrect : ∀ row ∈ g, row.length = w) :
    ∀ (fuel : Nat) (q vis : List (Nat × Nat))
      (pm : List ((Nat × Nat) × (Nat × Nat)))
      (dm : List ((Nat × Nat) × Char)),
      BfsInv g w h start q vis pm dm →
      2 * unvisP w h vis + q.length < fuel →
      (tgt ∉ vis ∨ tgt ∈ q) →
      Reach g w h start tgt →
      ∃ p, bfsLoop g w h start tgt fuel q vis pm dm = .found p ∧
        follow g w h start p = some tgt ∧
        (∀ m, WalkLen g w h m start tgt → p.length ≤ m) := by
  intro fuel
  induction fuel with
  | zero =>
    intro q vis pm dm _ hm _ _
    exact absurd hm (by omega)
  | succ f ih =>
    intro q vis pm dm inv hm huns hreach
    obtain ⟨n, hwn⟩ := hreach
    obtain ⟨u, hu, _⟩ := bfs_cover inv n tgt hwn huns
    cases q with
    | nil => cases hu
    | cons cur rest =>
      rw [bfsLoop_cons]
      have hcv : cur ∈ vis := inv.2.2.2.1 cur (List.mem_cons_self _ _)
      by_cases hct : cur = tgt
      · rw [if_pos hct]
        obtain ⟨p, hbp, hfol⟩ := inv.2.2.2.2.2.2.2.1 cur hcv
        have hbp2 : buildPath pm dm start tgt = some p := hct ▸ hbp
        have hfol2 : follow g w h start p = some tgt := hct ▸ hfol
        rw [hbp2]
        refine ⟨p, rfl, hfol2, ?_⟩
        intro m hwm
        have hmin := bfs_pop_min inv m (hct.symm ▸ hwm)
        rwa [clF_eq hbp] at hmin
      · rw [if_neg hct]
        have hcb := inv.2.2.1 cur hcv
        obtain ⟨ns, hns⟩ := getNeighbors_isSome hh hwrect hcb.1 hcb.2
        rw [hns]
        obtain ⟨inv2, F, hq2, hv2, hFnd, hFprop⟩ :=
          bfs_step_inv hh hwrect inv hns
        have hmeas := unvisP_fresh F vis hFnd hFprop
        dsimp only
        have hm2 : 2 * unvisP w h (processNs cur ns rest vis pm dm).2.1 +
            (processNs cur ns rest vis pm dm).1.length < f := by
          rw [hq2, hv2]
          simp only [List.length_append, List.length_cons] at hm ⊢
          omega
        have huns2 : tgt ∉ (processNs cur ns rest vis pm dm).2.1 ∨
            tgt ∈ (processNs cur ns rest vis pm dm).1 := by
          rw [hq2, hv2]
          rcases huns with hnv | hq
          · by_cases hF : tgt ∈ F
            · exact Or.inr (List.mem_append.mpr (Or.inr hF))
            · refine Or.inl ?_
              intro hx
              rcases List.mem_append.mp hx with hx | hx
              · exact hF (List.mem_reverse.mp hx)
              · exact hnv hx
          · rcases List.mem_cons.mp hq with heq2 | hr
            · exact absurd heq2.symm hct
            · exact Or.inr (List.mem_append.mpr (Or.inl hr))
        exact ih _ _ _ _ inv2 hm2 huns2 ⟨n, hwn⟩

/-- When the target is unreachable, the BFS loop drains the queue and
reports the distinguished no-path value. -/
theorem bfsLoop_noPath {g : Grid} {w h : Nat} {start tgt : Nat × Nat}
    (hh : g.length = h) (hwrect : ∀ row ∈ g, row.length = w)
    (hnr : ¬ Reach g w h start tgt) :
    ∀ (fuel : Nat) (q vis : List (Nat × Nat))
      (pm : List ((Nat × Nat) × (Nat × Nat)))
      (dm : List ((Nat × Nat) × Char)),
      BfsInv g w h start q vis pm dm →
      2 * unvisP w h vis + q.length < fuel →
      bfsLoop g w h start tgt fuel q vis pm dm = .noPath := by
  intro fuel
  induction fuel with
  | zero =>
    intro q vis pm dm _ hm
    exact absurd hm (by omega)
  | succ f ih =>
    intro q vis pm dm inv hm
    cases q with
    | nil => exact bfsLoop_nil g w h start tgt f vis pm dm
    | cons cur rest =>
      rw [bfsLoop_cons]
      have hcv : cur ∈ vis := inv.2.2.2.1 cur (List.mem_cons_self _ _)
      have hct : ¬ cur = tgt := by
        intro hx
        obtain ⟨p, _, hfol⟩ := inv.2.2.2.2.2.2.2.1 cur hcv
        exact hnr ⟨p.length, hx ▸ follow_walkLen p start cur hfol⟩
      rw [if_neg hct]
      have hcb := inv.2.2.1 cur hcv
      obtain ⟨ns, hns⟩ := getNeighbors_isSome hh hwrect hcb.1 hcb.2
      rw [hns]
      obtain ⟨inv2, F, hq2, hv2, hFnd, hFprop⟩ :=
        bfs_step_inv hh hwrect inv hns
      have hmeas := unvisP_fresh F vis hFnd hFprop
      dsimp only
      apply ih _ _ _ _ inv2
      rw [hq2, hv2]
      simp only [List.length_append, List.length_cons] at hm ⊢
      omega

theorem unvisP_le (w h : Nat) (vis : List (Nat × Nat)) :
    unvisP w h vis ≤ w * h := by
  unfold unvisP
  calc ((cellsP w h).filter (fun c => c ∉ vis)).length
      ≤ (cellsP w h).length := List.length_filter_le _ _
    _ = w * h := by
      unfold cellsP
      rw [List.length_product]
      simp

/-- C3: on a rectangular grid whose entry is in bounds, whenever the
exit is reachable from the entry in the pathfinder's traversal graph,
`find_path` returns a direction string that, followed step by step from
the entry, ends at the exit, and whose length is the minimum number of
edges of any entry-to-exit walk in that graph. -/
theorem findPath_shortest {g : Grid} {en xt : Nat × Nat}
    (hrect : ∀ row ∈ g, row.length = (g.headD []).length)
    (hen1 : en.1 < (g.headD []).length) (hen2 : en.2 < g.length)
    (hreach : Reach g (g.headD []).length g.length en xt) :
    ∃ p, findPath g en xt = .found p ∧
      follow g (g.headD []).length g.length en p = some xt ∧
      WalkLen g (g.headD []).length g.length p.length en xt ∧
      (∀ m, WalkLen g (g.headD []).length g.length m en xt →
        p.length ≤ m) := by
  have hinv := bfsInv_init (g := g) hen1 hen2
  have hmeas : 2 * unvisP (g.headD []).length g.length [en] +
      ([en] : List (Nat × Nat)).length <
      2 * ((g.headD []).length * g.length) + 2 := by
    have h1 := unvisP_le (g.headD []).length g.length [en]
    simp only [List.length_cons, List.length_nil]
    omega
  have huns : xt ∉ ([en] : List (Nat × Nat)) ∨
      xt ∈ ([en] : List (Nat × Nat)) := by
    by_cases hx : xt ∈ ([en] : List (Nat × Nat))
    · exact Or.inr hx
    · exact Or.inl hx
  obtain ⟨p, heq, hfol, hmin⟩ := bfsLoop_found rfl hrect
    (2 * ((g.headD []).length * g.length) + 2) [en] [en] [] []
    hinv hmeas huns hreach
  exact ⟨p, heq, hfol, follow_walkLen p en xt hfol, hmin⟩

/-- Closed-form check of `findPath_shortest` on the spec's example:
the fully open 3-by-3 grid with entry (0,0) and exit (2,2), where the
returned path must have length 4. -/
theorem findPath_shortest_witness :
    ∃ p, findPath [[0, 0, 0], [0, 0, 0], [0, 0, 0]] (0, 0) (2, 2) =
        .found p ∧
      follow [[0, 0, 0], [0, 0, 0], [0, 0, 0]] 3 3 (0, 0) p =
        some (2, 2) ∧
      WalkLen [[0, 0, 0], [0, 0, 0], [0, 0, 0]] 3 3 p.length
        (0, 0) (2, 2) ∧
      (∀ m, WalkLen [[0, 0, 0], [0, 0, 0], [0, 0, 0]] 3 3 m
        (0, 0) (2, 2) → p.length ≤ m) :=
  findPath_shortest (by decide) (by decide) (by decide) ⟨4, by decide⟩

/-- C6: on a rectangular grid whose entry is in bounds, whenever the
exit is not reachable from the entry in the pathfinder's traversal
graph, `find_path` terminates with the distinguished no-path value
(`None`): no exception and no returned string. -/
theorem findPath_disconnected {g : Grid} {en xt : Nat × Nat}
    (hrect : ∀ row ∈ g, row.length = (g.headD []).length)
    (hen1 : en.1 < (g.headD []).length) (hen2 : en.2 < g.length)
    (hnr : ¬ Reach g (g.headD []).length g.length en xt) :
    findPath g en xt = .noPath := by
  have hinv := bfsInv_init (g := g) hen1 hen2
  have hmeas : 2 * unvisP (g.headD []).length g.length [en] +
      ([en] : List (Nat × Nat)).length <
      2 * ((g.headD []).length * g.length) + 2 := by
    have h1 := unvisP_le (g.headD []).length g.length [en]
    simp only [List.length_cons, List.length_nil]
    omega
  exact bfsLoop_noPath rfl hrect hnr
    (2 * ((g.headD []).length * g.length) + 2) [en] [en] [] []
    hinv hmeas

/-! ## Claim C2: wall symmetry -/

/-- Row-major mask read for the symmetry statements (out-of-range reads
default to 0; the runs considered only touch in-range cells). -/
def gAt (g : Grid) (r c : Nat) : Nat := (g.getD r []).getD c 0

/-- Wall symmetry of an abstract mask table: every vertically adjacent
pair agrees on its shared wall (upper cell's South bit 2 against lower
cell's North bit 0), every horizontally adjacent pair likewise (left
East bit 1 against right West bit 3).  This covers all grid-adjacent
pairs in both orders. -/
def SymmF (w h : Nat) (f : Nat → Nat → Nat) : Prop :=
  (∀ r c, r + 1 < h → c < w →
    ((f r c).testBit 2 = false ↔ (f (r + 1) c).testBit 0 = false)) ∧
  (∀ r c, r < h → c + 1 < w →
    ((f r c).testBit 1 = false ↔ (f r (c + 1)).testBit 3 = false))

/-- Wall symmetry of a mask grid (`mazegen.py`, `mazegen/dfs.py`,
`mazegen/hak.py` representation). -/
def SymmGrid (w h : Nat) (g : Grid) : Prop := SymmF w h (gAt g)

theorem ldiff_add_land : ∀ (m n : Nat), Nat.ldiff m n + (m &&& n) = m := by
  intro m
  induction m using Nat.binaryRec with
  | z =>
    intro n
    show Nat.ldiff 0 n + (0 &&& n) = 0
    have hl : (0 &&& n) = 0 := by
      show Nat.bitwise _ 0 n = 0
      rw [Nat.bitwise_zero_left]
      simp
    have h0 : Nat.ldiff 0 n = 0 := by
      show Nat.bitwise _ 0 n = 0
      rw [Nat.bitwise_zero_left]
      simp
    rw [h0, hl]
  | f b m ih =>
    intro n
    rw [show n = Nat.bit (n.testBit 0) (n >>> 1) from
      (Nat.bit_testBit_zero_shiftRight_one n).symm]
    rw [Nat.ldiff_bit, Nat.land_bit, Nat.bit_val, Nat.bit_val, Nat.bit_val]
    have hih := ih (n >>> 1)
    cases b <;> cases hb : n.testBit 0 <;> simp <;> omega

theorem clearBit_eq_ldiff (m i : Nat) :
    clearBit m i = Nat.ldiff m (1 <<< i) := by
  unfold clearBit
  have h := ldiff_add_land m (1 <<< i)
  omega

theorem testBit_clearBit (m i b : Nat) :
    (clearBit m i).testBit b = if b = i then false else m.testBit b := by
  rw [clearBit_eq_ldiff]
  rw [Nat.shiftLeft_eq, one_mul, Nat.testBit_ldiff, Nat.testBit_two_pow]
  by_cases hb : b = i
  · subst hb
    simp
  · simp [hb, Ne.symm hb]

theorem getD_set_self {α : Type} {l : List α} {i : Nat} (h : i < l.length)
    (a d : α) : (l.set i a).getD i d = a := by
  rw [List.getD_eq_get?, List.get?_set_eq_of_lt a h]
  rfl

theorem getD_set_other {α : Type} {l : List α} {i j : Nat} (h : j ≠ i)
    (a d : α) : (l.set i a).getD j d = l.getD j d := by
  rw [List.getD_eq_get?, List.getD_eq_get?, List.get?_set_ne a _ (Ne.symm h)]

theorem pyGet_nonneg {α : Type} {l : List α} {x : Int} {a : α} (hx : 0 ≤ x)
    (h : pyGet l x = some a) :
    x.toNat < l.length ∧ l.get? x.toNat = some a := by
  unfold pyGet at h
  split at h
  · rename_i hcond
    exact ⟨by omega, h⟩
  · split at h
    · rename_i h1 hcond
      exact absurd hcond.2 (by omega)
    · cases h

theorem pySet_nonneg {α : Type} {l l2 : List α} {x : Int} {a : α}
    (hx : 0 ≤ x) (h : pySet l x a = some l2) :
    x.toNat < l.length ∧ l2 = l.set x.toNat a := by
  unfold pySet at h
  split at h
  · rename_i hcond
    exact ⟨by omega, (Option.some.inj h).symm⟩
  · split at h
    · rename_i h1 hcond
      exact absurd hcond.2 (by omega)
    · cases h

/-- A successful in-range `grid[x][y] &= ~(1 << i)` characterised as a
row replacement at Nat indices. -/
theorem clearCellBit_spec {g g2 : Grid} {x y : Int} {i : Nat}
    (hx : 0 ≤ x) (hy : 0 ≤ y) (hc : clearCellBit g x y i = some g2) :
    x.toNat < g.length ∧ y.toNat < (g.getD x.toNat []).length ∧
      g2 = g.set x.toNat ((g.getD x.toNat []).set y.toNat
        (clearBit (gAt g x.toNat y.toNat) i)) := by
  unfold clearCellBit at hc
  rcases hg : pyGet g x with _ | row
  · rw [hg] at hc
    cases hc
  rw [hg] at hc
  dsimp only at hc
  rcases hm : pyGet row y with _ | m
  · rw [hm] at hc
    cases hc
  rw [hm] at hc
  dsimp only at hc
  rcases hs : pySet row y (clearBit m i) with _ | row2
  · rw [hs] at hc
    cases hc
  rw [hs] at hc
  dsimp only at hc
  obtain ⟨hxl, hgx⟩ := pyGet_nonneg hx hg
  obtain ⟨hyl, hry⟩ := pyGet_nonneg hy hm
  obtain ⟨_, hrow2⟩ := pySet_nonneg hy hs
  obtain ⟨_, hg2⟩ := pySet_nonneg hx hc
  have hrowD : g.getD x.toNat [] = row := by
    rw [List.getD_eq_get?, hgx]
    rfl
  have hmD : gAt g x.toNat y.toNat = m := by
    unfold gAt
    rw [hrowD, List.getD_eq_get?, hry]
    rfl
  refine ⟨hxl, ?_, ?_⟩
  · rw [hrowD]
    exact hyl
  · rw [hg2, hrow2, hrowD, hmD]

/-- Reading back a grid after a one-cell mask replacement. -/
theorem gAt_set_clear {g : Grid} {r c : Nat} (hr : r < g.length)
    (hc : c < (g.getD r []).length) (m : Nat) (rp cp : Nat) :
    gAt (g.set r ((g.getD r []).set c m)) rp cp =
      if rp = r ∧ cp = c then m else gAt g rp cp := by
  unfold gAt
  by_cases h1 : rp = r
  · subst h1
    rw [getD_set_self hr]
    by_cases h2 : cp = c
    · subst h2
      rw [getD_set_self hc]
      simp
    · rw [getD_set_other h2]
      simp [h2]
  · rw [getD_set_other h1]
    simp [h1]

theorem rect_set_row {w : Nat} {g : Grid} {r : Nat} {row2 : List Nat}
    (hrows : ∀ row ∈ g, row.length = w) (hlen : row2.length = w) :
    ∀ row ∈ g.set r row2, row.length = w := by
  intro row hrow
  rcases List.mem_or_eq_of_mem_set hrow with hmem | rfl
  · exact hrows row hmem
  · exact hlen

/-- Symmetry is preserved by clearing exactly the two matching bits of a
vertically adjacent pair (South bit of the cell in row `u`, North bit of
the cell below it). -/
theorem symmF_update_vert {w h : Nat} {f f2 : Nat → Nat → Nat} {u c0 : Nat}
    (hsym : SymmF w h f)
    (hA2 : (f2 u c0).testBit 2 = false)
    (hAk : ∀ b, b ≠ 2 → (f2 u c0).testBit b = (f u c0).testBit b)
    (hB0 : (f2 (u + 1) c0).testBit 0 = false)
    (hBk : ∀ b, b ≠ 0 → (f2 (u + 1) c0).testBit b = (f (u + 1) c0).testBit b)
    (hother : ∀ r c, ¬(r = u ∧ c = c0) → ¬(r = u + 1 ∧ c = c0) →
      f2 r c = f r c) :
    SymmF w h f2 := by
  have keep : ∀ r c b, b ≠ 2 → b ≠ 0 →
      (f2 r c).testBit b = (f r c).testBit b := by
    intro r c b hb2 hb0
    by_cases h1 : r = u ∧ c = c0
    · rw [h1.1, h1.2]
      exact hAk b hb2
    · by_cases h2 : r = u + 1 ∧ c = c0
      · rw [h2.1, h2.2]
        exact hBk b hb0
      · rw [hother r c h1 h2]
  constructor
  · intro r c hr hc
    by_cases h1 : r = u ∧ c = c0
    · have e1 : (f2 r c).testBit 2 = false := by
        rw [h1.1, h1.2]
        exact hA2
      have e2 : (f2 (r + 1) c).testBit 0 = false := by
        rw [h1.1, h1.2]
        exact hB0
      rw [e1, e2]
    · by_cases h2 : r = u + 1 ∧ c = c0
      · have e1 : (f2 r c).testBit 2 = (f r c).testBit 2 := by
          rw [h2.1, h2.2]
          exact hBk 2 (by decide)
        have e2 : f2 (r + 1) c = f (r + 1) c :=
          hother (r + 1) c (fun hx => absurd hx.1 (by omega))
            (fun hx => absurd hx.1 (by omega))
        rw [e1, e2]
        exact hsym.1 r c hr hc
      · by_cases h3 : r + 1 = u ∧ c = c0
        · rw [hother r c h1 h2]
          have e : (f2 (r + 1) c).testBit 0 = (f (r + 1) c).testBit 0 := by
            rw [h3.1, h3.2]
            exact hAk 0 (by decide)
          rw [e]
          exact hsym.1 r c hr hc
        · rw [hother r c h1 h2,
            hother (r + 1) c h3 (fun hx => h1 ⟨by omega, hx.2⟩)]
          exact hsym.1 r c hr hc
  · intro r c hr hc
    rw [keep r c 1 (by decide) (by decide),
      keep r (c + 1) 3 (by decide) (by decide)]
    exact hsym.2 r c hr hc

/-- Symmetry is preserved by clearing exactly the two matching bits of a
horizontally adjacent pair (East bit of the cell in column `v`, West bit
of the cell to its right). -/
theorem symmF_update_horiz {w h : Nat} {f f2 : Nat → Nat → Nat} {r0 v : Nat}
    (hsym : SymmF w h f)
    (hA1 : (f2 r0 v).testBit 1 = false)
    (hAk : ∀ b, b ≠ 1 → (f2 r0 v).testBit b = (f r0 v).testBit b)
    (hB3 : (f2 r0 (v + 1)).testBit 3 = false)
    (hBk : ∀ b, b ≠ 3 → (f2 r0 (v + 1)).testBit b = (f r0 (v + 1)).testBit b)
    (hother : ∀ r c, ¬(r = r0 ∧ c = v) → ¬(r = r0 ∧ c = v + 1) →
      f2 r c = f r c) :
    SymmF w h f2 := by
  have keep : ∀ r c b, b ≠ 1 → b ≠ 3 →
      (f2 r c).testBit b = (f r c).testBit b := by
    intro r c b hb1 hb3
    by_cases h1 : r = r0 ∧ c = v
    · rw [h1.1, h1.2]
      exact hAk b hb1
    · by_cases h2 : r = r0 ∧ c = v + 1
      · rw [h2.1, h2.2]
        exact hBk b hb3
      · rw [hother r c h1 h2]
  constructor
  · intro r c hr hc
    rw [keep r c 2 (by decide) (by decide),
      keep (r + 1) c 0 (by decide) (by decide)]
    exact hsym.1 r c hr hc
  · intro r c hr hc
    by_cases h1 : r = r0 ∧ c = v
    · have e1 : (f2 r c).testBit 1 = false := by
        rw [h1.1, h1.2]
        exact hA1
      have e2 : (f2 r (c + 1)).testBit 3 = false := by
        rw [h1.1, h1.2]
        exact hB3
      rw [e1, e2]
    · by_cases h2 : r = r0 ∧ c = v + 1
      · have e1 : (f2 r c).testBit 1 = (f r c).testBit 1 := by
          rw [h2.1, h2.2]
          exact hBk 1 (by decide)
        have e2 : f2 r (c + 1) = f r (c + 1) :=
          hother r (c + 1) (fun hx => absurd hx.2 (by omega))
            (fun hx => absurd hx.2 (by omega))
        rw [e1, e2]
        exact hsym.2 r c hr hc
      · by_cases h3 : c + 1 = v ∧ r = r0
        · rw [hother r c h1 h2]
          have e : (f2 r (c + 1)).testBit 3 = (f r (c + 1)).testBit 3 := by
            rw [h3.2, h3.1]
            exact hAk 3 (by decide)
          rw [e]
          exact hsym.2 r c hr hc
        · rw [hother r c h1 h2,
            hother r (c + 1) (fun hx => h3 ⟨hx.2, hx.1⟩)
              (fun hx => h1 ⟨hx.1, by omega⟩)]
          exact hsym.2 r c hr hc

theorem getD_mem_of_lt {α : Type} {l : List α} {i : Nat} (h : i < l.length)
    (d : α) : l.getD i d ∈ l := by
  rw [List.getD_eq_get?, List.get?_eq_get h]
  exact List.get_mem l i h

/-- The shared carving pair
`grid[x][y] &= ~(1 << i); grid[x+dx][y+dy] &= ~(1 << opposite_wall[i])`
preserves rectangularity and wall symmetry whenever the direction is the
`i`-th entry of `DIRS` and all indices involved are non-negative. -/
theorem carve_preserves {w h : Nat} {g g2 : Grid} {x y dx dy : Int} {i : Nat}
    (hlen : g.length = h) (hrows : ∀ row ∈ g, row.length = w)
    (hsym : SymmGrid w h g) (hx : 0 ≤ x) (hy : 0 ≤ y)
    (hnx : 0 ≤ x + dx) (hny : 0 ≤ y + dy)
    (hi : neighborsList.get? i = some (dx, dy))
    (hc : carve g x y i (x + dx) (y + dy) (oppositeWall.getD i 0) = some g2) :
    g2.length = h ∧ (∀ row ∈ g2, row.length = w) ∧ SymmGrid w h g2 := by
  unfold carve at hc
  rcases h1 : clearCellBit g x y i with _ | g1
  · rw [h1] at hc
    cases hc
  rw [h1] at hc
  dsimp only at hc
  obtain ⟨hxl, hyl, hg1⟩ := clearCellBit_spec hx hy h1
  obtain ⟨hxl2, hyl2, hg2⟩ := clearCellBit_spec hnx hny hc
  have hrowlen : (g.getD x.toNat []).length = w :=
    hrows _ (getD_mem_of_lt hxl [])
  have hlen1 : g1.length = h := by
    rw [hg1, List.length_set, hlen]
  have hrows1 : ∀ row ∈ g1, row.length = w := by
    rw [hg1]
    apply rect_set_row hrows
    rw [List.length_set]
    exact hrowlen
  have hrowlen1 : (g1.getD (x + dx).toNat []).length = w :=
    hrows1 _ (getD_mem_of_lt hxl2 [])
  have hlen2 : g2.length = h := by
    rw [hg2, List.length_set, hlen1]
  have hrows2 : ∀ row ∈ g2, row.length = w := by
    rw [hg2]
    apply rect_set_row hrows1
    rw [List.length_set]
    exact hrowlen1
  refine ⟨hlen2, hrows2, ?_⟩
  have hup1 : ∀ rp cp, gAt g1 rp cp =
      if rp = x.toNat ∧ cp = y.toNat then clearBit (gAt g x.toNat y.toNat) i
      else gAt g rp cp := by
    intro rp cp
    rw [hg1]
    exact gAt_set_clear hxl hyl _ rp cp
  have hup2 : ∀ rp cp, gAt g2 rp cp =
      if rp = (x + dx).toNat ∧ cp = (y + dy).toNat then
        clearBit (gAt g1 (x + dx).toNat (y + dy).toNat)
          (oppositeWall.getD i 0)
      else gAt g1 rp cp := by
    intro rp cp
    rw [hg2]
    exact gAt_set_clear hxl2 hyl2 _ rp cp
  obtain ⟨hlt, _⟩ := List.get?_eq_some.mp hi
  have hi4 : i < 4 := hlt
  interval_cases i
  · -- direction (-1, 0): carve North; the pair is (x-1, y) above (x, y)
    have hgot : neighborsList.get? 0 = some ((-1 : Int), (0 : Int)) := by
      decide
    rw [hgot] at hi
    have hdd := Option.some.inj hi
    obtain ⟨rfl, rfl⟩ : dx = -1 ∧ dy = 0 :=
      ⟨(congrArg Prod.fst hdd).symm, (congrArg Prod.snd hdd).symm⟩
    have hj : oppositeWall.getD 0 0 = 2 := rfl
    have hyy : (y + 0).toNat = y.toNat := by omega
    rw [hj, hyy] at hup2
    have hA2 : (gAt g2 ((x + -1).toNat) y.toNat).testBit 2 = false := by
      rw [hup2 ((x + -1).toNat) y.toNat, if_pos ⟨rfl, rfl⟩,
        testBit_clearBit, if_pos rfl]
    have hAk : ∀ b, b ≠ 2 → (gAt g2 ((x + -1).toNat) y.toNat).testBit b =
        (gAt g ((x + -1).toNat) y.toNat).testBit b := by
      intro b hb
      rw [hup2 ((x + -1).toNat) y.toNat, if_pos ⟨rfl, rfl⟩,
        testBit_clearBit, if_neg hb, hup1 ((x + -1).toNat) y.toNat,
        if_neg (fun hx2 => absurd hx2.1 (by omega))]
    have hxe : (x + -1).toNat + 1 = x.toNat := by omega
    have hB0 : (gAt g2 ((x + -1).toNat + 1) y.toNat).testBit 0 = false := by
      rw [hxe, hup2 x.toNat y.toNat,
        if_neg (fun hx2 => absurd hx2.1 (by omega)),
        hup1 x.toNat y.toNat, if_pos ⟨rfl, rfl⟩,
        testBit_clearBit, if_pos rfl]
    have hBk : ∀ b, b ≠ 0 →
        (gAt g2 ((x + -1).toNat + 1) y.toNat).testBit b =
        (gAt g ((x + -1).toNat + 1) y.toNat).testBit b := by
      intro b hb
      rw [hxe, hup2 x.toNat y.toNat,
        if_neg (fun hx2 => absurd hx2.1 (by omega)),
        hup1 x.toNat y.toNat, if_pos ⟨rfl, rfl⟩,
        testBit_clearBit, if_neg hb]
    have hother : ∀ r c, ¬(r = (x + -1).toNat ∧ c = y.toNat) →
        ¬(r = (x + -1).toNat + 1 ∧ c = y.toNat) →
        gAt g2 r c = gAt g r c := by
      intro r c hn1 hn2
      rw [hup2 r c, if_neg hn1, hup1 r c,
        if_neg (fun hx2 => hn2 ⟨by omega, hx2.2⟩)]
    exact symmF_update_vert hsym hA2 hAk hB0 hBk hother
  · -- direction (0, 1): carve East; the pair is (x, y) left of (x, y+1)
    have hgot : neighborsList.get? 1 = some ((0 : Int), (1 : Int)) := by
      decide
    rw [hgot] at hi
    have hdd := Option.some.inj hi
    obtain ⟨rfl, rfl⟩ : dx = 0 ∧ dy = 1 :=
      ⟨(congrArg Prod.fst hdd).symm, (congrArg Prod.snd hdd).symm⟩
    have hj : oppositeWall.getD 1 0 = 3 := rfl
    have hxx : (x + 0).toNat = x.toNat := by omega
    have hyy : (y + 1).toNat = y.toNat + 1 := by omega
    rw [hj, hxx, hyy] at hup2
    have hA1 : (gAt g2 x.toNat y.toNat).testBit 1 = false := by
      rw [hup2 x.toNat y.toNat,
        if_neg (fun hx2 => absurd hx2.2 (by omega)),
        hup1 x.toNat y.toNat, if_pos ⟨rfl, rfl⟩,
        testBit_clearBit, if_pos rfl]
    have hAk : ∀ b, b ≠ 1 → (gAt g2 x.toNat y.toNat).testBit b =
        (gAt g x.toNat y.toNat).testBit b := by
      intro b hb
      rw [hup2 x.toNat y.toNat,
        if_neg (fun hx2 => absurd hx2.2 (by omega)),
        hup1 x.toNat y.toNat, if_pos ⟨rfl, rfl⟩,
        testBit_clearBit, if_neg hb]
    have hB3 : (gAt g2 x.toNat (y.toNat + 1)).testBit 3 = false := by
      rw [hup2 x.toNat (y.toNat + 1), if_pos ⟨rfl, rfl⟩,
        testBit_clearBit, if_pos rfl]
    have hBk : ∀ b, b ≠ 3 → (gAt g2 x.toNat (y.toNat + 1)).testBit b =
        (gAt g x.toNat (y.toNat + 1)).testBit b := by
      intro b hb
      rw [hup2 x.toNat (y.toNat + 1), if_pos ⟨rfl, rfl⟩,
        testBit_clearBit, if_neg hb, hup1 x.toNat (y.toNat + 1),
        if_neg (fun hx2 => absurd hx2.2 (by omega))]
    have hother : ∀ r c, ¬(r = x.toNat ∧ c = y.toNat) →
        ¬(r = x.toNat ∧ c = y.toNat + 1) →
        gAt g2 r c = gAt g r c := by
      intro r c hn1 hn2
      rw [hup2 r c, if_neg hn2, hup1 r c, if_neg hn1]
    exact symmF_update_horiz hsym hA1 hAk hB3 hBk hother
  · -- direction (1, 0): carve South; the pair is (x, y) above (x+1, y)
    have hgot : neighborsList.get? 2 = some ((1 : Int), (0 : Int)) := by
      decide
    rw [hgot] at hi
    have hdd := Option.some.inj hi
    obtain ⟨rfl, rfl⟩ : dx = 1 ∧ dy = 0 :=
      ⟨(congrArg Prod.fst hdd).symm, (congrArg Prod.snd hdd).symm⟩
    have hj : oppositeWall.getD 2 0 = 0 := rfl
    have hxx : (x + 1).toNat = x.toNat + 1 := by omega
    have hyy : (y + 0).toNat = y.toNat := by omega
    rw [hj, hxx, hyy] at hup2
    have hA2 : (gAt g2 x.toNat y.toNat).testBit 2 = false := by
      rw [hup2 x.toNat y.toNat,
        if_neg (fun hx2 => absurd hx2.1 (by omega)),
        hup1 x.toNat y.toNat, if_pos ⟨rfl, rfl⟩,
        testBit_clearBit, if_pos rfl]
    have hAk : ∀ b, b ≠ 2 → (gAt g2 x.toNat y.toNat).testBit b =
        (gAt g x.toNat y.toNat).testBit b := by
      intro b hb
      rw [hup2 x.toNat y.toNat,
        if_neg (fun hx2 => absurd hx2.1 (by omega)),
        hup1 x.toNat y.toNat, if_pos ⟨rfl, rfl⟩,
        testBit_clearBit, if_neg hb]
    have hB0 : (gAt g2 (x.toNat + 1) y.toNat).testBit 0 = false := by
      rw [hup2 (x.toNat + 1) y.toNat, if_pos ⟨rfl, rfl⟩,
        testBit_clearBit, if_pos rfl]
    have hBk : ∀ b, b ≠ 0 → (gAt g2 (x.toNat + 1) y.toNat).testBit b =
        (gAt g (x.toNat + 1) y.toNat).testBit b := by
      intro b hb
      rw [hup2 (x.toNat + 1) y.toNat, if_pos ⟨rfl, rfl⟩,
        testBit_clearBit, if_neg hb, hup1 (x.toNat + 1) y.toNat,
        if_neg (fun hx2 => absurd hx2.1 (by omega))]
    have hother : ∀ r c, ¬(r = x.toNat ∧ c = y.toNat) →
        ¬(r = x.toNat + 1 ∧ c = y.toNat) →
        gAt g2 r c = gAt g r c := by
      intro r c hn1 hn2
      rw [hup2 r c, if_neg hn2, hup1 r c, if_neg hn1]
    exact symmF_update_vert hsym hA2 hAk hB0 hBk hother
  · -- direction (0, -1): carve West; the pair is (x, y-1) left of (x, y)
    have hgot : neighborsList.get? 3 = some ((0 : Int), (-1 : Int)) := by
      decide
    rw [hgot] at hi
    have hdd := Option.some.inj hi
    obtain ⟨rfl, rfl⟩ : dx = 0 ∧ dy = -1 :=
      ⟨(congrArg Prod.fst hdd).symm, (congrArg Prod.snd hdd).symm⟩
    have hj : oppositeWall.getD 3 0 = 1 := rfl
    have hxx : (x + 0).toNat = x.toNat := by omega
    rw [hj, hxx] at hup2
    have hA1 : (gAt g2 x.toNat ((y + -1).toNat)).testBit 1 = false := by
      rw [hup2 x.toNat ((y + -1).toNat), if_pos ⟨rfl, rfl⟩,
        testBit_clearBit, if_pos rfl]
    have hAk : ∀ b, b ≠ 1 → (gAt g2 x.toNat ((y + -1).toNat)).testBit b =
        (gAt g x.toNat ((y + -1).toNat)).testBit b := by
      intro b hb
      rw [hup2 x.toNat ((y + -1).toNat), if_pos ⟨rfl, rfl⟩,
        testBit_clearBit, if_neg hb, hup1 x.toNat ((y + -1).toNat),
        if_neg (fun hx2 => absurd hx2.2 (by omega))]
    have hye : (y + -1).toNat + 1 = y.toNat := by omega
    have hB3 : (gAt g2 x.toNat ((y + -1).toNat + 1)).testBit 3 = false := by
      rw [hye, hup2 x.toNat y.toNat,
        if_neg (fun hx2 => absurd hx2.2 (by omega)),
        hup1 x.toNat y.toNat, if_pos ⟨rfl, rfl⟩,
        testBit_clearBit, if_pos rfl]
    have hBk : ∀ b, b ≠ 3 →
        (gAt g2 x.toNat ((y + -1).toNat + 1)).testBit b =
        (gAt g x.toNat ((y + -1).toNat + 1)).testBit b := by
      intro b hb
      rw [hye, hup2 x.toNat y.toNat,
        if_neg (fun hx2 => absurd hx2.2 (by omega)),
        hup1 x.toNat y.toNat, if_pos ⟨rfl, rfl⟩,
        testBit_clearBit, if_neg hb]
    have hother : ∀ r c, ¬(r = x.toNat ∧ c = (y + -1).toNat) →
        ¬(r = x.toNat ∧ c = (y + -1).toNat + 1) →
        gAt g2 r c = gAt g r c := by
      intro r c hn1 hn2
      rw [hup2 r c, if_neg hn1, hup1 r c,
        if_neg (fun hx2 => hn2 ⟨hx2.1, by omega⟩)]
    exact symmF_update_horiz hsym hA1 hAk hB3 hBk hother

theorem getD_replicate_of_lt {α : Type} {n i : Nat} (h : i < n) (a d : α) :
    (List.replicate n a).getD i d = a := by
  rw [List.getD_eq_getElem?_getD, List.getElem?_replicate_of_lt h]
  rfl

theorem fullGrid_rect (w h : Nat) :
    (fullGrid w h).length = h ∧ ∀ row ∈ fullGrid w h, row.length = w := by
  constructor
  · exact List.length_replicate _ _
  · intro row hrow
    rw [List.eq_of_mem_replicate hrow]
    exact List.length_replicate _ _

theorem gAt_fullGrid {w h r c : Nat} (hr : r < h) (hc : c < w) :
    gAt (fullGrid w h) r c = 15 := by
  unfold gAt fullGrid
  rw [getD_replicate_of_lt hr, getD_replicate_of_lt hc]

theorem symm_fullGrid (w h : Nat) : SymmGrid w h (fullGrid w h) := by
  constructor
  · intro r c hr hc
    rw [gAt_fullGrid (by omega) hc, gAt_fullGrid hr hc]
    decide
  · intro r c hr hc
    rw [gAt_fullGrid hr (by omega), gAt_fullGrid hr hc]
    decide

theorem indexOf_neighbors_get? {d : Int × Int} (hd : d ∈ neighborsList) :
    neighborsList.get? (neighborsList.indexOf d) = some d := by
  fin_cases hd <;> rfl

/-- Every completed run of the shared DFS loop preserves wall
symmetry. -/
theorem dfsLoop_symm {w h : Nat} {blocked : Int → Int → Bool}
    {o : Nat → Nat} :
    ∀ (fuel : Nat) (g : Grid) (stack visited : List Cell)
      (g2 : Grid) (vis2 : List Cell),
      g.length = h → (∀ row ∈ g, row.length = w) → SymmGrid w h g →
      (∀ p ∈ stack, 0 ≤ p.1 ∧ 0 ≤ p.2) →
      dfsLoop w h blocked o fuel g stack visited = some (g2, vis2) →
      SymmGrid w h g2 := by
  intro fuel
  induction fuel with
  | zero =>
    intro g stack visited g2 vis2 _ _ _ _ hrun
    cases hrun
  | succ f ih =>
    intro g stack visited g2 vis2 hlen hrows hsym hstk hrun
    rw [dfsLoop.eq_def] at hrun
    dsimp only at hrun
    cases stack with
    | nil =>
      obtain ⟨rfl, rfl⟩ : g = g2 ∧ visited = vis2 := by
        have := Option.some.inj hrun
        exact ⟨congrArg Prod.fst this, congrArg Prod.snd this⟩
      exact hsym
    | cons p rest =>
      obtain ⟨x, y⟩ := p
      dsimp only at hrun
      rcases hfs : firstStep w h blocked visited x y (shuffled (o f)) with
        _ | ⟨dx, dy⟩
      · rw [hfs] at hrun
        exact ih g rest visited g2 vis2 hlen hrows hsym
          (fun q hq => hstk q (List.mem_cons_of_mem _ hq)) hrun
      · rw [hfs] at hrun
        dsimp only at hrun
        obtain ⟨hmem, hbx1, hbxlt, hby1, hbylt, _, _⟩ := firstStep_spec hfs
        have hmemN : (dx, dy) ∈ neighborsList := mem_shuffled.mp hmem
        have hgot : neighborsList.get?
            (neighborsList.indexOf (dx, dy)) = some (dx, dy) :=
          indexOf_neighbors_get? hmemN
        rcases hcv : carve g x y (neighborsList.indexOf (dx, dy)) (x + dx)
            (y + dy) (oppositeWall.getD (neighborsList.indexOf (dx, dy)) 0)
          with _ | gc
        · rw [hcv] at hrun
          cases hrun
        · rw [hcv] at hrun
          have hx0 : 0 ≤ x := (hstk (x, y) (List.mem_cons_self _ _)).1
          have hy0 : 0 ≤ y := (hstk (x, y) (List.mem_cons_self _ _)).2
          obtain ⟨hlen2, hrows2, hsym2⟩ := carve_preserves hlen hrows hsym
            hx0 hy0 hbx1 hby1 hgot hcv
          exact ih gc _ _ g2 vis2 hlen2 hrows2 hsym2
            (fun q hq => by
              rcases List.mem_cons.mp hq with rfl | hq2
              · exact ⟨hbx1, hby1⟩
              · exact hstk q hq2) hrun

theorem getD_mem_of_ne_nil {α : Type} {l : List α} (hne : l.isEmpty = false)
    (k : Nat) (d : α) : l.getD (k % l.length) d ∈ l := by
  have hpos : 0 < l.length := by
    cases l with
    | nil => cases hne
    | cons a t => simp
  have hlt : k % l.length < l.length := Nat.mod_lt _ hpos
  rw [List.getD_eq_getElem?_getD, List.getElem?_eq_getElem hlt]
  exact List.getElem_mem hlt

/-- Every neighbour candidate of `mazegen/hak.py`'s scans carries its
direction index and an in-range target. -/
theorem dirCandidates_spec {w h : Nat} {vis : List Cell} {x y : Int}
    {b : Bool} {t : Int × Int × Nat}
    (ht : t ∈ dirCandidates w h vis x y b) :
    ∃ dx dy, neighborsList.get? t.2.2 = some (dx, dy) ∧
      t.1 = x + dx ∧ t.2.1 = y + dy ∧
      0 ≤ t.1 ∧ t.1 < (h : Int) ∧ 0 ≤ t.2.1 ∧ t.2.1 < (w : Int) := by
  unfold dirCandidates at ht
  obtain ⟨i, hi, hf⟩ := List.mem_filterMap.mp ht
  rcases hg : neighborsList.get? i with _ | d
  · rw [hg] at hf
    cases hf
  obtain ⟨dx, dy⟩ := d
  rw [hg] at hf
  dsimp only at hf
  split at hf
  · rename_i hcond
    have hteq := Option.some.inj hf
    subst hteq
    exact ⟨dx, dy, hg, rfl, rfl, hcond.1, hcond.2.1, hcond.2.2.1,
      hcond.2.2.2.1⟩
  · cases hf

/-- `kill` of `mazegen/hak.py` preserves rectangularity, symmetry and
non-negative coordinates. -/
theorem killLoop_symm {w h : Nat} {o : Nat → Nat} :
    ∀ (fuel k : Nat) (g : Grid) (vis : List Cell) (x y : Int)
      (g2 : Grid) (vis2 : List Cell) (c2 : Cell) (k2 : Nat),
      g.length = h → (∀ row ∈ g, row.length = w) → SymmGrid w h g →
      0 ≤ x → 0 ≤ y →
      killLoop o w h fuel k g vis x y = some (g2, vis2, c2, k2) →
      SymmGrid w h g2 ∧ g2.length = h ∧ (∀ row ∈ g2, row.length = w) ∧
        0 ≤ c2.1 ∧ 0 ≤ c2.2 := by
  intro fuel
  induction fuel with
  | zero =>
    intro k g vis x y g2 vis2 c2 k2 _ _ _ _ _ hrun
    cases hrun
  | succ f ih =>
    intro k g vis x y g2 vis2 c2 k2 hlen hrows hsym hx hy hrun
    rw [killLoop] at hrun
    dsimp only at hrun
    by_cases hemp : (dirCandidates w h vis x y false).isEmpty = true
    · rw [if_pos hemp] at hrun
      have hq := Option.some.inj hrun
      obtain ⟨rfl, rfl, rfl, rfl⟩ : g = g2 ∧ vis = vis2 ∧
          ((x, y) : Cell) = c2 ∧ k = k2 := by
        refine ⟨congrArg Prod.fst hq, ?_, ?_, ?_⟩
        · exact congrArg (fun t => t.2.1) hq
        · exact congrArg (fun t => t.2.2.1) hq
        · exact congrArg (fun t => t.2.2.2) hq
      exact ⟨hsym, hlen, hrows, hx, hy⟩
    · rw [if_neg hemp] at hrun
      have hpickmem := getD_mem_of_ne_nil
        (Bool.not_eq_true _ ▸ hemp : (dirCandidates w h vis x y
          false).isEmpty = false)
        (o k) (((0 : Int), (0 : Int), (0 : Nat)))
      obtain ⟨dx, dy, hgot, hpx, hpy, hb1, hblt1, hb2, hblt2⟩ :=
        dirCandidates_spec hpickmem
      rcases hcv : carve g x y
          ((dirCandidates w h vis x y false).getD
            (o k % (dirCandidates w h vis x y false).length) (0, 0, 0)).2.2
          ((dirCandidates w h vis x y false).getD
            (o k % (dirCandidates w h vis x y false).length) (0, 0, 0)).1
          ((dirCandidates w h vis x y false).getD
            (o k % (dirCandidates w h vis x y false).length) (0, 0, 0)).2.1
          (oppositeWall.getD
            ((dirCandidates w h vis x y false).getD
              (o k % (dirCandidates w h vis x y false).length) (0, 0, 0)).2.2
            0) with _ | gc
      · rw [hcv] at hrun
        cases hrun
      · rw [hcv] at hrun
        rw [hpx, hpy] at hcv
        have hb1x : 0 ≤ x + dx := hpx ▸ hb1
        have hb2x : 0 ≤ y + dy := hpy ▸ hb2
        obtain ⟨hlen2, hrows2, hsym2⟩ := carve_preserves hlen hrows hsym
          hx hy hb1x hb2x hgot hcv
        exact ih (k + 1) gc _ _ _ g2 vis2 c2 k2 hlen2 hrows2 hsym2
          hb1 hb2 hrun

/-- `hunt` of `mazegen/hak.py` preserves rectangularity, symmetry and
in-range coordinates when it finds a cell. -/
theorem huntPkgAux_symm {w h : Nat} {o : Nat → Nat} {k : Nat} :
    ∀ (cells : List Cell) (g : Grid) (vis : List Cell)
      (g2 : Grid) (vis2 : List Cell) (c2 : Cell),
      g.length = h → (∀ row ∈ g, row.length = w) → SymmGrid w h g →
      (∀ p ∈ cells, 0 ≤ p.1 ∧ 0 ≤ p.2) →
      huntPkgAux o k w h g vis cells = some (some (g2, vis2, c2)) →
      SymmGrid w h g2 ∧ g2.length = h ∧ (∀ row ∈ g2, row.length = w) ∧
        0 ≤ c2.1 ∧ 0 ≤ c2.2 := by
  intro cells
  induction cells with
  | nil =>
    intro g vis g2 vis2 c2 _ _ _ _ hrun
    exact Option.noConfusion (Option.some.inj hrun)
  | cons p rest ih =>
    obtain ⟨x, y⟩ := p
    intro g vis g2 vis2 c2 hlen hrows hsym hcells hrun
    rw [huntPkgAux] at hrun
    by_cases hv : ((x, y) : Cell) ∈ vis
    · rw [if_pos hv] at hrun
      exact ih g vis g2 vis2 c2 hlen hrows hsym
        (fun q hq => hcells q (List.mem_cons_of_mem _ hq)) hrun
    · rw [if_neg hv] at hrun
      dsimp only at hrun
      by_cases hemp : (dirCandidates w h vis x y true).isEmpty = true
      · rw [if_pos hemp] at hrun
        exact ih g vis g2 vis2 c2 hlen hrows hsym
          (fun q hq => hcells q (List.mem_cons_of_mem _ hq)) hrun
      · rw [if_neg hemp] at hrun
        have hpickmem := getD_mem_of_ne_nil
          (Bool.not_eq_true _ ▸ hemp : (dirCandidates w h vis x y
            true).isEmpty = false)
          (o k) (((0 : Int), (0 : Int), (0 : Nat)))
        obtain ⟨dx, dy, hgot, hpx, hpy, hb1, hblt1, hb2, hblt2⟩ :=
          dirCandidates_spec hpickmem
        rcases hcv : carve g x y
            ((dirCandidates w h vis x y true).getD
              (o k % (dirCandidates w h vis x y true).length) (0, 0, 0)).2.2
            ((dirCandidates w h vis x y true).getD
              (o k % (dirCandidates w h vis x y true).length) (0, 0, 0)).1
            ((dirCandidates w h vis x y true).getD
              (o k % (dirCandidates w h vis x y true).length) (0, 0, 0)).2.1
            (oppositeWall.getD
              ((dirCandidates w h vis x y true).getD
                (o k % (dirCandidates w h vis x y true).length)
                (0, 0, 0)).2.2 0) with _ | gc
        · rw [hcv] at hrun
          cases hrun
        · rw [hcv] at hrun
          rw [hpx, hpy] at hcv
          have hx0 : 0 ≤ x := (hcells (x, y) (List.mem_cons_self _ _)).1
          have hy0 : 0 ≤ y := (hcells (x, y) (List.mem_cons_self _ _)).2
          have hb1x : 0 ≤ x + dx := hpx ▸ hb1
          have hb2x : 0 ≤ y + dy := hpy ▸ hb2
          obtain ⟨hlen2, hrows2, hsym2⟩ := carve_preserves hlen hrows hsym
            hx0 hy0 hb1x hb2x hgot hcv
          have hq := Option.some.inj (Option.some.inj hrun)
          obtain ⟨rfl, rfl, rfl⟩ : gc = g2 ∧ ((x, y) :: vis) = vis2 ∧
              ((x, y) : Cell) = c2 := by
            refine ⟨congrArg Prod.fst hq, ?_, ?_⟩
            · exact congrArg (fun t => t.2.1) hq
            · exact congrArg (fun t => t.2.2) hq
          exact ⟨hsym2, hlen2, hrows2, hx0, hy0⟩

/-- The outer loop of `hak` preserves wall symmetry. -/
theorem hakLoopPkg_symm {w h : Nat} {o : Nat → Nat} :
    ∀ (fuel k : Nat) (g : Grid) (vis : List Cell) (x y : Int)
      (g2 : Grid) (vis2 : List Cell),
      g.length = h → (∀ row ∈ g, row.length = w) → SymmGrid w h g →
      0 ≤ x → 0 ≤ y →
      hakLoopPkg o w h fuel k g vis x y = some (g2, vis2) →
      SymmGrid w h g2 := by
  intro fuel
  induction fuel with
  | zero =>
    intro k g vis x y g2 vis2 _ _ _ _ _ hrun
    cases hrun
  | succ f ih =>
    intro k g vis x y g2 vis2 hlen hrows hsym hx hy hrun
    rw [hakLoopPkg] at hrun
    rcases hk : killLoop o w h (w * h + 1) k g vis x y with _ | q1
    · rw [hk] at hrun
      cases hrun
    obtain ⟨g1, vis1, c1, k1⟩ := q1
    rw [hk] at hrun
    dsimp only at hrun
    obtain ⟨hsym1, hlen1, hrows1, hc11, hc12⟩ :=
      killLoop_symm (w * h + 1) k g vis x y g1 vis1 c1 k1
        hlen hrows hsym hx hy hk
    rcases hh2 : huntPkg o k1 w h g1 vis1 with _ | oo
    · rw [hh2] at hrun
      cases hrun
    rw [hh2] at hrun
    cases oo with
    | none =>
      obtain ⟨rfl, rfl⟩ : g1 = g2 ∧ vis1 = vis2 := by
        have hq := Option.some.inj hrun
        exact ⟨congrArg Prod.fst hq, congrArg Prod.snd hq⟩
      exact hsym1
    | some trip =>
      obtain ⟨g3, vis3, c3⟩ := trip
      obtain ⟨hsym3, hlen3, hrows3, hc31, hc32⟩ :=
        huntPkgAux_symm (gridCells w h) g1 vis1 g3 vis3 c3
          hlen1 hrows1 hsym1
          (fun q hq => by
            obtain ⟨qx, qy⟩ := q
            have := mem_gridCells.mp hq
            exact ⟨this.1, this.2.2.1⟩) hh2
      exact ih (k1 + 1) g3 vis3 c3.1 c3.2 g2 vis2 hlen3 hrows3 hsym3
        hc31 hc32 hrun

/-- Wall-mask read of the `mazegen_hak.py` cell grid. -/
def hWalls (g : HGrid) (r c : Nat) : Nat := (hGet g r c).walls

/-- Wall symmetry for the `mazegen_hak.py` cell grid (NORTH 1, EAST 2,
SOUTH 4, WEST 8 are bits 0-3). -/
def SymmH (w h : Nat) (g : HGrid) : Prop := SymmF w h (hWalls g)

/-- Well-formedness of the cell grid: rectangular, with every cell
storing its own coordinates (as `_create_grid` establishes and all
updates maintain). -/
def HRect (w h : Nat) (g : HGrid) : Prop :=
  g.length = h ∧ (∀ row ∈ g, row.length = w) ∧
  ∀ r c, r < h → c < w → (hGet g r c).x = c ∧ (hGet g r c).y = r

theorem rows_set_len {α : Type} {w : Nat} {g : List (List α)} {r : Nat}
    {row2 : List α} (hrows : ∀ row ∈ g, row.length = w)
    (hlen : row2.length = w) : ∀ row ∈ g.set r row2, row.length = w := by
  intro row hrow
  rcases List.mem_or_eq_of_mem_set hrow with hmem | rfl
  · exact hrows row hmem
  · exact hlen

theorem hGet_hSet {g : HGrid} {yy xx : Nat} (hy : yy < g.length)
    (hx : xx < (g.getD yy []).length) (c : HCell) (r s : Nat) :
    hGet (hSet g yy xx c) r s =
      if r = yy ∧ s = xx then c else hGet g r s := by
  unfold hGet hSet
  by_cases h1 : r = yy
  · subst h1
    rw [getD_set_self hy]
    by_cases h2 : s = xx
    · subst h2
      rw [getD_set_self hx]
      simp
    · rw [getD_set_other h2]
      simp [h2]
  · rw [getD_set_other h1]
    simp [h1]

theorem hGet_hRemoveWall {w h : Nat} {g : HGrid} (hlen : g.length = h)
    (hrows : ∀ row ∈ g, row.length = w) {yy xx : Nat} (hy : yy < h)
    (hx : xx < w) (d : Nat) (r s : Nat) :
    hGet (hRemoveWall g yy xx d) r s =
      if r = yy ∧ s = xx then
        { hGet g yy xx with walls := Nat.ldiff (hGet g yy xx).walls d }
      else hGet g r s := by
  unfold hRemoveWall
  apply hGet_hSet (by omega)
  rw [hrows _ (getD_mem_of_lt (by omega) [])]
  exact hx

theorem hGet_hSetVisited {w h : Nat} {g : HGrid} (hlen : g.length = h)
    (hrows : ∀ row ∈ g, row.length = w) {yy xx : Nat} (hy : yy < h)
    (hx : xx < w) (r s : Nat) :
    hGet (hSetVisited g yy xx) r s =
      if r = yy ∧ s = xx then { hGet g yy xx with visited := true }
      else hGet g r s := by
  unfold hSetVisited
  apply hGet_hSet (by omega)
  rw [hrows _ (getD_mem_of_lt (by omega) [])]
  exact hx

theorem hRect_hSet {w h : Nat} {g : HGrid} {yy xx : Nat} {c : HCell}
    (hr : HRect w h g) (hy : yy < h) (hx : xx < w)
    (hcx : c.x = xx) (hcy : c.y = yy) : HRect w h (hSet g yy xx c) := by
  obtain ⟨hlen, hrows, hcoords⟩ := hr
  have hy' : yy < g.length := by omega
  have hx' : xx < (g.getD yy []).length := by
    rw [hrows _ (getD_mem_of_lt hy' [])]
    exact hx
  refine ⟨?_, ?_, ?_⟩
  · unfold hSet
    rw [List.length_set]
    exact hlen
  · unfold hSet
    apply rows_set_len hrows
    rw [List.length_set]
    exact hrows _ (getD_mem_of_lt hy' [])
  · intro r s hrh hsw
    rw [hGet_hSet hy' hx' c r s]
    by_cases hcase : r = yy ∧ s = xx
    · rw [if_pos hcase]
      exact ⟨by rw [hcx, hcase.2], by rw [hcy, hcase.1]⟩
    · rw [if_neg hcase]
      exact hcoords r s hrh hsw

theorem hRect_hRemoveWall {w h : Nat} {g : HGrid} {yy xx d : Nat}
    (hr : HRect w h g) (hy : yy < h) (hx : xx < w) :
    HRect w h (hRemoveWall g yy xx d) := by
  have hco := hr.2.2 yy xx hy hx
  exact hRect_hSet hr hy hx hco.1 hco.2

theorem hRect_hSetVisited {w h : Nat} {g : HGrid} {yy xx : Nat}
    (hr : HRect w h g) (hy : yy < h) (hx : xx < w) :
    HRect w h (hSetVisited g yy xx) := by
  have hco := hr.2.2 yy xx hy hx
  exact hRect_hSet hr hy hx hco.1 hco.2

theorem symmF_congr {w h : Nat} {f f2 : Nat → Nat → Nat}
    (he : ∀ r c, f2 r c = f r c) (hs : SymmF w h f) : SymmF w h f2 := by
  constructor
  · intro r c hr hc
    rw [he, he]
    exact hs.1 r c hr hc
  · intro r c hr hc
    rw [he, he]
    exact hs.2 r c hr hc

theorem testBit_ldiff_pow (m e b : Nat) :
    (Nat.ldiff m (2 ^ e)).testBit b =
      if b = e then false else m.testBit b := by
  rw [Nat.testBit_ldiff, Nat.testBit_two_pow]
  by_cases hb : b = e
  · subst hb
    simp
  · simp [hb, Ne.symm hb]

theorem symmH_hSetVisited {w h : Nat} {g : HGrid} {yy xx : Nat}
    (hr : HRect w h g) (hy : yy < h) (hx : xx < w)
    (hsym : SymmH w h g) : SymmH w h (hSetVisited g yy xx) := by
  apply symmF_congr ?_ hsym
  intro r s
  show (hGet (hSetVisited g yy xx) r s).walls = (hGet g r s).walls
  rw [hGet_hSetVisited hr.1 hr.2.1 hy hx r s]
  by_cases hcase : r = yy ∧ s = xx
  · rw [if_pos hcase, hcase.1, hcase.2]
  · rw [if_neg hcase]

theorem hGet_hCreateGrid {w h r c : Nat} (hr : r < h) (hc : c < w) :
    hGet (hCreateGrid w h) r c = ⟨c, r, 15, false⟩ := by
  have hrow : (hCreateGrid w h).getD r [] =
      (List.range w).map (fun x => HCell.mk x r 15 false) := by
    unfold hCreateGrid
    rw [List.getD_eq_getElem?_getD, List.getElem?_map, List.getElem?_range hr]
    rfl
  unfold hGet
  rw [hrow, List.getD_eq_getElem?_getD, List.getElem?_map,
    List.getElem?_range hc]
  rfl

theorem hRect_hCreateGrid (w h : Nat) : HRect w h (hCreateGrid w h) := by
  refine ⟨by simp [hCreateGrid], ?_, ?_⟩
  · intro row hrow
    unfold hCreateGrid at hrow
    obtain ⟨y, _, rfl⟩ := List.mem_map.mp hrow
    simp
  · intro r c hr hc
    rw [hGet_hCreateGrid hr hc]
    exact ⟨rfl, rfl⟩

theorem symmH_hCreateGrid (w h : Nat) : SymmH w h (hCreateGrid w h) := by
  constructor
  · intro r c hr hc
    show ((hGet (hCreateGrid w h) r c).walls).testBit 2 = false ↔
      ((hGet (hCreateGrid w h) (r + 1) c).walls).testBit 0 = false
    rw [hGet_hCreateGrid (by omega) hc, hGet_hCreateGrid hr hc]
    show (15 : Nat).testBit 2 = false ↔ (15 : Nat).testBit 0 = false
    decide
  · intro r c hr hc
    show ((hGet (hCreateGrid w h) r c).walls).testBit 1 = false ↔
      ((hGet (hCreateGrid w h) r (c + 1)).walls).testBit 3 = false
    rw [hGet_hCreateGrid hr (by omega), hGet_hCreateGrid hr hc]
    show (15 : Nat).testBit 1 = false ↔ (15 : Nat).testBit 3 = false
    decide

theorem testBit_ldiff1 (m b : Nat) :
    (Nat.ldiff m 1).testBit b = if b = 0 then false else m.testBit b := by
  have he : (1 : Nat) = 2 ^ 0 := by norm_num
  rw [he, testBit_ldiff_pow]

theorem testBit_ldiff2 (m b : Nat) :
    (Nat.ldiff m 2).testBit b = if b = 1 then false else m.testBit b := by
  have he : (2 : Nat) = 2 ^ 1 := by norm_num
  rw [he, testBit_ldiff_pow]

theorem testBit_ldiff4 (m b : Nat) :
    (Nat.ldiff m 4).testBit b = if b = 2 then false else m.testBit b := by
  have he : (4 : Nat) = 2 ^ 2 := by norm_num
  rw [he, testBit_ldiff_pow]

theorem testBit_ldiff8 (m b : Nat) :
    (Nat.ldiff m 8).testBit b = if b = 3 then false else m.testBit b := by
  have he : (8 : Nat) = 2 ^ 3 := by norm_num
  rw [he, testBit_ldiff_pow]

/-- Opening one wall both ways (`cell.remove_wall(d)` then
`neighbor.remove_wall(_opposite(d))`) preserves rectangularity and wall
symmetry for each of the four directions. -/
theorem hPairRemove_symm {w h : Nat} {g : HGrid} {ay ax by2 bx d : Nat}
    (hr : HRect w h g) (hsym : SymmH w h g)
    (hah : ay < h) (hax : ax < w) (hbh : by2 < h) (hbxw : bx < w)
    (hcase :
      (d = 1 ∧ ay = by2 + 1 ∧ bx = ax) ∨
      (d = 2 ∧ bx = ax + 1 ∧ by2 = ay) ∨
      (d = 4 ∧ by2 = ay + 1 ∧ bx = ax) ∨
      (d = 8 ∧ ax = bx + 1 ∧ by2 = ay)) :
    HRect w h (hRemoveWall (hRemoveWall g ay ax d) by2 bx (hOpp d)) ∧
    SymmH w h (hRemoveWall (hRemoveWall g ay ax d) by2 bx (hOpp d)) := by
  have hr1 : HRect w h (hRemoveWall g ay ax d) := hRect_hRemoveWall hr hah hax
  have hr2 : HRect w h (hRemoveWall (hRemoveWall g ay ax d) by2 bx
      (hOpp d)) := hRect_hRemoveWall hr1 hbh hbxw
  refine ⟨hr2, ?_⟩
  have hup1 := hGet_hRemoveWall hr.1 hr.2.1 hah hax d
  have hup2 := hGet_hRemoveWall hr1.1 hr1.2.1 hbh hbxw (hOpp d)
  rcases hcase with ⟨rfl, hay, hbx⟩ | ⟨rfl, hbx, hby⟩ |
    ⟨rfl, hby, hbx⟩ | ⟨rfl, hax2, hby⟩
  · -- d = 1 (North): pair rows by2 (upper) and by2+1 = ay (lower)
    have hA2 : (hWalls (hRemoveWall (hRemoveWall g ay ax 1) by2 bx
        (hOpp 1)) by2 bx).testBit 2 = false := by
      show ((hGet (hRemoveWall (hRemoveWall g ay ax 1) by2 bx (hOpp 1))
        by2 bx).walls).testBit 2 = false
      rw [hup2 by2 bx, if_pos ⟨rfl, rfl⟩]
      show (Nat.ldiff (hGet (hRemoveWall g ay ax 1) by2 bx).walls
        (hOpp 1)).testBit 2 = false
      rw [show hOpp 1 = 4 from rfl, testBit_ldiff4, if_pos rfl]
    have hAk : ∀ b, b ≠ 2 → (hWalls (hRemoveWall (hRemoveWall g ay ax 1)
        by2 bx (hOpp 1)) by2 bx).testBit b =
        (hWalls g by2 bx).testBit b := by
      intro b hb
      show ((hGet (hRemoveWall (hRemoveWall g ay ax 1) by2 bx (hOpp 1))
        by2 bx).walls).testBit b = ((hGet g by2 bx).walls).testBit b
      rw [hup2 by2 bx, if_pos ⟨rfl, rfl⟩]
      show (Nat.ldiff (hGet (hRemoveWall g ay ax 1) by2 bx).walls
        (hOpp 1)).testBit b = ((hGet g by2 bx).walls).testBit b
      rw [show hOpp 1 = 4 from rfl, testBit_ldiff4, if_neg hb,
        hup1 by2 bx, if_neg (fun hx => absurd hx.1 (by omega))]
    have hB0 : (hWalls (hRemoveWall (hRemoveWall g ay ax 1) by2 bx
        (hOpp 1)) (by2 + 1) bx).testBit 0 = false := by
      show ((hGet (hRemoveWall (hRemoveWall g ay ax 1) by2 bx (hOpp 1))
        (by2 + 1) bx).walls).testBit 0 = false
      rw [hup2 (by2 + 1) bx, if_neg (fun hx => absurd hx.1 (by omega)),
        hup1 (by2 + 1) bx, if_pos ⟨by omega, hbx⟩]
      show (Nat.ldiff (hGet g ay ax).walls 1).testBit 0 = false
      rw [testBit_ldiff1, if_pos rfl]
    have hBk : ∀ b, b ≠ 0 → (hWalls (hRemoveWall (hRemoveWall g ay ax 1)
        by2 bx (hOpp 1)) (by2 + 1) bx).testBit b =
        (hWalls g (by2 + 1) bx).testBit b := by
      intro b hb
      show ((hGet (hRemoveWall (hRemoveWall g ay ax 1) by2 bx (hOpp 1))
        (by2 + 1) bx).walls).testBit b =
        ((hGet g (by2 + 1) bx).walls).testBit b
      rw [hup2 (by2 + 1) bx, if_neg (fun hx => absurd hx.1 (by omega)),
        hup1 (by2 + 1) bx, if_pos ⟨by omega, hbx⟩]
      show (Nat.ldiff (hGet g ay ax).walls 1).testBit b =
        ((hGet g (by2 + 1) bx).walls).testBit b
      rw [testBit_ldiff1, if_neg hb, hay, ← hbx]
    have hother : ∀ r c, ¬(r = by2 ∧ c = bx) → ¬(r = by2 + 1 ∧ c = bx) →
        hWalls (hRemoveWall (hRemoveWall g ay ax 1) by2 bx (hOpp 1)) r c =
        hWalls g r c := by
      intro r c hn1 hn2
      show (hGet (hRemoveWall (hRemoveWall g ay ax 1) by2 bx (hOpp 1))
        r c).walls = (hGet g r c).walls
      rw [hup2 r c, if_neg hn1, hup1 r c,
        if_neg (fun hx => hn2 ⟨by omega, by omega⟩)]
    exact symmF_update_vert hsym hA2 hAk hB0 hBk hother
  · -- d = 2 (East): pair columns ax (left) and ax+1 = bx (right)
    have hA1 : (hWalls (hRemoveWall (hRemoveWall g ay ax 2) by2 bx
        (hOpp 2)) ay ax).testBit 1 = false := by
      show ((hGet (hRemoveWall (hRemoveWall g ay ax 2) by2 bx (hOpp 2))
        ay ax).walls).testBit 1 = false
      rw [hup2 ay ax, if_neg (fun hx => absurd hx.2 (by omega)),
        hup1 ay ax, if_pos ⟨rfl, rfl⟩]
      show (Nat.ldiff (hGet g ay ax).walls 2).testBit 1 = false
      rw [testBit_ldiff2, if_pos rfl]
    have hAk : ∀ b, b ≠ 1 → (hWalls (hRemoveWall (hRemoveWall g ay ax 2)
        by2 bx (hOpp 2)) ay ax).testBit b =
        (hWalls g ay ax).testBit b := by
      intro b hb
      show ((hGet (hRemoveWall (hRemoveWall g ay ax 2) by2 bx (hOpp 2))
        ay ax).walls).testBit b = ((hGet g ay ax).walls).testBit b
      rw [hup2 ay ax, if_neg (fun hx => absurd hx.2 (by omega)),
        hup1 ay ax, if_pos ⟨rfl, rfl⟩]
      show (Nat.ldiff (hGet g ay ax).walls 2).testBit b =
        ((hGet g ay ax).walls).testBit b
      rw [testBit_ldiff2, if_neg hb]
    have hB3 : (hWalls (hRemoveWall (hRemoveWall g ay ax 2) by2 bx
        (hOpp 2)) ay (ax + 1)).testBit 3 = false := by
      show ((hGet (hRemoveWall (hRemoveWall g ay ax 2) by2 bx (hOpp 2))
        ay (ax + 1)).walls).testBit 3 = false
      rw [hup2 ay (ax + 1), if_pos ⟨by omega, by omega⟩]
      show (Nat.ldiff (hGet (hRemoveWall g ay ax 2) by2 bx).walls
        (hOpp 2)).testBit 3 = false
      rw [show hOpp 2 = 8 from rfl, testBit_ldiff8, if_pos rfl]
    have hBk : ∀ b, b ≠ 3 → (hWalls (hRemoveWall (hRemoveWall g ay ax 2)
        by2 bx (hOpp 2)) ay (ax + 1)).testBit b =
        (hWalls g ay (ax + 1)).testBit b := by
      intro b hb
      show ((hGet (hRemoveWall (hRemoveWall g ay ax 2) by2 bx (hOpp 2))
        ay (ax + 1)).walls).testBit b =
        ((hGet g ay (ax + 1)).walls).testBit b
      rw [hup2 ay (ax + 1), if_pos ⟨by omega, by omega⟩]
      show (Nat.ldiff (hGet (hRemoveWall g ay ax 2) by2 bx).walls
        (hOpp 2)).testBit b = ((hGet g ay (ax + 1)).walls).testBit b
      rw [show hOpp 2 = 8 from rfl, testBit_ldiff8, if_neg hb,
        hup1 by2 bx, if_neg (fun hx => absurd hx.2 (by omega)), hby, hbx]
    have hother : ∀ r c, ¬(r = ay ∧ c = ax) → ¬(r = ay ∧ c = ax + 1) →
        hWalls (hRemoveWall (hRemoveWall g ay ax 2) by2 bx (hOpp 2)) r c =
        hWalls g r c := by
      intro r c hn1 hn2
      show (hGet (hRemoveWall (hRemoveWall g ay ax 2) by2 bx (hOpp 2))
        r c).walls = (hGet g r c).walls
      rw [hup2 r c, if_neg (fun hx => hn2 ⟨by omega, by omega⟩),
        hup1 r c, if_neg hn1]
    exact symmF_update_horiz hsym hA1 hAk hB3 hBk hother
  · -- d = 4 (South): pair rows ay (upper) and ay+1 = by2 (lower)
    have hA2 : (hWalls (hRemoveWall (hRemoveWall g ay ax 4) by2 bx
        (hOpp 4)) ay ax).testBit 2 = false := by
      show ((hGet (hRemoveWall (hRemoveWall g ay ax 4) by2 bx (hOpp 4))
        ay ax).walls).testBit 2 = false
      rw [hup2 ay ax, if_neg (fun hx => absurd hx.1 (by omega)),
        hup1 ay ax, if_pos ⟨rfl, rfl⟩]
      show (Nat.ldiff (hGet g ay ax).walls 4).testBit 2 = false
      rw [testBit_ldiff4, if_pos rfl]
    have hAk : ∀ b, b ≠ 2 → (hWalls (hRemoveWall (hRemoveWall g ay ax 4)
        by2 bx (hOpp 4)) ay ax).testBit b =
        (hWalls g ay ax).testBit b := by
      intro b hb
      show ((hGet (hRemoveWall (hRemoveWall g ay ax 4) by2 bx (hOpp 4))
        ay ax).walls).testBit b = ((hGet g ay ax).walls).testBit b
      rw [hup2 ay ax, if_neg (fun hx => absurd hx.1 (by omega)),
        hup1 ay ax, if_pos ⟨rfl, rfl⟩]
      show (Nat.ldiff (hGet g ay ax).walls 4).testBit b =
        ((hGet g ay ax).walls).testBit b
      rw [testBit_ldiff4, if_neg hb]
    have hB0 : (hWalls (hRemoveWall (hRemoveWall g ay ax 4) by2 bx
        (hOpp 4)) (ay + 1) ax).testBit 0 = false := by
      show ((hGet (hRemoveWall (hRemoveWall g ay ax 4) by2 bx (hOpp 4))
        (ay + 1) ax).walls).testBit 0 = false
      rw [hup2 (ay + 1) ax, if_pos ⟨by omega, by omega⟩]
      show (Nat.ldiff (hGet (hRemoveWall g ay ax 4) by2 bx).walls
        (hOpp 4)).testBit 0 = false
      rw [show hOpp 4 = 1 from rfl, testBit_ldiff1, if_pos rfl]
    have hBk : ∀ b, b ≠ 0 → (hWalls (hRemoveWall (hRemoveWall g ay ax 4)
        by2 bx (hOpp 4)) (ay + 1) ax).testBit b =
        (hWalls g (ay + 1) ax).testBit b := by
      intro b hb
      show ((hGet (hRemoveWall (hRemoveWall g ay ax 4) by2 bx (hOpp 4))
        (ay + 1) ax).walls).testBit b =
        ((hGet g (ay + 1) ax).walls).testBit b
      rw [hup2 (ay + 1) ax, if_pos ⟨by omega, by omega⟩]
      show (Nat.ldiff (hGet (hRemoveWall g ay ax 4) by2 bx).walls
        (hOpp 4)).testBit b = ((hGet g (ay + 1) ax).walls).testBit b
      rw [show hOpp 4 = 1 from rfl, testBit_ldiff1, if_neg hb,
        hup1 by2 bx, if_neg (fun hx => absurd hx.1 (by omega)), hby, hbx]
    have hother : ∀ r c, ¬(r = ay ∧ c = ax) → ¬(r = ay + 1 ∧ c = ax) →
        hWalls (hRemoveWall (hRemoveWall g ay ax 4) by2 bx (hOpp 4)) r c =
        hWalls g r c := by
      intro r c hn1 hn2
      show (hGet (hRemoveWall (hRemoveWall g ay ax 4) by2 bx (hOpp 4))
        r c).walls = (hGet g r c).walls
      rw [hup2 r c, if_neg (fun hx => hn2 ⟨by omega, by omega⟩),
        hup1 r c, if_neg hn1]
    exact symmF_update_vert hsym hA2 hAk hB0 hBk hother
  · -- d = 8 (West): pair columns bx (left) and bx+1 = ax (right)
    have hA1 : (hWalls (hRemoveWall (hRemoveWall g ay ax 8) by2 bx
        (hOpp 8)) ay bx).testBit 1 = false := by
      show ((hGet (hRemoveWall (hRemoveWall g ay ax 8) by2 bx (hOpp 8))
        ay bx).walls).testBit 1 = false
      rw [hup2 ay bx, if_pos ⟨by omega, rfl⟩]
      show (Nat.ldiff (hGet (hRemoveWall g ay ax 8) by2 bx).walls
        (hOpp 8)).testBit 1 = false
      rw [show hOpp 8 = 2 from rfl, testBit_ldiff2, if_pos rfl]
    have hAk : ∀ b, b ≠ 1 → (hWalls (hRemoveWall (hRemoveWall g ay ax 8)
        by2 bx (hOpp 8)) ay bx).testBit b =
        (hWalls g ay bx).testBit b := by
      intro b hb
      show ((hGet (hRemoveWall (hRemoveWall g ay ax 8) by2 bx (hOpp 8))
        ay bx).walls).testBit b = ((hGet g ay bx).walls).testBit b
      rw [hup2 ay bx, if_pos ⟨by omega, rfl⟩]
      show (Nat.ldiff (hGet (hRemoveWall g ay ax 8) by2 bx).walls
        (hOpp 8)).testBit b = ((hGet g ay bx).walls).testBit b
      rw [show hOpp 8 = 2 from rfl, testBit_ldiff2, if_neg hb,
        hup1 by2 bx, if_neg (fun hx => absurd hx.2 (by omega)), hby]
    have hB3 : (hWalls (hRemoveWall (hRemoveWall g ay ax 8) by2 bx
        (hOpp 8)) ay (bx + 1)).testBit 3 = false := by
      show ((hGet (hRemoveWall (hRemoveWall g ay ax 8) by2 bx (hOpp 8))
        ay (bx + 1)).walls).testBit 3 = false
      rw [hup2 ay (bx + 1), if_neg (fun hx => absurd hx.2 (by omega)),
        hup1 ay (bx + 1), if_pos ⟨rfl, by omega⟩]
      show (Nat.ldiff (hGet g ay ax).walls 8).testBit 3 = false
      rw [testBit_ldiff8, if_pos rfl]
    have hBk : ∀ b, b ≠ 3 → (hWalls (hRemoveWall (hRemoveWall g ay ax 8)
        by2 bx (hOpp 8)) ay (bx + 1)).testBit b =
        (hWalls g ay (bx + 1)).testBit b := by
      intro b hb
      show ((hGet (hRemoveWall (hRemoveWall g ay ax 8) by2 bx (hOpp 8))
        ay (bx + 1)).walls).testBit b =
        ((hGet g ay (bx + 1)).walls).testBit b
      rw [hup2 ay (bx + 1), if_neg (fun hx => absurd hx.2 (by omega)),
        hup1 ay (bx + 1), if_pos ⟨rfl, by omega⟩]
      show (Nat.ldiff (hGet g ay ax).walls 8).testBit b =
        ((hGet g ay (bx + 1)).walls).testBit b
      rw [testBit_ldiff8, if_neg hb, hax2]
    have hother : ∀ r c, ¬(r = ay ∧ c = bx) → ¬(r = ay ∧ c = bx + 1) →
        hWalls (hRemoveWall (hRemoveWall g ay ax 8) by2 bx (hOpp 8)) r c =
        hWalls g r c := by
      intro r c hn1 hn2
      show (hGet (hRemoveWall (hRemoveWall g ay ax 8) by2 bx (hOpp 8))
        r c).walls = (hGet g r c).walls
      rw [hup2 r c, if_neg (fun hx => hn1 ⟨by omega, by omega⟩),
        hup1 r c, if_neg (fun hx => hn2 ⟨hx.1, by omega⟩)]
    exact symmF_update_horiz hsym hA1 hAk hB3 hBk hother

theorem hUnvisitedNeighbors_spec {g : HGrid} {w h : Nat} {c : HCell}
    {t : HCell × Nat} (ht : t ∈ hUnvisitedNeighbors g w h c) :
    (t.2 = 1 ∧ 0 < c.y ∧ t.1 = hGet g (c.y - 1) c.x) ∨
    (t.2 = 2 ∧ c.x < w - 1 ∧ t.1 = hGet g c.y (c.x + 1)) ∨
    (t.2 = 4 ∧ c.y < h - 1 ∧ t.1 = hGet g (c.y + 1) c.x) ∨
    (t.2 = 8 ∧ 0 < c.x ∧ t.1 = hGet g c.y (c.x - 1)) := by
  unfold hUnvisitedNeighbors at ht
  rcases List.mem_append.mp ht with h1 | h1
  · rcases List.mem_append.mp h1 with h2 | h2
    · rcases List.mem_append.mp h2 with h3 | h3
      · obtain ⟨hcond, rfl⟩ := mem_if_singleton.mp h3
        exact Or.inl ⟨rfl, hcond.1, rfl⟩
      · obtain ⟨hcond, rfl⟩ := mem_if_singleton.mp h3
        exact Or.inr (Or.inl ⟨rfl, hcond.1, rfl⟩)
    · obtain ⟨hcond, rfl⟩ := mem_if_singleton.mp h2
      exact Or.inr (Or.inr (Or.inl ⟨rfl, hcond.1, rfl⟩))
  · obtain ⟨hcond, rfl⟩ := mem_if_singleton.mp h1
    exact Or.inr (Or.inr (Or.inr ⟨rfl, hcond.1, rfl⟩))

theorem hVisitedNeighbors_spec {g : HGrid} {w h : Nat} {c : HCell}
    {t : HCell × Nat} (ht : t ∈ hVisitedNeighbors g w h c) :
    (t.2 = 1 ∧ 0 < c.y ∧ t.1 = hGet g (c.y - 1) c.x) ∨
    (t.2 = 2 ∧ c.x < w - 1 ∧ t.1 = hGet g c.y (c.x + 1)) ∨
    (t.2 = 4 ∧ c.y < h - 1 ∧ t.1 = hGet g (c.y + 1) c.x) ∨
    (t.2 = 8 ∧ 0 < c.x ∧ t.1 = hGet g c.y (c.x - 1)) := by
  unfold hVisitedNeighbors at ht
  rcases List.mem_append.mp ht with h1 | h1
  · rcases List.mem_append.mp h1 with h2 | h2
    · rcases List.mem_append.mp h2 with h3 | h3
      · obtain ⟨hcond, rfl⟩ := mem_if_singleton.mp h3
        exact Or.inl ⟨rfl, hcond.1, rfl⟩
      · obtain ⟨hcond, rfl⟩ := mem_if_singleton.mp h3
        exact Or.inr (Or.inl ⟨rfl, hcond.1, rfl⟩)
    · obtain ⟨hcond, rfl⟩ := mem_if_singleton.mp h2
      exact Or.inr (Or.inr (Or.inl ⟨rfl, hcond.1, rfl⟩))
  · obtain ⟨hcond, rfl⟩ := mem_if_singleton.mp h1
    exact Or.inr (Or.inr (Or.inr ⟨rfl, hcond.1, rfl⟩))

/-- `_kill` preserves rectangularity, symmetry and in-range current
cell. -/
theorem hKill_symm {o : Nat → Nat} {w h : Nat} :
    ∀ (fuel k : Nat) (g : HGrid) (c : HCell),
      HRect w h g → SymmH w h g → c.y < h → c.x < w →
      HRect w h (hKill o w h fuel k g c).1 ∧
      SymmH w h (hKill o w h fuel k g c).1 ∧
      (hKill o w h fuel k g c).2.1.y < h ∧
      (hKill o w h fuel k g c).2.1.x < w := by
  intro fuel
  induction fuel with
  | zero =>
    intro k g c hr hsym hcy hcx
    exact ⟨hr, hsym, hcy, hcx⟩
  | succ f ih =>
    intro k g c hr hsym hcy hcx
    rw [hKill]
    dsimp only
    by_cases hemp : (hUnvisitedNeighbors g w h c).isEmpty = true
    · rw [if_pos hemp]
      exact ⟨hr, hsym, hcy, hcx⟩
    · rw [if_neg hemp]
      have hempf : (hUnvisitedNeighbors g w h c).isEmpty = false := by
        cases hdc : (hUnvisitedNeighbors g w h c).isEmpty
        · rfl
        · exact absurd hdc hemp
      set pick := (hUnvisitedNeighbors g w h c).getD
        (o k % (hUnvisitedNeighbors g w h c).length) (hzero, 1) with hpick
      have hpickmem : pick ∈ hUnvisitedNeighbors g w h c :=
        getD_mem_of_ne_nil hempf (o k) (hzero, 1)
      have hspec := hUnvisitedNeighbors_spec hpickmem
      have hstep : HRect w h (hRemoveWall (hRemoveWall g c.y c.x pick.2)
            pick.1.y pick.1.x (hOpp pick.2)) ∧
          SymmH w h (hRemoveWall (hRemoveWall g c.y c.x pick.2)
            pick.1.y pick.1.x (hOpp pick.2)) ∧
          pick.1.y < h ∧ pick.1.x < w := by
        rcases hspec with ⟨hd, hgt, hpe⟩ | ⟨hd, hlt2, hpe⟩ |
          ⟨hd, hlt2, hpe⟩ | ⟨hd, hgt, hpe⟩
        · have hco := hr.2.2 (c.y - 1) c.x (by omega) hcx
          have hpy : pick.1.y = c.y - 1 := by
            rw [hpe]
            exact hco.2
          have hpx : pick.1.x = c.x := by
            rw [hpe]
            exact hco.1
          have hpair := hPairRemove_symm hr hsym hcy hcx
            (show pick.1.y < h by omega) (show pick.1.x < w by omega)
            (Or.inl ⟨hd, by omega, hpx⟩)
          exact ⟨hpair.1, hpair.2, by omega, by omega⟩
        · have hco := hr.2.2 c.y (c.x + 1) hcy (by omega)
          have hpy : pick.1.y = c.y := by
            rw [hpe]
            exact hco.2
          have hpx : pick.1.x = c.x + 1 := by
            rw [hpe]
            exact hco.1
          have hpair := hPairRemove_symm hr hsym hcy hcx
            (show pick.1.y < h by omega) (show pick.1.x < w by omega)
            (Or.inr (Or.inl ⟨hd, hpx, hpy⟩))
          exact ⟨hpair.1, hpair.2, by omega, by omega⟩
        · have hco := hr.2.2 (c.y + 1) c.x (by omega) hcx
          have hpy : pick.1.y = c.y + 1 := by
            rw [hpe]
            exact hco.2
          have hpx : pick.1.x = c.x := by
            rw [hpe]
            exact hco.1
          have hpair := hPairRemove_symm hr hsym hcy hcx
            (show pick.1.y < h by omega) (show pick.1.x < w by omega)
            (Or.inr (Or.inr (Or.inl ⟨hd, hpy, hpx⟩)))
          exact ⟨hpair.1, hpair.2, by omega, by omega⟩
        · have hco := hr.2.2 c.y (c.x - 1) hcy (by omega)
          have hpy : pick.1.y = c.y := by
            rw [hpe]
            exact hco.2
          have hpx : pick.1.x = c.x - 1 := by
            rw [hpe]
            exact hco.1
          have hpair := hPairRemove_symm hr hsym hcy hcx
            (show pick.1.y < h by omega) (show pick.1.x < w by omega)
            (Or.inr (Or.inr (Or.inr ⟨hd, by omega, hpy⟩)))
          exact ⟨hpair.1, hpair.2, by omega, by omega⟩
      obtain ⟨hr2, hsym2, hpyh, hpxw⟩ := hstep
      have hr3 := hRect_hSetVisited hr2 hpyh hpxw
      have hsym3 := symmH_hSetVisited hr2 hpyh hpxw hsym2
      have hco3 := hr3.2.2 pick.1.y pick.1.x hpyh hpxw
      exact ih (k + 1) _ _ hr3 hsym3 (by rw [hco3.2]; exact hpyh)
        (by rw [hco3.1]; exact hpxw)

/-- `_hunt` preserves rectangularity, symmetry and in-range result. -/
theorem hHuntAux_found_symm {o : Nat → Nat} {k w h : Nat} :
    ∀ (cells : List (Nat × Nat)) (g : HGrid) (g2 : HGrid) (c2 : HCell),
      HRect w h g → SymmH w h g →
      (∀ p ∈ cells, p.1 < h ∧ p.2 < w) →
      hHuntAux o k w h g cells = some (g2, c2) →
      HRect w h g2 ∧ SymmH w h g2 ∧ c2.y < h ∧ c2.x < w := by
  intro cells
  induction cells with
  | nil =>
    intro g g2 c2 _ _ _ hrun
    cases hrun
  | cons p rest ih =>
    obtain ⟨yy, xx⟩ := p
    intro g g2 c2 hr hsym hcells hrun
    rw [hHuntAux] at hrun
    dsimp only at hrun
    by_cases hv : (hGet g yy xx).visited = true
    · rw [if_pos hv] at hrun
      exact ih g g2 c2 hr hsym
        (fun q hq => hcells q (List.mem_cons_of_mem _ hq)) hrun
    · rw [if_neg hv] at hrun
      by_cases hemp :
          (hVisitedNeighbors g w h (hGet g yy xx)).isEmpty = true
      · rw [if_pos hemp] at hrun
        exact ih g g2 c2 hr hsym
          (fun q hq => hcells q (List.mem_cons_of_mem _ hq)) hrun
      · rw [if_neg hemp] at hrun
        have hempf :
            (hVisitedNeighbors g w h (hGet g yy xx)).isEmpty = false := by
          cases hdc : (hVisitedNeighbors g w h (hGet g yy xx)).isEmpty
          · rfl
          · exact absurd hdc hemp
        have hyy : yy < h := (hcells (yy, xx) (List.mem_cons_self _ _)).1
        have hxx : xx < w := (hcells (yy, xx) (List.mem_cons_self _ _)).2
        have hco := hr.2.2 yy xx hyy hxx
        have hcy : (hGet g yy xx).y < h := by
          rw [hco.2]
          exact hyy
        have hcx : (hGet g yy xx).x < w := by
          rw [hco.1]
          exact hxx
        set pick := (hVisitedNeighbors g w h (hGet g yy xx)).getD
          (o k % (hVisitedNeighbors g w h (hGet g yy xx)).length)
          (hzero, 1) with hpick
        have hpickmem : pick ∈ hVisitedNeighbors g w h (hGet g yy xx) :=
          getD_mem_of_ne_nil hempf (o k) (hzero, 1)
        have hspec := hVisitedNeighbors_spec hpickmem
        have hstep : HRect w h (hRemoveWall (hRemoveWall g
              (hGet g yy xx).y (hGet g yy xx).x pick.2)
              pick.1.y pick.1.x (hOpp pick.2)) ∧
            SymmH w h (hRemoveWall (hRemoveWall g
              (hGet g yy xx).y (hGet g yy xx).x pick.2)
              pick.1.y pick.1.x (hOpp pick.2)) ∧
            pick.1.y < h ∧ pick.1.x < w := by
          rcases hspec with ⟨hd, hgt, hpe⟩ | ⟨hd, hlt2, hpe⟩ |
            ⟨hd, hlt2, hpe⟩ | ⟨hd, hgt, hpe⟩
          · have hco2 := hr.2.2 ((hGet g yy xx).y - 1) (hGet g yy xx).x
              (by omega) hcx
            have hpy : pick.1.y = (hGet g yy xx).y - 1 := by
              rw [hpe]
              exact hco2.2
            have hpx : pick.1.x = (hGet g yy xx).x := by
              rw [hpe]
              exact hco2.1
            have hpair := hPairRemove_symm hr hsym hcy hcx
              (show pick.1.y < h by omega) (show pick.1.x < w by omega)
              (Or.inl ⟨hd, by omega, hpx⟩)
            exact ⟨hpair.1, hpair.2, by omega, by omega⟩
          · have hco2 := hr.2.2 (hGet g yy xx).y ((hGet g yy xx).x + 1)
              hcy (by omega)
            have hpy : pick.1.y = (hGet g yy xx).y := by
              rw [hpe]
              exact hco2.2
            have hpx : pick.1.x = (hGet g yy xx).x + 1 := by
              rw [hpe]
              exact hco2.1
            have hpair := hPairRemove_symm hr hsym hcy hcx
              (show pick.1.y < h by omega) (show pick.1.x < w by omega)
              (Or.inr (Or.inl ⟨hd, hpx, hpy⟩))
            exact ⟨hpair.1, hpair.2, by omega, by omega⟩
          · have hco2 := hr.2.2 ((hGet g yy xx).y + 1) (hGet g yy xx).x
              (by omega) hcx
            have hpy : pick.1.y = (hGet g yy xx).y + 1 := by
              rw [hpe]
              exact hco2.2
            have hpx : pick.1.x = (hGet g yy xx).x := by
              rw [hpe]
              exact hco2.1
            have hpair := hPairRemove_symm hr hsym hcy hcx
              (show pick.1.y < h by omega) (show pick.1.x < w by omega)
              (Or.inr (Or.inr (Or.inl ⟨hd, hpy, hpx⟩)))
            exact ⟨hpair.1, hpair.2, by omega, by omega⟩
          · have hco2 := hr.2.2 (hGet g yy xx).y ((hGet g yy xx).x - 1)
              hcy (by omega)
            have hpy : pick.1.y = (hGet g yy xx).y := by
              rw [hpe]
              exact hco2.2
            have hpx : pick.1.x = (hGet g yy xx).x - 1 := by
              rw [hpe]
              exact hco2.1
            have hpair := hPairRemove_symm hr hsym hcy hcx
              (show pick.1.y < h by omega) (show pick.1.x < w by omega)
              (Or.inr (Or.inr (Or.inr ⟨hd, by omega, hpy⟩)))
            exact ⟨hpair.1, hpair.2, by omega, by omega⟩
        obtain ⟨hr2, hsym2, hpyh, hpxw⟩ := hstep
        have hr3 := hRect_hSetVisited hr2 hcy hcx
        have hsym3 := symmH_hSetVisited hr2 hcy hcx hsym2
        have hco3 := hr3.2.2 (hGet g yy xx).y (hGet g yy xx).x hcy hcx
        have hq := Option.some.inj hrun
        injection hq with h1 h2
        subst h1
        subst h2
        exact ⟨hr3, hsym3, by rw [hco3.2]; exact hcy,
          by rw [hco3.1]; exact hcx⟩

/-- The kill/hunt loop of `HaKMazeGenerator.generate` preserves
rectangularity and symmetry. -/
theorem hGenLoop_symm {o : Nat → Nat} {w h : Nat} :
    ∀ (fuel k : Nat) (g : HGrid) (c : HCell),
      HRect w h g → SymmH w h g → c.y < h → c.x < w →
      HRect w h (hGenLoop o w h fuel k g c) ∧
        SymmH w h (hGenLoop o w h fuel k g c) := by
  intro fuel
  induction fuel with
  | zero =>
    intro k g c hr hsym _ _
    exact ⟨hr, hsym⟩
  | succ f ih =>
    intro k g c hr hsym hcy hcx
    rw [hGenLoop]
    dsimp only
    by_cases hall : hAllVisited g = true
    · rw [if_pos hall]
      exact ⟨hr, hsym⟩
    · rw [if_neg hall]
      have hk := @hKill_symm o w h (w * h + 1) k g c hr hsym hcy hcx
      rcases hh2 : hHunt o (hKill o w h (w * h + 1) k g c).2.2 w h
          (hKill o w h (w * h + 1) k g c).1 with _ | pr
      · dsimp only
        by_cases hall2 :
            hAllVisited (hKill o w h (w * h + 1) k g c).1 = true
        · rw [if_pos hall2]
          exact ⟨hk.1, hk.2.1⟩
        · rw [if_neg hall2]
          exact ih _ _ _ hk.1 hk.2.1 hk.2.2.1 hk.2.2.2
      · obtain ⟨g2, c2⟩ := pr
        dsimp only
        unfold hHunt at hh2
        have hhunt := hHuntAux_found_symm (hScanCoords w h) _ g2 c2
          hk.1 hk.2.1
          (fun q hq => by
            obtain ⟨qy, qx⟩ := q
            have hq2 : ((qy, qx) : Nat × Nat) ∈
                (List.range h) ×ˢ (List.range w) := hq
            have := List.pair_mem_product.mp hq2
            exact ⟨List.mem_range.mp this.1, List.mem_range.mp this.2⟩)
          hh2
        exact ih _ g2 c2 hhunt.1 hhunt.2.1 hhunt.2.2.1 hhunt.2.2.2

theorem sampleIdx_subset {α : Type} (o : Nat → Nat) :
    ∀ (n k : Nat) (l : List α) (a : α), a ∈ sampleIdx o k n l → a ∈ l := by
  intro n
  induction n with
  | zero =>
    intro k l a ha
    cases ha
  | succ m ih =>
    intro k l a ha
    rw [sampleIdx] at ha
    dsimp only at ha
    split at ha
    · cases ha
    · rcases hg : l.get? (o k % l.length) with _ | x
      · rw [hg] at ha
        cases ha
      · rw [hg] at ha
        rcases List.mem_cons.mp ha with rfl | ha2
        · exact List.get?_mem hg
        · exact List.mem_of_mem_eraseIdx (ih (k + 1) _ a ha2)

/-- Every removable-wall candidate of `_create_loops` is an East or
South wall between two horizontally or vertically adjacent in-range
cells. -/
theorem removableWalls_spec {g : HGrid} {w h : Nat}
    {t : HCell × HCell × Nat} (hr : HRect w h g)
    (ht : t ∈ removableWalls g w h) :
    (t.2.2 = 2 ∧ t.1.y < h ∧ t.1.x + 1 < w ∧ t.2.1.y = t.1.y ∧
      t.2.1.x = t.1.x + 1) ∨
    (t.2.2 = 4 ∧ t.1.y + 1 < h ∧ t.1.x < w ∧ t.2.1.y = t.1.y + 1 ∧
      t.2.1.x = t.1.x) := by
  unfold removableWalls at ht
  obtain ⟨p, hp, hmem⟩ := List.mem_flatMap.mp ht
  obtain ⟨yy, xx⟩ := p
  have hq : ((yy, xx) : Nat × Nat) ∈ (List.range h) ×ˢ (List.range w) := hp
  have hyy : yy < h := List.mem_range.mp (List.pair_mem_product.mp hq).1
  have hxx : xx < w := List.mem_range.mp (List.pair_mem_product.mp hq).2
  have hco := hr.2.2 yy xx hyy hxx
  dsimp only at hmem
  rcases List.mem_append.mp hmem with h1 | h1
  · obtain ⟨hcond, rfl⟩ := mem_if_singleton.mp h1
    have hxw : xx + 1 < w := by omega
    have hco2 := hr.2.2 yy (xx + 1) hyy hxw
    refine Or.inl ⟨rfl, ?_, ?_, ?_, ?_⟩
    · show (hGet g yy xx).y < h
      rw [hco.2]
      exact hyy
    · show (hGet g yy xx).x + 1 < w
      rw [hco.1]
      exact hxw
    · show (hGet g yy (xx + 1)).y = (hGet g yy xx).y
      rw [hco2.2, hco.2]
    · show (hGet g yy (xx + 1)).x = (hGet g yy xx).x + 1
      rw [hco2.1, hco.1]
  · obtain ⟨hcond, rfl⟩ := mem_if_singleton.mp h1
    have hyh : yy + 1 < h := by omega
    have hco2 := hr.2.2 (yy + 1) xx hyh hxx
    refine Or.inr ⟨rfl, ?_, ?_, ?_, ?_⟩
    · show (hGet g yy xx).y + 1 < h
      rw [hco.2]
      exact hyh
    · show (hGet g yy xx).x < w
      rw [hco.1]
      exact hxx
    · show (hGet g (yy + 1) xx).y = (hGet g yy xx).y + 1
      rw [hco2.2, hco.2]
    · show (hGet g (yy + 1) xx).x = (hGet g yy xx).x
      rw [hco2.1, hco.1]

/-- The wall-opening fold of `_create_loops` preserves rectangularity
and symmetry. -/
theorem foldRemove_symm {w h : Nat} :
    ∀ (ts : List (HCell × HCell × Nat)) (gg : HGrid),
      HRect w h gg → SymmH w h gg →
      (∀ t ∈ ts,
        (t.2.2 = 2 ∧ t.1.y < h ∧ t.1.x + 1 < w ∧ t.2.1.y = t.1.y ∧
          t.2.1.x = t.1.x + 1) ∨
        (t.2.2 = 4 ∧ t.1.y + 1 < h ∧ t.1.x < w ∧ t.2.1.y = t.1.y + 1 ∧
          t.2.1.x = t.1.x)) →
      HRect w h (ts.foldl (fun gg t =>
        hRemoveWall (hRemoveWall gg t.1.y t.1.x t.2.2) t.2.1.y t.2.1.x
          (hOpp t.2.2)) gg) ∧
      SymmH w h (ts.foldl (fun gg t =>
        hRemoveWall (hRemoveWall gg t.1.y t.1.x t.2.2) t.2.1.y t.2.1.x
          (hOpp t.2.2)) gg) := by
  intro ts
  induction ts with
  | nil =>
    intro gg hr hsym _
    exact ⟨hr, hsym⟩
  | cons t rest ih =>
    intro gg hr hsym hts
    rw [List.foldl_cons]
    rcases hts t (List.mem_cons_self _ _) with
      ⟨hd, hy, hx, hby, hbx⟩ | ⟨hd, hy, hx, hby, hbx⟩
    · have hpair := hPairRemove_symm hr hsym hy (by omega) (by omega)
        (by omega) (Or.inr (Or.inl ⟨hd, hbx, hby⟩))
      exact ih _ hpair.1 hpair.2
        (fun q hq => hts q (List.mem_cons_of_mem _ hq))
    · have hpair := hPairRemove_symm hr hsym (by omega) hx (by omega)
        (by omega) (Or.inr (Or.inr (Or.inl ⟨hd, hby, hbx⟩)))
      exact ih _ hpair.1 hpair.2
        (fun q hq => hts q (List.mem_cons_of_mem _ hq))

/-- `_create_loops` preserves rectangularity and symmetry: every opened
candidate opens both matching half-walls. -/
theorem hCreateLoops_symm {o : Nat → Nat} {g : HGrid} {w h : Nat}
    (hr : HRect w h g) (hsym : SymmH w h g) :
    HRect w h (hCreateLoops o g w h) ∧
      SymmH w h (hCreateLoops o g w h) := by
  unfold hCreateLoops
  apply foldRemove_symm _ g hr hsym
  intro t ht
  exact removableWalls_spec hr (sampleIdx_subset o _ 0 _ t ht)

/-- `HaKMazeGenerator.generate` always produces a rectangular,
wall-symmetric grid (in perfect and imperfect mode alike). -/
theorem hGen_symm {o : Nat → Nat} {w h : Nat} (hw : 1 ≤ w) (hh2 : 1 ≤ h)
    (perfect : Option Bool) :
    HRect w h (hGen o w h perfect) ∧ SymmH w h (hGen o w h perfect) := by
  unfold hGen
  dsimp only
  have hr0 := hRect_hCreateGrid w h
  have hs0 := symmH_hCreateGrid w h
  have hsy : o 0 % h < h := Nat.mod_lt _ (by omega)
  have hsx : o 1 % w < w := Nat.mod_lt _ (by omega)
  have hr1 := hRect_hSetVisited hr0 hsy hsx
  have hs1 := symmH_hSetVisited hr0 hsy hsx hs0
  have hco := hr1.2.2 (o 0 % h) (o 1 % w) hsy hsx
  have hloop := @hGenLoop_symm o w h (w * h + 1) 2 _ _ hr1 hs1
    (by rw [hco.2]; exact hsy) (by rw [hco.1]; exact hsx)
  by_cases hp : perfect = some false
  · rw [if_pos hp]
    exact hCreateLoops_symm hloop.1 hloop.2
  · rw [if_neg hp]
    exact hloop

/-- **C2.**  Wall symmetry invariant: starting from a fully-walled grid,
every completed run of every generator leaves, for each pair of
grid-adjacent cells A and B, A's wall bit facing B clear exactly when
B's wall bit facing A is clear.  The four conjuncts cover
`MazeGenerator._dfs` (`mazegen.py`), `dfs` (`mazegen/dfs.py`), `hak`
(`mazegen/hak.py`), and `HaKMazeGenerator.generate` (`mazegen_hak.py`)
for every perfection flag — the flag `some true` gives the grid before
loop-carving and `some false` the grid after it, so symmetry holds
before and after the loop-carving step; the proofs maintain the
invariant across every individual carving step of every loop. -/
theorem wall_symmetry_all_generators (w h : Nat) (entry : Cell)
    (o : Nat → Nat) (hw : 1 ≤ w) (hh2 : 1 ≤ h)
    (he1 : 0 ≤ entry.1) (he2 : 0 ≤ entry.2) :
    (∀ g2 vis2, dfsRun w h entry o = some (g2, vis2) → SymmGrid w h g2) ∧
    (∀ g2 vis2, dfs42Run w h entry o = some (g2, vis2) →
      SymmGrid w h g2) ∧
    (∀ g2 vis2, hakRunPkg w h entry o = some (g2, vis2) →
      SymmGrid w h g2) ∧
    (∀ perfect : Option Bool, SymmH w h (hGen o w h perfect)) := by
  refine ⟨?_, ?_, ?_, ?_⟩
  · intro g2 vis2 hrun
    exact dfsLoop_symm (genFuel w h) (fullGrid w h) [entry] [entry] g2 vis2
      (fullGrid_rect w h).1 (fullGrid_rect w h).2 (symm_fullGrid w h)
      (fun p hp => by
        rcases List.mem_singleton.mp hp with rfl
        exact ⟨he1, he2⟩) hrun
  · intro g2 vis2 hrun
    exact dfsLoop_symm (genFuel w h) (fullGrid w h) [entry] [entry] g2 vis2
      (fullGrid_rect w h).1 (fullGrid_rect w h).2 (symm_fullGrid w h)
      (fun p hp => by
        rcases List.mem_singleton.mp hp with rfl
        exact ⟨he1, he2⟩) hrun
  · intro g2 vis2 hrun
    exact hakLoopPkg_symm (w * h + 1) 0 (fullGrid w h) [entry] entry.1
      entry.2 g2 vis2 (fullGrid_rect w h).1 (fullGrid_rect w h).2
      (symm_fullGrid w h) he1 he2 hrun
  · intro perfect
    exact (hGen_symm hw hh2 perfect).2

/-- Closed-form check of the symmetry invariant at a concrete
configuration (2 by 2, entry (0,0), an arbitrary fixed oracle). -/
theorem wall_symmetry_all_generators_witness :
    (∀ g2 vis2, dfsRun 2 2 (0, 0) (fun _ => 0) = some (g2, vis2) →
      SymmGrid 2 2 g2) ∧
    (∀ g2 vis2, dfs42Run 2 2 (0, 0) (fun _ => 0) = some (g2, vis2) →
      SymmGrid 2 2 g2) ∧
    (∀ g2 vis2, hakRunPkg 2 2 (0, 0) (fun _ => 0) = some (g2, vis2) →
      SymmGrid 2 2 g2) ∧
    (∀ perfect : Option Bool, SymmH 2 2 (hGen (fun _ => 0) 2 2 perfect)) :=
  wall_symmetry_all_generators 2 2 (0, 0) (fun _ => 0) (by decide)
    (by decide) (by decide) (by decide)

/-! ## Claim C5: the imperfect-mode loop carving -/

/-- Still-standing interior walls of a mask grid, each shared wall
counted once: East walls at their left cell, South walls at their top
cell. -/
def standingCountG (g : Grid) (w h : Nat) : Nat :=
  (((List.range h) ×ˢ (List.range w)).filter fun p =>
    decide (p.2 + 1 < w ∧ (gAt g p.1 p.2).testBit 1 = true)).length +
  (((List.range h) ×ˢ (List.range w)).filter fun p =>
    decide (p.1 + 1 < h ∧ (gAt g p.1 p.2).testBit 2 = true)).length

/-- Still-standing interior walls of a cell grid, each counted once, in
the same keying `_create_loops` uses (East at the left cell, South at
the top cell). -/
def standingCountH (g : HGrid) (w h : Nat) : Nat :=
  ((hScanCoords w h).filter fun p =>
    decide (p.2 < w - 1 ∧ ((hGet g p.1 p.2).walls &&& 2) ≠ 0)).length +
  ((hScanCoords w h).filter fun p =>
    decide (p.1 < h - 1 ∧ ((hGet g p.1 p.2).walls &&& 4) ≠ 0)).length

theorem flatMap_two_if_length {α β : Type} (P1 P2 : α → Prop)
    [DecidablePred P1] [DecidablePred P2] (f1 f2 : α → β) :
    ∀ L : List α,
      (L.flatMap fun a => (if P1 a then [f1 a] else []) ++
        (if P2 a then [f2 a] else [])).length =
      (L.filter fun a => decide (P1 a)).length +
      (L.filter fun a => decide (P2 a)).length := by
  intro L
  induction L with
  | nil => rfl
  | cons a t ih =>
    rw [List.flatMap_cons, List.length_append, List.length_append, ih,
      List.filter_cons, List.filter_cons]
    by_cases h1 : P1 a <;> by_cases h2 : P2 a <;>
      simp [h1, h2] <;> omega

theorem and_pow_ne_zero_iff (m i : Nat) :
    ((m &&& 2 ^ i) ≠ 0) ↔ m.testBit i = true := by
  rw [Nat.and_two_pow]
  cases h : m.testBit i
  · simp
  · have hp : 0 < 2 ^ i := Nat.pos_pow_of_pos i (by omega)
    simp only [Bool.toNat_true, one_mul, ne_eq]
    exact ⟨fun _ => trivial, fun _ => by omega⟩

/-- `random.sample` returns exactly the requested number of elements
when enough are available. -/
theorem sampleIdx_length {α : Type} (o : Nat → Nat) :
    ∀ (n k : Nat) (l : List α), n ≤ l.length →
      (sampleIdx o k n l).length = n := by
  intro n
  induction n with
  | zero =>
    intro k l _
    rfl
  | succ m ih =>
    intro k l hle
    rw [sampleIdx]
    dsimp only
    have hpos : 0 < l.length := by omega
    have hne : l.isEmpty = false := by
      cases l with
      | nil => simp at hpos
      | cons a t => rfl
    rw [if_neg (by simp [hne])]
    have hlt : o k % l.length < l.length := Nat.mod_lt _ hpos
    rcases hg : l.get? (o k % l.length) with _ | x
    · rw [List.get?_eq_get hlt] at hg
      cases hg
    · show (x :: sampleIdx o (k + 1) m (l.eraseIdx (o k % l.length))).length
        = m + 1
      rw [List.length_cons, ih (k + 1) _ ?_]
      rw [List.length_eraseIdx_of_lt hlt]
      omega

/-- Extension of `removableWalls_spec`: the recorded cell is the grid
cell at its own coordinates, and its keyed wall bit is set. -/
theorem removableWalls_spec2 {g : HGrid} {w h : Nat}
    {t : HCell × HCell × Nat} (hr : HRect w h g)
    (ht : t ∈ removableWalls g w h) :
    t.1 = hGet g t.1.y t.1.x ∧
    ((t.2.2 = 2 ∧ (t.1.walls &&& 2) ≠ 0) ∨
     (t.2.2 = 4 ∧ (t.1.walls &&& 4) ≠ 0)) := by
  unfold removableWalls at ht
  obtain ⟨p, hp, hmem⟩ := List.mem_flatMap.mp ht
  obtain ⟨yy, xx⟩ := p
  have hq : ((yy, xx) : Nat × Nat) ∈ (List.range h) ×ˢ (List.range w) := hp
  have hyy : yy < h := List.mem_range.mp (List.pair_mem_product.mp hq).1
  have hxx : xx < w := List.mem_range.mp (List.pair_mem_product.mp hq).2
  have hco := hr.2.2 yy xx hyy hxx
  dsimp only at hmem
  rcases List.mem_append.mp hmem with h1 | h1
  · obtain ⟨hcond, rfl⟩ := mem_if_singleton.mp h1
    refine ⟨?_, Or.inl ⟨rfl, hcond.2⟩⟩
    show hGet g yy xx = hGet g (hGet g yy xx).y (hGet g yy xx).x
    rw [hco.1, hco.2]
  · obtain ⟨hcond, rfl⟩ := mem_if_singleton.mp h1
    refine ⟨?_, Or.inr ⟨rfl, hcond.2⟩⟩
    show hGet g yy xx = hGet g (hGet g yy xx).y (hGet g yy xx).x
    rw [hco.1, hco.2]

/-- `remove_wall` never sets a wall bit: a bit set after the call was
set before it. -/
theorem hWalls_hRemoveWall_mono {w h : Nat} {g : HGrid}
    (hlen : g.length = h) (hrows : ∀ row ∈ g, row.length = w)
    {yy xx : Nat} (hy : yy < h) (hx : xx < w) (d r s b : Nat)
    (hbit : ((hGet (hRemoveWall g yy xx d) r s).walls).testBit b = true) :
    ((hGet g r s).walls).testBit b = true := by
  rw [hGet_hRemoveWall hlen hrows hy hx d r s] at hbit
  by_cases hc : r = yy ∧ s = xx
  · rw [if_pos hc] at hbit
    have hbit2 : (Nat.ldiff (hGet g yy xx).walls d).testBit b = true := hbit
    rw [Nat.testBit_ldiff] at hbit2
    rw [hc.1, hc.2]
    exact (Bool.and_eq_true _ _ |>.mp hbit2).1
  · rw [if_neg hc] at hbit
    exact hbit

/-- The `_create_loops` fold never sets a wall bit. -/
theorem foldRemove_clears_only {w h : Nat} :
    ∀ (ts : List (HCell × HCell × Nat)) (gg : HGrid),
      HRect w h gg →
      (∀ t ∈ ts,
        (t.2.2 = 2 ∧ t.1.y < h ∧ t.1.x + 1 < w ∧ t.2.1.y = t.1.y ∧
          t.2.1.x = t.1.x + 1) ∨
        (t.2.2 = 4 ∧ t.1.y + 1 < h ∧ t.1.x < w ∧ t.2.1.y = t.1.y + 1 ∧
          t.2.1.x = t.1.x)) →
      ∀ r s b,
        ((hGet (ts.foldl (fun gg t =>
          hRemoveWall (hRemoveWall gg t.1.y t.1.x t.2.2) t.2.1.y t.2.1.x
            (hOpp t.2.2)) gg) r s).walls).testBit b = true →
        ((hGet gg r s).walls).testBit b = true := by
  intro ts
  induction ts with
  | nil =>
    intro gg _ _ r s b hbit
    exact hbit
  | cons t rest ih =>
    intro gg hr hts r s b hbit
    rw [List.foldl_cons] at hbit
    rcases hts t (List.mem_cons_self _ _) with
      ⟨hd, hy, hx, hby, hbx⟩ | ⟨hd, hy, hx, hby, hbx⟩
    · have hr1 : HRect w h (hRemoveWall gg t.1.y t.1.x t.2.2) :=
        hRect_hRemoveWall hr hy (by omega)
      have hr2 : HRect w h (hRemoveWall (hRemoveWall gg t.1.y t.1.x t.2.2)
          t.2.1.y t.2.1.x (hOpp t.2.2)) :=
        hRect_hRemoveWall hr1 (by omega) (by omega)
      have h1 := ih _ hr2 (fun q hq => hts q (List.mem_cons_of_mem _ hq))
        r s b hbit
      have h2 := hWalls_hRemoveWall_mono hr1.1 hr1.2.1 (show t.2.1.y < h
        by omega) (show t.2.1.x < w by omega) (hOpp t.2.2) r s b h1
      exact hWalls_hRemoveWall_mono hr.1 hr.2.1 hy (by omega) t.2.2 r s b h2
    · have hr1 : HRect w h (hRemoveWall gg t.1.y t.1.x t.2.2) :=
        hRect_hRemoveWall hr (by omega) hx
      have hr2 : HRect w h (hRemoveWall (hRemoveWall gg t.1.y t.1.x t.2.2)
          t.2.1.y t.2.1.x (hOpp t.2.2)) :=
        hRect_hRemoveWall hr1 (by omega) (by omega)
      have h1 := ih _ hr2 (fun q hq => hts q (List.mem_cons_of_mem _ hq))
        r s b hbit
      have h2 := hWalls_hRemoveWall_mono hr1.1 hr1.2.1 (show t.2.1.y < h
        by omega) (show t.2.1.x < w by omega) (hOpp t.2.2) r s b h1
      exact hWalls_hRemoveWall_mono hr.1 hr.2.1 (by omega) hx t.2.2 r s b h2

/-- Clearing one standing East wall strictly decreases the standing-wall
count when no step sets bits. -/
theorem standingCountH_lt_east {w h : Nat} {gF g : HGrid} {ry cx : Nat}
    (hry : ry < h) (hcx : cx < w) (hcx1 : cx + 1 < w)
    (hstand : ((hGet g ry cx).walls &&& 2) ≠ 0)
    (hoff : ((hGet gF ry cx).walls).testBit 1 = false)
    (hmono : ∀ r s b, ((hGet gF r s).walls).testBit b = true →
      ((hGet g r s).walls).testBit b = true) :
    standingCountH gF w h < standingCountH g w h := by
  unfold standingCountH
  have he : ((hScanCoords w h).filter fun p =>
      decide (p.2 < w - 1 ∧ ((hGet gF p.1 p.2).walls &&& 2) ≠ 0)).length <
      ((hScanCoords w h).filter fun p =>
      decide (p.2 < w - 1 ∧ ((hGet g p.1 p.2).walls &&& 2) ≠ 0)).length := by
    refine length_filter_lt_of_pointwise
      (show ((ry, cx) : Nat × Nat) ∈ hScanCoords w h from
        List.pair_mem_product.mpr
          ⟨List.mem_range.mpr hry, List.mem_range.mpr hcx⟩) ?_ ?_ ?_
    · simp only [decide_eq_false_iff_not]
      rintro ⟨_, hnz⟩
      have hnz2 : ((hGet gF ry cx).walls &&& 2 ^ 1) ≠ 0 := hnz
      rw [and_pow_ne_zero_iff] at hnz2
      rw [hoff] at hnz2
      cases hnz2
    · simp only [decide_eq_true_eq]
      exact ⟨by omega, hstand⟩
    · intro c hc
      simp only [decide_eq_true_eq] at hc ⊢
      refine ⟨hc.1, ?_⟩
      have hb : ((hGet gF c.1 c.2).walls &&& 2 ^ 1) ≠ 0 := hc.2
      rw [and_pow_ne_zero_iff] at hb
      show ((hGet g c.1 c.2).walls &&& 2 ^ 1) ≠ 0
      rw [and_pow_ne_zero_iff]
      exact hmono c.1 c.2 1 hb
  have hs : ((hScanCoords w h).filter fun p =>
      decide (p.1 < h - 1 ∧ ((hGet gF p.1 p.2).walls &&& 4) ≠ 0)).length ≤
      ((hScanCoords w h).filter fun p =>
      decide (p.1 < h - 1 ∧ ((hGet g p.1 p.2).walls &&& 4) ≠ 0)).length := by
    apply length_filter_le_of_imp
    intro c hc
    simp only [decide_eq_true_eq] at hc ⊢
    refine ⟨hc.1, ?_⟩
    have hb : ((hGet gF c.1 c.2).walls &&& 2 ^ 2) ≠ 0 := hc.2
    rw [and_pow_ne_zero_iff] at hb
    show ((hGet g c.1 c.2).walls &&& 2 ^ 2) ≠ 0
    rw [and_pow_ne_zero_iff]
    exact hmono c.1 c.2 2 hb
  omega

/-- Clearing one standing South wall strictly decreases the
standing-wall count when no step sets bits. -/
theorem standingCountH_lt_south {w h : Nat} {gF g : HGrid} {ry cx : Nat}
    (hry : ry < h) (hcx : cx < w) (hry1 : ry + 1 < h)
    (hstand : ((hGet g ry cx).walls &&& 4) ≠ 0)
    (hoff : ((hGet gF ry cx).walls).testBit 2 = false)
    (hmono : ∀ r s b, ((hGet gF r s).walls).testBit b = true →
      ((hGet g r s).walls).testBit b = true) :
    standingCountH gF w h < standingCountH g w h := by
  unfold standingCountH
  have he : ((hScanCoords w h).filter fun p =>
      decide (p.2 < w - 1 ∧ ((hGet gF p.1 p.2).walls &&& 2) ≠ 0)).length ≤
      ((hScanCoords w h).filter fun p =>
      decide (p.2 < w - 1 ∧ ((hGet g p.1 p.2).walls &&& 2) ≠ 0)).length := by
    apply length_filter_le_of_imp
    intro c hc
    simp only [decide_eq_true_eq] at hc ⊢
    refine ⟨hc.1, ?_⟩
    have hb : ((hGet gF c.1 c.2).walls &&& 2 ^ 1) ≠ 0 := hc.2
    rw [and_pow_ne_zero_iff] at hb
    show ((hGet g c.1 c.2).walls &&& 2 ^ 1) ≠ 0
    rw [and_pow_ne_zero_iff]
    exact hmono c.1 c.2 1 hb
  have hs : ((hScanCoords w h).filter fun p =>
      decide (p.1 < h - 1 ∧ ((hGet gF p.1 p.2).walls &&& 4) ≠ 0)).length <
      ((hScanCoords w h).filter fun p =>
      decide (p.1 < h - 1 ∧ ((hGet g p.1 p.2).walls &&& 4) ≠ 0)).length := by
    refine length_filter_lt_of_pointwise
      (show ((ry, cx) : Nat × Nat) ∈ hScanCoords w h from
        List.pair_mem_product.mpr
          ⟨List.mem_range.mpr hry, List.mem_range.mpr hcx⟩) ?_ ?_ ?_
    · simp only [decide_eq_false_iff_not]
      rintro ⟨_, hnz⟩
      have hnz2 : ((hGet gF ry cx).walls &&& 2 ^ 2) ≠ 0 := hnz
      rw [and_pow_ne_zero_iff] at hnz2
      rw [hoff] at hnz2
      cases hnz2
    · simp only [decide_eq_true_eq]
      exact ⟨by omega, hstand⟩
    · intro c hc
      simp only [decide_eq_true_eq] at hc ⊢
      refine ⟨hc.1, ?_⟩
      have hb : ((hGet gF c.1 c.2).walls &&& 2 ^ 2) ≠ 0 := hc.2
      rw [and_pow_ne_zero_iff] at hb
      show ((hGet g c.1 c.2).walls &&& 2 ^ 2) ≠ 0
      rw [and_pow_ne_zero_iff]
      exact hmono c.1 c.2 2 hb
  omega

/-- The first removal step of `_create_loops` clears the keyed East
bit of the left cell. -/
theorem hGet_step_self_east {w h : Nat} {g : HGrid}
    {t : HCell × HCell × Nat} (hr : HRect w h g)
    (hc : t.2.2 = 2 ∧ t.1.y < h ∧ t.1.x + 1 < w ∧ t.2.1.y = t.1.y ∧
      t.2.1.x = t.1.x + 1) :
    ((hGet (hRemoveWall (hRemoveWall g t.1.y t.1.x t.2.2) t.2.1.y t.2.1.x
        (hOpp t.2.2)) t.1.y t.1.x).walls).testBit 1 = false := by
  obtain ⟨hd, hy, hx, hby, hbx⟩ := hc
  have hr1 : HRect w h (hRemoveWall g t.1.y t.1.x t.2.2) :=
    hRect_hRemoveWall hr hy (by omega)
  rw [hGet_hRemoveWall hr1.1 hr1.2.1 (show t.2.1.y < h by omega)
    (show t.2.1.x < w by omega) (hOpp t.2.2) t.1.y t.1.x,
    if_neg (by omega)]
  rw [hGet_hRemoveWall hr.1 hr.2.1 hy (show t.1.x < w by omega) t.2.2
    t.1.y t.1.x, if_pos ⟨rfl, rfl⟩]
  dsimp only
  rw [hd, show (2 : Nat) = 2 ^ 1 by norm_num, testBit_ldiff_pow]
  simp

/-- The first removal step of `_create_loops` clears the keyed South
bit of the top cell. -/
theorem hGet_step_self_south {w h : Nat} {g : HGrid}
    {t : HCell × HCell × Nat} (hr : HRect w h g)
    (hc : t.2.2 = 4 ∧ t.1.y + 1 < h ∧ t.1.x < w ∧ t.2.1.y = t.1.y + 1 ∧
      t.2.1.x = t.1.x) :
    ((hGet (hRemoveWall (hRemoveWall g t.1.y t.1.x t.2.2) t.2.1.y t.2.1.x
        (hOpp t.2.2)) t.1.y t.1.x).walls).testBit 2 = false := by
  obtain ⟨hd, hy, hx, hby, hbx⟩ := hc
  have hr1 : HRect w h (hRemoveWall g t.1.y t.1.x t.2.2) :=
    hRect_hRemoveWall hr (by omega) hx
  rw [hGet_hRemoveWall hr1.1 hr1.2.1 (show t.2.1.y < h by omega)
    (show t.2.1.x < w by omega) (hOpp t.2.2) t.1.y t.1.x,
    if_neg (by omega)]
  rw [hGet_hRemoveWall hr.1 hr.2.1 (show t.1.y < h by omega) hx t.2.2
    t.1.y t.1.x, if_pos ⟨rfl, rfl⟩]
  dsimp only
  rw [hd, show (4 : Nat) = 2 ^ 2 by norm_num, testBit_ldiff_pow]
  simp

/-- C5 amended: `_create_loops` (mazegen_hak.py) enumerates every
still-standing interior wall exactly once (East walls keyed at their
left cell, South at their top cell), samples exactly
`int(len(candidates) * 0.05)` = ⌊len/20⌋ distinct candidates without
replacement, and opens them, strictly decreasing the standing-wall
count — i.e. strictly increasing the open-edge count — whenever the
candidate count is at least 20.  (The spec's claim fails for the
package generator, which never carves loops: see the counterexample.) -/
theorem hak_create_loops_imperfect (o : Nat → Nat) (g : HGrid) (w h : Nat)
    (hr : HRect w h g) :
    (removableWalls g w h).length = standingCountH g w h ∧
    (sampleIdx o 0 ((removableWalls g w h).length / 20)
        (removableWalls g w h)).length =
      (removableWalls g w h).length / 20 ∧
    (20 ≤ (removableWalls g w h).length →
      standingCountH (hCreateLoops o g w h) w h < standingCountH g w h) := by
  refine ⟨?_, ?_, ?_⟩
  · unfold removableWalls standingCountH
    exact flatMap_two_if_length
      (fun p => p.2 < w - 1 ∧ (((hGet g p.1 p.2).walls) &&& 2) ≠ 0)
      (fun p => p.1 < h - 1 ∧ (((hGet g p.1 p.2).walls) &&& 4) ≠ 0)
      (fun p => (hGet g p.1 p.2, hGet g p.1 (p.2 + 1), 2))
      (fun p => (hGet g p.1 p.2, hGet g (p.1 + 1) p.2, 4))
      (hScanCoords w h)
  · exact sampleIdx_length o _ 0 _ (Nat.div_le_self _ _)
  · intro h20
    unfold hCreateLoops
    dsimp only
    set cands := removableWalls g w h with hcands
    have hpos : 0 < cands.length := by omega
    have hnum : 1 ≤ cands.length / 20 := by
      rw [Nat.one_le_div_iff (by omega : (0 : Nat) < 20)]
      exact h20
    obtain ⟨n', hn'⟩ : ∃ n', cands.length / 20 = n' + 1 :=
      ⟨cands.length / 20 - 1, by omega⟩
    rw [hn', sampleIdx]
    dsimp only
    have hne : cands.isEmpty = false := by
      cases hcc : cands with
      | nil => rw [hcc] at hpos; simp at hpos
      | cons a tl => rfl
    rw [if_neg (by simp [hne])]
    have hlt : o 0 % cands.length < cands.length := Nat.mod_lt _ hpos
    rcases hg0 : cands.get? (o 0 % cands.length) with _ | t0
    · rw [List.get?_eq_get hlt] at hg0
      cases hg0
    · dsimp only
      rw [List.foldl_cons]
      set rest := sampleIdx o (0 + 1) n'
        (cands.eraseIdx (o 0 % cands.length)) with hrest
      set g1 := hRemoveWall (hRemoveWall g t0.1.y t0.1.x t0.2.2)
        t0.2.1.y t0.2.1.x (hOpp t0.2.2) with hg1
      have ht0mem : t0 ∈ removableWalls g w h := by
        rw [← hcands]
        exact List.get?_mem hg0
      have hspec := removableWalls_spec hr ht0mem
      have hspec2 := removableWalls_spec2 hr ht0mem
      have hrestmem : ∀ t ∈ rest, t ∈ removableWalls g w h := by
        intro t ht
        rw [← hcands]
        rw [hrest] at ht
        exact List.mem_of_mem_eraseIdx (sampleIdx_subset o n' (0 + 1) _ t ht)
      have hr1 : HRect w h g1 := by
        rw [hg1]
        rcases hspec with ⟨hd, hy, hx, hby, hbx⟩ | ⟨hd, hy, hx, hby, hbx⟩
        · exact hRect_hRemoveWall (hRect_hRemoveWall hr hy (by omega))
            (by omega) (by omega)
        · exact hRect_hRemoveWall (hRect_hRemoveWall hr (by omega) hx)
            (by omega) (by omega)
      have hcond : ∀ t ∈ rest,
          (t.2.2 = 2 ∧ t.1.y < h ∧ t.1.x + 1 < w ∧ t.2.1.y = t.1.y ∧
            t.2.1.x = t.1.x + 1) ∨
          (t.2.2 = 4 ∧ t.1.y + 1 < h ∧ t.1.x < w ∧ t.2.1.y = t.1.y + 1 ∧
            t.2.1.x = t.1.x) :=
        fun t ht => removableWalls_spec hr (hrestmem t ht)
      have hclears := foldRemove_clears_only rest g1 hr1 hcond
      have hmono1 : ∀ r s b, ((hGet g1 r s).walls).testBit b = true →
          ((hGet g r s).walls).testBit b = true := by
        intro r s b hb
        rw [hg1] at hb
        rcases hspec with ⟨hd, hy, hx, hby, hbx⟩ | ⟨hd, hy, hx, hby, hbx⟩
        · have hrA : HRect w h (hRemoveWall g t0.1.y t0.1.x t0.2.2) :=
            hRect_hRemoveWall hr hy (by omega)
          have h1 := hWalls_hRemoveWall_mono hrA.1 hrA.2.1
            (show t0.2.1.y < h by omega) (show t0.2.1.x < w by omega)
            (hOpp t0.2.2) r s b hb
          exact hWalls_hRemoveWall_mono hr.1 hr.2.1 hy (by omega)
            t0.2.2 r s b h1
        · have hrA : HRect w h (hRemoveWall g t0.1.y t0.1.x t0.2.2) :=
            hRect_hRemoveWall hr (by omega) hx
          have h1 := hWalls_hRemoveWall_mono hrA.1 hrA.2.1
            (show t0.2.1.y < h by omega) (show t0.2.1.x < w by omega)
            (hOpp t0.2.2) r s b hb
          exact hWalls_hRemoveWall_mono hr.1 hr.2.1 (by omega) hx
            t0.2.2 r s b h1
      set gF := rest.foldl
        (fun gg t =>
          hRemoveWall (hRemoveWall gg t.1.y t.1.x t.2.2) t.2.1.y t.2.1.x
            (hOpp t.2.2))
        g1 with hgF
      have hmono : ∀ r s b, ((hGet gF r s).walls).testBit b = true →
          ((hGet g r s).walls).testBit b = true :=
        fun r s b hb => hmono1 r s b (hclears r s b hb)
      rcases hspec with ⟨hd, hy, hx, hby, hbx⟩ | ⟨hd, hy, hx, hby, hbx⟩
      · have hstand : ((hGet g t0.1.y t0.1.x).walls &&& 2) ≠ 0 := by
          rcases hspec2.2 with ⟨_, hsb⟩ | ⟨hd4, _⟩
          · rw [hspec2.1] at hsb
            exact hsb
          · exfalso
            omega
        have hoffE1 : ((hGet g1 t0.1.y t0.1.x).walls).testBit 1 = false := by
          rw [hg1]
          exact hGet_step_self_east hr ⟨hd, hy, hx, hby, hbx⟩
        have hoffE : ((hGet gF t0.1.y t0.1.x).walls).testBit 1 = false := by
          cases hfb : ((hGet gF t0.1.y t0.1.x).walls).testBit 1
          · rfl
          · have h2 := hclears _ _ _ hfb
            rw [hoffE1] at h2
            simp at h2
        exact standingCountH_lt_east hy (show t0.1.x < w by omega) hx
          hstand hoffE hmono
      · have hstand : ((hGet g t0.1.y t0.1.x).walls &&& 4) ≠ 0 := by
          rcases hspec2.2 with ⟨hd2, _⟩ | ⟨_, hsb⟩
          · exfalso
            omega
          · rw [hspec2.1] at hsb
            exact hsb
        have hoffS1 : ((hGet g1 t0.1.y t0.1.x).walls).testBit 2 = false := by
          rw [hg1]
          exact hGet_step_self_south hr ⟨hd, hy, hx, hby, hbx⟩
        have hoffS : ((hGet gF t0.1.y t0.1.x).walls).testBit 2 = false := by
          cases hfb : ((hGet gF t0.1.y t0.1.x).walls).testBit 2
          · rfl
          · have h2 := hclears _ _ _ hfb
            rw [hoffS1] at h2
            simp at h2
        exact standingCountH_lt_south (show t0.1.y < h by omega) hx hy
          hstand hoffS hmono

/-- Witness for `hak_create_loops_imperfect` on the fully-walled 6-by-5
cell grid (49 standing interior walls). -/
theorem hak_create_loops_imperfect_witness :
    (removableWalls (hCreateGrid 6 5) 6 5).length =
      standingCountH (hCreateGrid 6 5) 6 5 ∧
    (sampleIdx (fun _ => 0) 0
        ((removableWalls (hCreateGrid 6 5) 6 5).length / 20)
        (removableWalls (hCreateGrid 6 5) 6 5)).length =
      (removableWalls (hCreateGrid 6 5) 6 5).length / 20 ∧
    (20 ≤ (removableWalls (hCreateGrid 6 5) 6 5).length →
      standingCountH (hCreateLoops (fun _ => 0) (hCreateGrid 6 5) 6 5) 6 5 <
        standingCountH (hCreateGrid 6 5) 6 5) :=
  hak_create_loops_imperfect (fun _ => 0) (hCreateGrid 6 5) 6 5
    (hRect_hCreateGrid 6 5)

/-- The grid produced by the package `generate("hak", ...)` on a 6-by-5
maze with the all-zero random stream (either perfection flag). -/
def c5grid : Grid :=
  [[13, 5, 5, 5, 5, 3], [11, 9, 3, 9, 3, 10], [10, 10, 10, 10, 10, 10],
   [10, 10, 10, 10, 10, 10], [12, 6, 12, 6, 12, 6]]

/-- The visited-order list accompanying `c5grid`. -/
def c5vis : List Cell :=
  [(1, 0), (2, 0), (3, 0), (4, 0), (4, 1), (3, 1), (2, 1), (1, 1), (1, 2),
   (2, 2), (3, 2), (4, 2), (4, 3), (3, 3), (2, 3), (1, 3), (1, 4), (2, 4),
   (3, 4), (4, 4), (4, 5), (3, 5), (2, 5), (1, 5), (0, 5), (0, 4), (0, 3),
   (0, 2), (0, 1), (0, 0)]

set_option maxRecDepth 200000 in
/-- C5 counterexample: the package `MazeGenerator.generate`
(mazegen/mazegen.py) never runs any loop-carving step — its output does
not depend on the perfection flag at all — and on a 6-by-5 hunt-and-kill
run it leaves 20 interior walls standing while opening none of them,
although the claim requires `floor(0.05 × 20) = 1` opened candidate and
a strict open-edge increase once the candidate count reaches 20. -/
theorem pkg_generate_no_loop_carving :
    (∀ (alg : Option String) (perfect : Bool) (w h : Nat) (entry : Cell)
      (o : Nat → Nat),
      pkgGenerate alg perfect w h entry o =
        pkgGenerate alg true w h entry o) ∧
    pkgGenerate (some "hak") false 6 5 (0, 0) (fun _ => 0) =
      some (c5grid, c5vis) ∧
    20 ≤ standingCountG c5grid 6 5 :=
  ⟨fun _ _ _ _ _ _ => rfl, by decide, by decide⟩

/-! ## Claim C10: the 42-pattern cells of the package DFS -/

/-- Carving changes no wall bit other than the two cleared ones. -/
theorem carve_untouched {g gc : Grid} {x y nx ny : Int} {i j : Nat}
    (hx : 0 ≤ x) (hy : 0 ≤ y) (hnx : 0 ≤ nx) (hny : 0 ≤ ny)
    (hc : carve g x y i nx ny j = some gc) (rp cp b : Nat)
    (hA : ¬(rp = x.toNat ∧ cp = y.toNat) ∨ b ≠ i)
    (hB : ¬(rp = nx.toNat ∧ cp = ny.toNat) ∨ b ≠ j) :
    (gAt gc rp cp).testBit b = (gAt g rp cp).testBit b := by
  unfold carve at hc
  rcases h1 : clearCellBit g x y i with _ | g1
  · rw [h1] at hc
    cases hc
  rw [h1] at hc
  dsimp only at hc
  obtain ⟨hxl, hyl, hg1⟩ := clearCellBit_spec hx hy h1
  obtain ⟨hxl2, hyl2, hg2⟩ := clearCellBit_spec hnx hny hc
  have hup1 : ∀ r2 c2, gAt g1 r2 c2 =
      if r2 = x.toNat ∧ c2 = y.toNat then
        clearBit (gAt g x.toNat y.toNat) i
      else gAt g r2 c2 := by
    intro r2 c2
    rw [hg1]
    exact gAt_set_clear hxl hyl _ r2 c2
  have hup2 : ∀ r2 c2, gAt gc r2 c2 =
      if r2 = nx.toNat ∧ c2 = ny.toNat then
        clearBit (gAt g1 nx.toNat ny.toNat) j
      else gAt g1 r2 c2 := by
    intro r2 c2
    rw [hg2]
    exact gAt_set_clear hxl2 hyl2 _ r2 c2
  rw [hup2 rp cp]
  by_cases h2 : rp = nx.toNat ∧ cp = ny.toNat
  · have hbj : b ≠ j := by
      rcases hB with hB | hB
      · exact absurd h2 hB
      · exact hB
    rw [if_pos h2, testBit_clearBit, if_neg hbj, hup1 nx.toNat ny.toNat]
    by_cases h3 : nx.toNat = x.toNat ∧ ny.toNat = y.toNat
    · have hbi : b ≠ i := by
        rcases hA with hA | hA
        · exact absurd ⟨by omega, by omega⟩ hA
        · exact hA
      rw [if_pos h3, testBit_clearBit, if_neg hbi, h2.1, h2.2, h3.1, h3.2]
    · rw [if_neg h3, h2.1, h2.2]
  · rw [if_neg h2, hup1 rp cp]
    by_cases h3 : rp = x.toNat ∧ cp = y.toNat
    · have hbi : b ≠ i := by
        rcases hA with hA | hA
        · exact absurd h3 hA
        · exact hA
      rw [if_pos h3, testBit_clearBit, if_neg hbi, h3.1, h3.2]
    · rw [if_neg h3]

/-- Carving preserves the rectangular shape. -/
theorem carve_rect {w h : Nat} {g gc : Grid} {x y nx ny : Int} {i j : Nat}
    (hlen : g.length = h) (hrows : ∀ row ∈ g, row.length = w)
    (hx : 0 ≤ x) (hy : 0 ≤ y) (hnx : 0 ≤ nx) (hny : 0 ≤ ny)
    (hc : carve g x y i nx ny j = some gc) :
    gc.length = h ∧ ∀ row ∈ gc, row.length = w := by
  unfold carve at hc
  rcases h1 : clearCellBit g x y i with _ | g1
  · rw [h1] at hc
    cases hc
  rw [h1] at hc
  dsimp only at hc
  obtain ⟨hxl, hyl, hg1⟩ := clearCellBit_spec hx hy h1
  obtain ⟨hxl2, hyl2, hg2⟩ := clearCellBit_spec hnx hny hc
  have hrowlen : (g.getD x.toNat []).length = w :=
    hrows _ (getD_mem_of_lt hxl [])
  have hlen1 : g1.length = h := by
    rw [hg1, List.length_set, hlen]
  have hrows1 : ∀ row ∈ g1, row.length = w := by
    rw [hg1]
    apply rect_set_row hrows
    rw [List.length_set]
    exact hrowlen
  have hrowlen1 : (g1.getD nx.toNat []).length = w :=
    hrows1 _ (getD_mem_of_lt hxl2 [])
  refine ⟨by rw [hg2, List.length_set, hlen1], ?_⟩
  rw [hg2]
  apply rect_set_row hrows1
  rw [List.length_set]
  exact hrowlen1

/-- A carve step between two cells, neither of which is the cell
`(r, c)`, keeps that cell's mask and every neighbouring facing bit. -/
theorem carve_keeps_facing {g gc : Grid} {x y dx dy : Int} {r c : Nat}
    (hx : 0 ≤ x) (hy : 0 ≤ y) (hnx : 0 ≤ x + dx) (hny : 0 ≤ y + dy)
    (hxy_ne : (x, y) ≠ ((r : Int), (c : Int)))
    (ht_ne : (x + dx, y + dy) ≠ ((r : Int), (c : Int)))
    (hmemN : (dx, dy) ∈ neighborsList)
    (hc : carve g x y (neighborsList.indexOf (dx, dy)) (x + dx) (y + dy)
      (oppositeWall.getD (neighborsList.indexOf (dx, dy)) 0) = some gc) :
    gAt gc r c = gAt g r c ∧
    (1 ≤ r → (gAt gc (r - 1) c).testBit 2 = (gAt g (r - 1) c).testBit 2) ∧
    ((gAt gc r (c + 1)).testBit 3 = (gAt g r (c + 1)).testBit 3) ∧
    ((gAt gc (r + 1) c).testBit 0 = (gAt g (r + 1) c).testBit 0) ∧
    (1 ≤ c → (gAt gc r (c - 1)).testBit 1 = (gAt g r (c - 1)).testBit 1) := by
  simp only [neighborsList, List.mem_cons, List.not_mem_nil, or_false,
    Prod.mk.injEq] at hmemN
  rcases hmemN with ⟨rfl, rfl⟩ | ⟨rfl, rfl⟩ | ⟨rfl, rfl⟩ | ⟨rfl, rfl⟩
  · have hc2 : carve g x y 0 (x + -1) (y + 0) 2 = some gc := hc
    refine ⟨?_, ?_, ?_, ?_, ?_⟩
    · apply Nat.eq_of_testBit_eq
      intro b
      apply carve_untouched hx hy hnx hny hc2 r c b
      · left
        intro hm
        exact hxy_ne (by rw [(by omega : x = ((r : Int))),
          (by omega : y = ((c : Int)))])
      · left
        intro hm
        exact ht_ne (by rw [(by omega : x + -1 = ((r : Int))),
          (by omega : y + 0 = ((c : Int)))])
    · intro h1r
      apply carve_untouched hx hy hnx hny hc2 (r - 1) c 2
      · right
        decide
      · left
        intro hm
        exact hxy_ne (by rw [(by omega : x = ((r : Int))),
          (by omega : y = ((c : Int)))])
    · apply carve_untouched hx hy hnx hny hc2 r (c + 1) 3
      · right
        decide
      · right
        decide
    · apply carve_untouched hx hy hnx hny hc2 (r + 1) c 0
      · left
        intro hm
        exact ht_ne (by rw [(by omega : x + -1 = ((r : Int))),
          (by omega : y + 0 = ((c : Int)))])
      · right
        decide
    · intro h1c
      apply carve_untouched hx hy hnx hny hc2 r (c - 1) 1
      · right
        decide
      · right
        decide
  · have hc2 : carve g x y 1 (x + 0) (y + 1) 3 = some gc := hc
    refine ⟨?_, ?_, ?_, ?_, ?_⟩
    · apply Nat.eq_of_testBit_eq
      intro b
      apply carve_untouched hx hy hnx hny hc2 r c b
      · left
        intro hm
        exact hxy_ne (by rw [(by omega : x = ((r : Int))),
          (by omega : y = ((c : Int)))])
      · left
        intro hm
        exact ht_ne (by rw [(by omega : x + 0 = ((r : Int))),
          (by omega : y + 1 = ((c : Int)))])
    · intro h1r
      apply carve_untouched hx hy hnx hny hc2 (r - 1) c 2
      · right
        decide
      · right
        decide
    · apply carve_untouched hx hy hnx hny hc2 r (c + 1) 3
      · right
        decide
      · left
        intro hm
        exact hxy_ne (by rw [(by omega : x = ((r : Int))),
          (by omega : y = ((c : Int)))])
    · apply carve_untouched hx hy hnx hny hc2 (r + 1) c 0
      · right
        decide
      · right
        decide
    · intro h1c
      apply carve_untouched hx hy hnx hny hc2 r (c - 1) 1
      · left
        intro hm
        exact ht_ne (by rw [(by omega : x + 0 = ((r : Int))),
          (by omega : y + 1 = ((c : Int)))])
      · right
        decide
  · have hc2 : carve g x y 2 (x + 1) (y + 0) 0 = some gc := hc
    refine ⟨?_, ?_, ?_, ?_, ?_⟩
    · apply Nat.eq_of_testBit_eq
      intro b
      apply carve_untouched hx hy hnx hny hc2 r c b
      · left
        intro hm
        exact hxy_ne (by rw [(by omega : x = ((r : Int))),
          (by omega : y = ((c : Int)))])
      · left
        intro hm
        exact ht_ne (by rw [(by omega : x + 1 = ((r : Int))),
          (by omega : y + 0 = ((c : Int)))])
    · intro h1r
      apply carve_untouched hx hy hnx hny hc2 (r - 1) c 2
      · left
        intro hm
        exact ht_ne (by rw [(by omega : x + 1 = ((r : Int))),
          (by omega : y + 0 = ((c : Int)))])
      · right
        decide
    · apply carve_untouched hx hy hnx hny hc2 r (c + 1) 3
      · right
        decide
      · right
        decide
    · apply carve_untouched hx hy hnx hny hc2 (r + 1) c 0
      · right
        decide
      · left
        intro hm
        exact hxy_ne (by rw [(by omega : x = ((r : Int))),
          (by omega : y = ((c : Int)))])
    · intro h1c
      apply carve_untouched hx hy hnx hny hc2 r (c - 1) 1
      · right
        decide
      · right
        decide
  · have hc2 : carve g x y 3 (x + 0) (y + -1) 1 = some gc := hc
    refine ⟨?_, ?_, ?_, ?_, ?_⟩
    · apply Nat.eq_of_testBit_eq
      intro b
      apply carve_untouched hx hy hnx hny hc2 r c b
      · left
        intro hm
        exact hxy_ne (by rw [(by omega : x = ((r : Int))),
          (by omega : y = ((c : Int)))])
      · left
        intro hm
        exact ht_ne (by rw [(by omega : x + 0 = ((r : Int))),
          (by omega : y + -1 = ((c : Int)))])
    · intro h1r
      apply carve_untouched hx hy hnx hny hc2 (r - 1) c 2
      · right
        decide
      · right
        decide
    · apply carve_untouched hx hy hnx hny hc2 r (c + 1) 3
      · left
        intro hm
        exact ht_ne (by rw [(by omega : x + 0 = ((r : Int))),
          (by omega : y + -1 = ((c : Int)))])
      · right
        decide
    · apply carve_untouched hx hy hnx hny hc2 (r + 1) c 0
      · right
        decide
      · right
        decide
    · intro h1c
      apply carve_untouched hx hy hnx hny hc2 r (c - 1) 1
      · right
        decide
      · left
        intro hm
        exact hxy_ne (by rw [(by omega : x = ((r : Int))),
          (by omega : y = ((c : Int)))])

/-- Invariant of the package DFS: every in-bounds blocked cell other
than the entry is unvisited, fully walled and has all neighbouring
facing bits still set. -/
def BlockedUntouched (w h : Nat) (blocked : Int → Int → Bool)
    (entry : Cell) (g : Grid) (vis : List Cell) : Prop :=
  ∀ r c : Nat, r < h → c < w → blocked (r : Int) (c : Int) = true →
    ((r : Int), (c : Int)) ≠ entry →
    ((r : Int), (c : Int)) ∉ vis ∧ gAt g r c = 15 ∧
    (1 ≤ r → (gAt g (r - 1) c).testBit 2 = true) ∧
    (c + 1 < w → (gAt g r (c + 1)).testBit 3 = true) ∧
    (r + 1 < h → (gAt g (r + 1) c).testBit 0 = true) ∧
    (1 ≤ c → (gAt g r (c - 1)).testBit 1 = true)

/-- The DFS loop preserves `BlockedUntouched`: it never steps into a
blocked cell, so it never visits one nor opens any wall touching one. -/
theorem dfsLoop_blocked {w h : Nat} {blocked : Int → Int → Bool}
    {o : Nat → Nat} {entry : Cell} :
    ∀ (fuel : Nat) (g : Grid) (stack vis : List Cell)
      (g2 : Grid) (vis2 : List Cell),
      g.length = h → (∀ row ∈ g, row.length = w) →
      (∀ p ∈ stack, 0 ≤ p.1 ∧ 0 ≤ p.2) →
      (∀ p ∈ stack, p ∈ vis) →
      (∀ p ∈ vis, blocked p.1 p.2 = true → p = entry) →
      BlockedUntouched w h blocked entry g vis →
      dfsLoop w h blocked o fuel g stack vis = some (g2, vis2) →
      BlockedUntouched w h blocked entry g2 vis2 := by
  intro fuel
  induction fuel with
  | zero =>
    intro g stack vis g2 vis2 _ _ _ _ _ _ hrun
    cases hrun
  | succ f ih =>
    intro g stack vis g2 vis2 hlen hrows hstk hsv hbv hinv hrun
    rw [dfsLoop.eq_def] at hrun
    dsimp only at hrun
    cases stack with
    | nil =>
      obtain ⟨rfl, rfl⟩ : g = g2 ∧ vis = vis2 := by
        have := Option.some.inj hrun
        exact ⟨congrArg Prod.fst this, congrArg Prod.snd this⟩
      exact hinv
    | cons p rest =>
      obtain ⟨x, y⟩ := p
      dsimp only at hrun
      rcases hfs : firstStep w h blocked vis x y (shuffled (o f)) with
        _ | ⟨dx, dy⟩
      · rw [hfs] at hrun
        exact ih g rest vis g2 vis2 hlen hrows
          (fun q hq => hstk q (List.mem_cons_of_mem _ hq))
          (fun q hq => hsv q (List.mem_cons_of_mem _ hq)) hbv hinv hrun
      · rw [hfs] at hrun
        dsimp only at hrun
        obtain ⟨hmem, hbx1, hbxlt, hby1, hbylt, hnb, hnv⟩ :=
          firstStep_spec hfs
        have hmemN : (dx, dy) ∈ neighborsList := mem_shuffled.mp hmem
        rcases hcv : carve g x y (neighborsList.indexOf (dx, dy)) (x + dx)
            (y + dy) (oppositeWall.getD (neighborsList.indexOf (dx, dy)) 0)
          with _ | gc
        · rw [hcv] at hrun
          cases hrun
        · rw [hcv] at hrun
          have hx0 : 0 ≤ x := (hstk (x, y) (List.mem_cons_self _ _)).1
          have hy0 : 0 ≤ y := (hstk (x, y) (List.mem_cons_self _ _)).2
          have hxyv : (x, y) ∈ vis := hsv (x, y) (List.mem_cons_self _ _)
          obtain ⟨hlenc, hrowsc⟩ := carve_rect hlen hrows hx0 hy0 hbx1
            hby1 hcv
          refine ih gc ((x + dx, y + dy) :: (x, y) :: rest)
            ((x + dx, y + dy) :: vis) g2 vis2 hlenc hrowsc ?_ ?_ ?_ ?_ hrun
          · intro q hq
            rcases List.mem_cons.mp hq with rfl | hq2
            · exact ⟨hbx1, hby1⟩
            · exact hstk q hq2
          · intro q hq
            rcases List.mem_cons.mp hq with rfl | hq2
            · exact List.mem_cons_self _ _
            · exact List.mem_cons_of_mem _ (hsv q hq2)
          · intro q hq hqb
            rcases List.mem_cons.mp hq with rfl | hq2
            · have hbt : blocked (x + dx) (y + dy) = true := hqb
              rw [hnb] at hbt
              exact Bool.noConfusion hbt
            · exact hbv q hq2 hqb
          · intro r c hrh hcw hbrc hne
            obtain ⟨hv0, hm0, hn1, hn2, hn3, hn4⟩ :=
              hinv r c hrh hcw hbrc hne
            have hxy_ne : (x, y) ≠ ((r : Int), (c : Int)) := by
              intro he
              have e1 : x = (r : Int) := congrArg Prod.fst he
              have e2 : y = (c : Int) := congrArg Prod.snd he
              have hbxy : blocked x y = true := by
                rw [e1, e2]
                exact hbrc
              have hent : (x, y) = entry := hbv (x, y) hxyv hbxy
              rw [he] at hent
              exact hne hent
            have ht_ne : (x + dx, y + dy) ≠ ((r : Int), (c : Int)) := by
              intro he
              have e1 : x + dx = (r : Int) := congrArg Prod.fst he
              have e2 : y + dy = (c : Int) := congrArg Prod.snd he
              have hbt : blocked (x + dx) (y + dy) = true := by
                rw [e1, e2]
                exact hbrc
              rw [hnb] at hbt
              exact Bool.noConfusion hbt
            obtain ⟨hq0, hq1, hq2b, hq3, hq4⟩ := carve_keeps_facing hx0
              hy0 hbx1 hby1 hxy_ne ht_ne hmemN hcv
            refine ⟨?_, ?_, ?_, ?_, ?_, ?_⟩
            · intro hmem2
              rcases List.mem_cons.mp hmem2 with he | hv
              · exact ht_ne he.symm
              · exact hv0 hv
            · rw [hq0]
              exact hm0
            · intro h1r
              rw [hq1 h1r]
              exact hn1 h1r
            · intro hcc
              rw [hq2b]
              exact hn2 hcc
            · intro hrr
              rw [hq3]
              exact hn3 hrr
            · intro h1c
              rw [hq4 h1c]
              exact hn4 h1c

/-- Bounds of the 20 pattern offsets. -/
theorem p42offsets_bounds {d : Int × Int} (hd : d ∈ p42offsets) :
    -3 ≤ d.1 ∧ d.1 ≤ 3 ∧ -2 ≤ d.2 ∧ d.2 ≤ 2 := by
  fin_cases hd <;> decide

/-- C10: in the package DFS variant (`mazegen/dfs.py dfs`), for every
completed run on a grid with width ≥ 7 and height ≥ 7 and in-bounds
entry, each of the 20 cells at the fixed 42-pattern offsets from the
grid centre `(width // 2, height // 2)` that is not the entry cell is
never visited, keeps the full-wall mask 15, and no wall between it and
any in-bounds neighbour is opened (the neighbour's facing bit stays
set; the cell's own bits are all set since its mask is 15). -/
theorem dfs42_blocked_cells_untouched (w h : Nat) (entry : Cell)
    (o : Nat → Nat) (g2 : Grid) (vis2 : List Cell)
    (hw : 7 ≤ w) (hh2 : 7 ≤ h) (he1 : 0 ≤ entry.1) (he2 : 0 ≤ entry.2)
    (hrun : dfs42Run w h entry o = some (g2, vis2)) :
    ∀ ox oy : Int, (ox, oy) ∈ p42offsets →
      ∀ r c : Nat, (r : Int) = ((h / 2 : Nat) : Int) + oy →
        (c : Int) = ((w / 2 : Nat) : Int) + ox →
        ((r : Int), (c : Int)) ≠ entry →
        ((r : Int), (c : Int)) ∉ vis2 ∧ gAt g2 r c = 15 ∧
        (1 ≤ r → (gAt g2 (r - 1) c).testBit 2 = true) ∧
        (c + 1 < w → (gAt g2 r (c + 1)).testBit 3 = true) ∧
        (r + 1 < h → (gAt g2 (r + 1) c).testBit 0 = true) ∧
        (1 ≤ c → (gAt g2 r (c - 1)).testBit 1 = true) := by
  intro ox oy hoff r c hre hce hne
  have hb := p42offsets_bounds hoff
  have hb1 : -3 ≤ ox := hb.1
  have hb2 : ox ≤ 3 := hb.2.1
  have hb3 : -2 ≤ oy := hb.2.2.1
  have hb4 : oy ≤ 2 := hb.2.2.2
  have hr_lt : r < h := by omega
  have hc_lt : c < w := by omega
  have hp : p42 w h (r : Int) (c : Int) = true := by
    unfold p42
    rw [(by omega : ((c : Int)) - ((w / 2 : Nat) : Int) = ox),
      (by omega : ((r : Int)) - ((h / 2 : Nat) : Int) = oy)]
    exact decide_eq_true hoff
  unfold dfs42Run at hrun
  have hinv0 : BlockedUntouched w h (p42 w h) entry (fullGrid w h)
      [entry] := by
    intro r2 c2 hr2 hc2 _ hne2
    refine ⟨fun hm => hne2 (List.mem_singleton.mp hm),
      gAt_fullGrid hr2 hc2, ?_, ?_, ?_, ?_⟩
    · intro h1r
      rw [gAt_fullGrid (by omega) hc2]
      decide
    · intro hcc
      rw [gAt_fullGrid hr2 (by omega)]
      decide
    · intro hrr
      rw [gAt_fullGrid (by omega) hc2]
      decide
    · intro h1c
      rw [gAt_fullGrid hr2 (by omega)]
      decide
  exact dfsLoop_blocked (genFuel w h) (fullGrid w h) [entry] [entry] g2
    vis2 (fullGrid_rect w h).1 (fullGrid_rect w h).2
    (fun p hp2 => by
      rcases List.mem_singleton.mp hp2 with rfl
      exact ⟨he1, he2⟩)
    (fun p hp2 => hp2)
    (fun p hp2 _ => List.mem_singleton.mp hp2)
    hinv0 hrun r c hr_lt hc_lt hp hne

/-- Closed-form check of `findPath_disconnected`: a 2-by-1 grid whose
two cells are fully walled, entry (0,0), exit (1,0). -/
theorem findPath_disconnected_witness :
    findPath [[15, 15]] (0, 0) (1, 0) = PFResult.noPath :=
  findPath_disconnected (by decide) (by decide) (by decide)
    (fun hr => by
      obtain ⟨n, hw⟩ := hr
      cases n with
      | zero => exact absurd hw (by decide)
      | succ m =>
        have hw2 : ∃ p ∈ (getNeighbors [[15, 15]] 2 1 (0, 0)).getD [],
            WalkLen [[15, 15]] 2 1 m p.1 (1, 0) := hw
        obtain ⟨p, hp, _⟩ := hw2
        have he : ((getNeighbors [[15, 15]] 2 1 (0, 0)).getD []) =
            ([] : List ((Nat × Nat) × Char)) := rfl
        rw [he] at hp
        cases hp)

/-- The output of the package DFS on a 7-by-7 grid with the all-zero
shuffle stream, used by the C10 witness. -/
def c10grid : Grid :=
  [[13, 1, 5, 1, 5, 5, 7], [15, 10, 15, 10, 15, 15, 15],
   [15, 14, 15, 8, 5, 7, 15], [15, 15, 15, 10, 15, 15, 15],
   [9, 3, 15, 10, 15, 15, 15], [10, 10, 15, 10, 15, 15, 15],
   [14, 12, 5, 4, 5, 5, 7]]

/-- The visited-order list accompanying `c10grid`. -/
def c10vis : List Cell :=
  [(2, 1), (1, 1), (6, 0), (5, 0), (4, 0), (4, 1), (5, 1), (6, 1), (6, 2),
   (6, 6), (6, 5), (6, 4), (6, 3), (5, 3), (4, 3), (3, 3), (2, 5), (2, 4),
   (2, 3), (1, 3), (0, 6), (0, 5), (0, 4), (0, 3), (0, 2), (0, 1), (0, 0)]

/-! ## Claim C1: the spanning-tree property of `MazeGenerator._dfs`

The open-passage graph is keyed by the same two bits as the carve
operations: East (bit 1) at the left cell and South (bit 2) at the top
cell.  (By claim C2 the non-keyed bits always agree with these.) -/

/-- Two cells are joined iff they are grid-adjacent and the keyed wall
bit between them is cleared. -/
def openEdge (g : Grid) (a b : Nat × Nat) : Prop :=
  (b.1 = a.1 ∧ b.2 = a.2 + 1 ∧ (gAt g a.1 a.2).testBit 1 = false) ∨
  (a.1 = b.1 ∧ a.2 = b.2 + 1 ∧ (gAt g b.1 b.2).testBit 1 = false) ∨
  (b.1 = a.1 + 1 ∧ b.2 = a.2 ∧ (gAt g a.1 a.2).testBit 2 = false) ∨
  (a.1 = b.1 + 1 ∧ a.2 = b.2 ∧ (gAt g b.1 b.2).testBit 2 = false)

instance openEdge_dec (g : Grid) (a b : Nat × Nat) :
    Decidable (openEdge g a b) := by
  unfold openEdge
  infer_instance

/-- One open step between two in-bounds cells. -/
def stepInb (w h : Nat) (g : Grid) (a b : Nat × Nat) : Prop :=
  openEdge g a b ∧ a.1 < h ∧ a.2 < w ∧ b.1 < h ∧ b.2 < w

/-- Reachability along in-bounds open passages. -/
def ReachInb (g : Grid) (w h : Nat) : (Nat × Nat) → (Nat × Nat) → Prop :=
  Relation.ReflTransGen (stepInb w h g)

theorem openEdge_symm {g : Grid} {a b : Nat × Nat} (hab : openEdge g a b) :
    openEdge g b a := by
  rcases hab with h1 | h1 | h1 | h1
  · exact Or.inr (Or.inl h1)
  · exact Or.inl h1
  · exact Or.inr (Or.inr (Or.inr h1))
  · exact Or.inr (Or.inr (Or.inl h1))

/-- The open-passage graph on the `h × w` cells. -/
def mazeGraph (g : Grid) (w h : Nat) : SimpleGraph (Fin h × Fin w) where
  Adj a b := openEdge g ((a.1 : Nat), (a.2 : Nat)) ((b.1 : Nat), (b.2 : Nat))
  symm := fun a b hab => openEdge_symm hab
  loopless := by
    intro a ha
    rcases ha with ⟨h1, h2, h3⟩ | ⟨h1, h2, h3⟩ | ⟨h1, h2, h3⟩ | ⟨h1, h2, h3⟩
    · have h2b : (a.2 : Nat) = (a.2 : Nat) + 1 := h2
      omega
    · have h2b : (a.2 : Nat) = (a.2 : Nat) + 1 := h2
      omega
    · have h1b : (a.1 : Nat) = (a.1 : Nat) + 1 := h1
      omega
    · have h1b : (a.1 : Nat) = (a.1 : Nat) + 1 := h1
      omega

instance mazeGraph_adj_dec (g : Grid) (w h : Nat) :
    DecidableRel (mazeGraph g w h).Adj :=
  fun _ b => openEdge_dec g _ _

/-- The opened keyed wall pairs: `(cell, true)` is an open East wall at
`cell`, `(cell, false)` an open South wall. -/
def openPairFinset (g : Grid) (w h : Nat) :
    Finset ((Fin h × Fin w) × Bool) :=
  Finset.univ.filter fun pb =>
    (pb.2 = true ∧ (pb.1.2 : Nat) + 1 < w ∧
      (gAt g (pb.1.1 : Nat) (pb.1.2 : Nat)).testBit 1 = false) ∨
    (pb.2 = false ∧ (pb.1.1 : Nat) + 1 < h ∧
      (gAt g (pb.1.1 : Nat) (pb.1.2 : Nat)).testBit 2 = false)

/-- The number of opened wall pairs. -/
def openPairCount (g : Grid) (w h : Nat) : Nat := (openPairFinset g w h).card

theorem mem_openPairFinset {g : Grid} {w h : Nat}
    {pb : (Fin h × Fin w) × Bool} :
    pb ∈ openPairFinset g w h ↔
      (pb.2 = true ∧ (pb.1.2 : Nat) + 1 < w ∧
        (gAt g (pb.1.1 : Nat) (pb.1.2 : Nat)).testBit 1 = false) ∨
      (pb.2 = false ∧ (pb.1.1 : Nat) + 1 < h ∧
        (gAt g (pb.1.1 : Nat) (pb.1.2 : Nat)).testBit 2 = false) := by
  unfold openPairFinset
  simp [Finset.mem_filter]

/-- The first (left or top) endpoint of a keyed pair, as an `(x, y)`
integer cell. -/
def pbFstI {w h : Nat} (qb : (Fin h × Fin w) × Bool) : Cell :=
  (((qb.1.1 : Nat) : Int), ((qb.1.2 : Nat) : Int))

/-- The second (right or bottom) endpoint of a keyed pair. -/
def pbSndI {w h : Nat} (qb : (Fin h × Fin w) × Bool) : Cell :=
  if qb.2 = true then (((qb.1.1 : Nat) : Int), ((qb.1.2 : Nat) : Int) + 1)
  else (((qb.1.1 : Nat) : Int) + 1, ((qb.1.2 : Nat) : Int))

theorem pbFstI_ne_pbSndI {w h : Nat} (qb : (Fin h × Fin w) × Bool) :
    pbFstI qb ≠ pbSndI qb := by
  intro he
  unfold pbFstI pbSndI at he
  cases hq : qb.2
  · rw [hq, if_neg Bool.false_ne_true] at he
    have h1 : ((qb.1.1 : Nat) : Int) = ((qb.1.1 : Nat) : Int) + 1 :=
      congrArg Prod.fst he
    omega
  · rw [hq, if_pos rfl] at he
    have h1 : ((qb.1.2 : Nat) : Int) = ((qb.1.2 : Nat) : Int) + 1 :=
      congrArg Prod.snd he
    omega

/-- Position of the first occurrence (decidable-equality version kept
away from `BEq` instances). -/
def idxOfP (c : Cell) : List Cell → Nat
  | [] => 0
  | v :: t => if v = c then 0 else idxOfP c t + 1

/-- Visit rank: position in the visited list read oldest-first (the
entry has rank 0; a freshly visited cell gets the largest rank). -/
def rank (vis : List Cell) (c : Cell) : Nat := idxOfP c vis.reverse

theorem idxOfP_append_left {c : Cell} : ∀ {l : List Cell}, c ∈ l →
    ∀ t, idxOfP c (l ++ t) = idxOfP c l := by
  intro l
  induction l with
  | nil =>
    intro hc
    cases hc
  | cons v tl ih =>
    intro hc t
    rw [List.cons_append, idxOfP, idxOfP]
    by_cases hv : v = c
    · rw [if_pos hv, if_pos hv]
    · rw [if_neg hv, if_neg hv,
        ih ((List.mem_cons.mp hc).resolve_left fun he => hv he.symm) t]

theorem idxOfP_append_right {c : Cell} : ∀ {l : List Cell}, c ∉ l →
    ∀ t, idxOfP c (l ++ t) = l.length + idxOfP c t := by
  intro l
  induction l with
  | nil =>
    intro _ t
    rw [List.nil_append, List.length_nil, Nat.zero_add]
  | cons v tl ih =>
    intro hc t
    have hv : v ≠ c := fun he => hc (he ▸ List.mem_cons_self _ _)
    rw [List.cons_append, idxOfP, if_neg hv,
      ih (fun hm => hc (List.mem_cons_of_mem _ hm)) t, List.length_cons]
    omega

theorem idxOfP_lt {c : Cell} : ∀ {l : List Cell}, c ∈ l →
    idxOfP c l < l.length := by
  intro l
  induction l with
  | nil =>
    intro hc
    cases hc
  | cons v tl ih =>
    intro hc
    rw [idxOfP, List.length_cons]
    by_cases hv : v = c
    · rw [if_pos hv]
      omega
    · rw [if_neg hv]
      have := ih ((List.mem_cons.mp hc).resolve_left fun he => hv he.symm)
      omega

theorem idxOfP_inj {a b : Cell} : ∀ {l : List Cell}, a ∈ l → b ∈ l →
    idxOfP a l = idxOfP b l → a = b := by
  intro l
  induction l with
  | nil =>
    intro ha
    cases ha
  | cons v tl ih =>
    intro ha hb he
    rw [idxOfP, idxOfP] at he
    by_cases hva : v = a
    · rw [if_pos hva] at he
      by_cases hvb : v = b
      · rw [← hva, hvb]
      · rw [if_neg hvb] at he
        omega
    · rw [if_neg hva] at he
      by_cases hvb : v = b
      · rw [if_pos hvb] at he
        omega
      · rw [if_neg hvb] at he
        exact ih ((List.mem_cons.mp ha).resolve_left fun x => hva x.symm)
          ((List.mem_cons.mp hb).resolve_left fun x => hvb x.symm)
          (by omega)

theorem rank_cons_mem {vis : List Cell} {t v : Cell} (hv : v ∈ vis) :
    rank (t :: vis) v = rank vis v := by
  unfold rank
  rw [List.reverse_cons]
  exact idxOfP_append_left (List.mem_reverse.mpr hv) [t]

theorem rank_cons_self {vis : List Cell} {t : Cell} (ht : t ∉ vis) :
    rank (t :: vis) t = vis.length := by
  unfold rank
  rw [List.reverse_cons,
    idxOfP_append_right (fun hm => ht (List.mem_reverse.mp hm)) [t],
    idxOfP, if_pos rfl, List.length_reverse]
  omega

theorem rank_lt_length {vis : List Cell} {v : Cell} (hv : v ∈ vis) :
    rank vis v < vis.length := by
  unfold rank
  have := idxOfP_lt (List.mem_reverse.mpr hv)
  rwa [List.length_reverse] at this

theorem rank_inj {vis : List Cell} {a b : Cell} (ha : a ∈ vis)
    (hb : b ∈ vis) (he : rank vis a = rank vis b) : a = b :=
  idxOfP_inj (List.mem_reverse.mpr ha) (List.mem_reverse.mpr hb) he

theorem rank_entry {vis vs : List Cell} {entry : Cell}
    (he : vis = vs ++ [entry]) : rank vis entry = 0 := by
  unfold rank
  rw [he, List.reverse_append]
  simp [idxOfP]

theorem exists_max_rank {α : Type} (f : α → Nat) :
    ∀ {l : List α}, l ≠ [] → ∃ m ∈ l, ∀ z ∈ l, f z ≤ f m := by
  intro l
  induction l with
  | nil =>
    intro hne
    exact absurd rfl hne
  | cons a t ih =>
    intro _
    cases t with
    | nil =>
      refine ⟨a, List.mem_cons_self _ _, ?_⟩
      intro z hz
      rcases List.mem_cons.mp hz with rfl | h2
      · exact le_refl _
      · cases h2
    | cons b t2 =>
      obtain ⟨m, hm, hmax⟩ := ih (by simp)
      by_cases hc : f a ≤ f m
      · refine ⟨m, List.mem_cons_of_mem _ hm, ?_⟩
        intro z hz
        rcases List.mem_cons.mp hz with rfl | h2
        · exact hc
        · exact hmax z h2
      · refine ⟨a, List.mem_cons_self _ _, ?_⟩
        intro z hz
        rcases List.mem_cons.mp hz with rfl | h2
        · exact le_refl _
        · exact le_trans (hmax z h2) (by omega)

/-- Carving never sets a wall bit: a cleared bit stays cleared. -/
theorem carve_bit_mono {g gc : Grid} {x y nx ny : Int} {i j : Nat}
    (hx : 0 ≤ x) (hy : 0 ≤ y) (hnx : 0 ≤ nx) (hny : 0 ≤ ny)
    (hc : carve g x y i nx ny j = some gc) (rp cp b : Nat)
    (hb : (gAt g rp cp).testBit b = false) :
    (gAt gc rp cp).testBit b = false := by
  unfold carve at hc
  rcases h1 : clearCellBit g x y i with _ | g1
  · rw [h1] at hc
    cases hc
  rw [h1] at hc
  dsimp only at hc
  obtain ⟨hxl, hyl, hg1⟩ := clearCellBit_spec hx hy h1
  obtain ⟨hxl2, hyl2, hg2⟩ := clearCellBit_spec hnx hny hc
  have hstep1 : (gAt g1 rp cp).testBit b = false := by
    rw [hg1, gAt_set_clear hxl hyl _ rp cp]
    by_cases h2 : rp = x.toNat ∧ cp = y.toNat
    · rw [if_pos h2, testBit_clearBit]
      by_cases hbi : b = i
      · rw [if_pos hbi]
      · rw [if_neg hbi]
        rw [h2.1, h2.2] at hb
        exact hb
    · rw [if_neg h2]
      exact hb
  rw [hg2, gAt_set_clear hxl2 hyl2 _ rp cp]
  by_cases h2 : rp = nx.toNat ∧ cp = ny.toNat
  · rw [if_pos h2, testBit_clearBit]
    by_cases hbj : b = j
    · rw [if_pos hbj]
    · rw [if_neg hbj]
      rw [h2.1, h2.2] at hstep1
      exact hstep1
  · rw [if_neg h2]
    exact hstep1

/-- The first carved bit is cleared in the result. -/
theorem carve_bit_self1 {g gc : Grid} {x y nx ny : Int} {i j : Nat}
    (hx : 0 ≤ x) (hy : 0 ≤ y) (hnx : 0 ≤ nx) (hny : 0 ≤ ny)
    (hc : carve g x y i nx ny j = some gc) :
    (gAt gc x.toNat y.toNat).testBit i = false := by
  unfold carve at hc
  rcases h1 : clearCellBit g x y i with _ | g1
  · rw [h1] at hc
    cases hc
  rw [h1] at hc
  dsimp only at hc
  obtain ⟨hxl, hyl, hg1⟩ := clearCellBit_spec hx hy h1
  obtain ⟨hxl2, hyl2, hg2⟩ := clearCellBit_spec hnx hny hc
  have hstep1 : (gAt g1 x.toNat y.toNat).testBit i = false := by
    rw [hg1, gAt_set_clear hxl hyl _ _ _, if_pos ⟨rfl, rfl⟩,
      testBit_clearBit, if_pos rfl]
  rw [hg2, gAt_set_clear hxl2 hyl2 _ _ _]
  by_cases h2 : x.toNat = nx.toNat ∧ y.toNat = ny.toNat
  · rw [if_pos h2, testBit_clearBit]
    by_cases hij : i = j
    · rw [if_pos hij]
    · rw [if_neg hij]
      rw [h2.1, h2.2] at hstep1
      exact hstep1
  · rw [if_neg h2]
    exact hstep1

/-- The second carved bit is cleared in the result. -/
theorem carve_bit_self2 {g gc : Grid} {x y nx ny : Int} {i j : Nat}
    (hx : 0 ≤ x) (hy : 0 ≤ y) (hnx : 0 ≤ nx) (hny : 0 ≤ ny)
    (hc : carve g x y i nx ny j = some gc) :
    (gAt gc nx.toNat ny.toNat).testBit j = false := by
  unfold carve at hc
  rcases h1 : clearCellBit g x y i with _ | g1
  · rw [h1] at hc
    cases hc
  rw [h1] at hc
  dsimp only at hc
  obtain ⟨hxl2, hyl2, hg2⟩ := clearCellBit_spec hnx hny hc
  rw [hg2, gAt_set_clear hxl2 hyl2 _ _ _, if_pos ⟨rfl, rfl⟩,
    testBit_clearBit, if_pos rfl]

theorem openEdge_carve_mono {g gc : Grid} {x y nx ny : Int} {i j : Nat}
    (hx : 0 ≤ x) (hy : 0 ≤ y) (hnx : 0 ≤ nx) (hny : 0 ≤ ny)
    (hc : carve g x y i nx ny j = some gc) {a b : Nat × Nat}
    (hab : openEdge g a b) : openEdge gc a b := by
  rcases hab with ⟨h1, h2, h3⟩ | ⟨h1, h2, h3⟩ | ⟨h1, h2, h3⟩ | ⟨h1, h2, h3⟩
  · exact Or.inl ⟨h1, h2, carve_bit_mono hx hy hnx hny hc _ _ _ h3⟩
  · exact Or.inr (Or.inl ⟨h1, h2, carve_bit_mono hx hy hnx hny hc _ _ _ h3⟩)
  · exact Or.inr (Or.inr (Or.inl
      ⟨h1, h2, carve_bit_mono hx hy hnx hny hc _ _ _ h3⟩))
  · exact Or.inr (Or.inr (Or.inr
      ⟨h1, h2, carve_bit_mono hx hy hnx hny hc _ _ _ h3⟩))

theorem reachInb_carve_mono {w h : Nat} {g gc : Grid} {x y nx ny : Int}
    {i j : Nat} (hx : 0 ≤ x) (hy : 0 ≤ y) (hnx : 0 ≤ nx) (hny : 0 ≤ ny)
    (hc : carve g x y i nx ny j = some gc) {a b : Nat × Nat}
    (hr : ReachInb g w h a b) : ReachInb gc w h a b :=
  Relation.ReflTransGen.mono
    (fun _ _ hpq => ⟨openEdge_carve_mono hx hy hnx hny hc hpq.1,
      hpq.2.1, hpq.2.2.1, hpq.2.2.2.1, hpq.2.2.2.2⟩) hr

/-- When the direction scan finds nothing, every in-range unblocked
neighbour is already visited. -/
theorem firstStep_none {w h : Nat} {blocked : Int → Int → Bool}
    {vis : List Cell} {x y : Int} :
    ∀ {l : List (Int × Int)}, firstStep w h blocked vis x y l = none →
      ∀ d ∈ l, 0 ≤ x + d.1 → x + d.1 < (h : Int) → 0 ≤ y + d.2 →
        y + d.2 < (w : Int) → blocked (x + d.1) (y + d.2) = false →
        (x + d.1, y + d.2) ∈ vis := by
  intro l
  induction l with
  | nil =>
    intro _ d hd
    cases hd
  | cons p rest ih =>
    intro hs d hd h1 h2 h3 h4 h5
    obtain ⟨dx0, dy0⟩ := p
    rw [firstStep] at hs
    split at hs
    · cases hs
    · rename_i hcond
      rcases List.mem_cons.mp hd with rfl | hd2
      · by_contra hnv
        exact hcond ⟨h1, h2, h3, h4, h5, hnv⟩
      · exact ih hs d hd2 h1 h2 h3 h4 h5

/-- The fully-walled grid has no open pair. -/
theorem openPairFinset_fullGrid (w h : Nat) :
    openPairFinset (fullGrid w h) w h = ∅ := by
  apply Finset.eq_empty_of_forall_not_mem
  intro pb hpb
  rcases mem_openPairFinset.mp hpb with ⟨_, hb, hbit⟩ | ⟨_, hb, hbit⟩
  · rw [gAt_fullGrid pb.1.1.isLt (by omega)] at hbit
    exact absurd hbit (by decide)
  · rw [gAt_fullGrid (by omega) pb.1.2.isLt] at hbit
    exact absurd hbit (by decide)

theorem pb_ext {w h : Nat} {qb pb : (Fin h × Fin w) × Bool}
    (e1 : (qb.1.1 : Nat) = (pb.1.1 : Nat))
    (e2 : (qb.1.2 : Nat) = (pb.1.2 : Nat)) (e3 : qb.2 = pb.2) : qb = pb := by
  obtain ⟨⟨a1, a2⟩, ab⟩ := qb
  obtain ⟨⟨b1, b2⟩, bb⟩ := pb
  dsimp only at e1 e2 e3
  rw [show a1 = b1 from Fin.ext e1, show a2 = b2 from Fin.ext e2, e3]

/-- A carve step opens exactly one keyed pair: the one between the
current cell and its chosen neighbour. -/
theorem carve_pair {w h : Nat} {g gc : Grid} {x y dx dy : Int}
    (hx : 0 ≤ x) (hy : 0 ≤ y) (hxh : x < (h : Int)) (hyw : y < (w : Int))
    (hnx : 0 ≤ x + dx) (hny : 0 ≤ y + dy)
    (hnxh : x + dx < (h : Int)) (hnyw : y + dy < (w : Int))
    (hmemN : (dx, dy) ∈ neighborsList)
    (hc : carve g x y (neighborsList.indexOf (dx, dy)) (x + dx) (y + dy)
      (oppositeWall.getD (neighborsList.indexOf (dx, dy)) 0) = some gc) :
    ∃ pb : (Fin h × Fin w) × Bool,
      (∀ qb, qb ∈ openPairFinset gc w h ↔
        (qb = pb ∨ qb ∈ openPairFinset g w h)) ∧
      ((pbFstI pb = (x, y) ∧ pbSndI pb = (x + dx, y + dy)) ∨
       (pbFstI pb = (x + dx, y + dy) ∧ pbSndI pb = (x, y))) ∧
      stepInb w h gc (x.toNat, y.toNat)
        ((x + dx).toNat, (y + dy).toNat) := by
  simp only [neighborsList, List.mem_cons, List.not_mem_nil, or_false,
    Prod.mk.injEq] at hmemN
  rcases hmemN with ⟨rfl, rfl⟩ | ⟨rfl, rfl⟩ | ⟨rfl, rfl⟩ | ⟨rfl, rfl⟩
  · -- North: clears bit 0 at the cell and bit 2 at the cell above.
    have hc2 : carve g x y 0 (x + -1) (y + 0) 2 = some gc := hc
    have pfh : (x + -1).toNat < h := by omega
    have pfw : (y + 0).toNat < w := by omega
    refine ⟨((⟨(x + -1).toNat, pfh⟩, ⟨(y + 0).toNat, pfw⟩), false),
      ?_, ?_, ?_⟩
    · intro qb
      constructor
      · intro hq
        by_cases hqpb : qb =
            ((⟨(x + -1).toNat, pfh⟩, ⟨(y + 0).toNat, pfw⟩), false)
        · exact Or.inl hqpb
        · refine Or.inr (mem_openPairFinset.mpr ?_)
          rcases mem_openPairFinset.mp hq with ⟨hqt, hqb, hqbit⟩ |
            ⟨hqt, hqb, hqbit⟩
          · refine Or.inl ⟨hqt, hqb, ?_⟩
            have heq := carve_untouched hx hy hnx hny hc2 (qb.1.1 : Nat)
              (qb.1.2 : Nat) 1 (Or.inr (by decide)) (Or.inr (by decide))
            rw [← heq]
            exact hqbit
          · refine Or.inr ⟨hqt, hqb, ?_⟩
            have heq := carve_untouched hx hy hnx hny hc2 (qb.1.1 : Nat)
              (qb.1.2 : Nat) 2 (Or.inr (by decide))
              (Or.inl fun hm => hqpb (pb_ext hm.1 hm.2 hqt))
            rw [← heq]
            exact hqbit
      · intro hq
        rcases hq with rfl | hq
        · exact mem_openPairFinset.mpr (Or.inr
            ⟨rfl, (by omega : (x + -1).toNat + 1 < h),
              carve_bit_self2 hx hy hnx hny hc2⟩)
        · rcases mem_openPairFinset.mp hq with ⟨hqt, hqb, hqbit⟩ |
            ⟨hqt, hqb, hqbit⟩
          · exact mem_openPairFinset.mpr (Or.inl ⟨hqt, hqb,
              carve_bit_mono hx hy hnx hny hc2 _ _ _ hqbit⟩)
          · exact mem_openPairFinset.mpr (Or.inr ⟨hqt, hqb,
              carve_bit_mono hx hy hnx hny hc2 _ _ _ hqbit⟩)
    · refine Or.inr ⟨?_, ?_⟩
      · show (((x + -1).toNat : Int), ((y + 0).toNat : Int)) =
          (x + -1, y + 0)
        rw [Prod.mk.injEq]
        constructor <;> omega
      · show (((x + -1).toNat : Int) + 1, ((y + 0).toNat : Int)) = (x, y)
        rw [Prod.mk.injEq]
        constructor <;> omega
    · refine ⟨Or.inr (Or.inr (Or.inr ⟨?_, ?_, ?_⟩)),
        (by omega : x.toNat < h), (by omega : y.toNat < w),
        (by omega : (x + -1).toNat < h), (by omega : (y + 0).toNat < w)⟩
      · show x.toNat = (x + -1).toNat + 1
        omega
      · show y.toNat = (y + 0).toNat
        omega
      · exact carve_bit_self2 hx hy hnx hny hc2
  · -- East: clears bit 1 at the cell and bit 3 at the cell right of it.
    have hc2 : carve g x y 1 (x + 0) (y + 1) 3 = some gc := hc
    have pfh : x.toNat < h := by omega
    have pfw : y.toNat < w := by omega
    refine ⟨((⟨x.toNat, pfh⟩, ⟨y.toNat, pfw⟩), true), ?_, ?_, ?_⟩
    · intro qb
      constructor
      · intro hq
        by_cases hqpb : qb = ((⟨x.toNat, pfh⟩, ⟨y.toNat, pfw⟩), true)
        · exact Or.inl hqpb
        · refine Or.inr (mem_openPairFinset.mpr ?_)
          rcases mem_openPairFinset.mp hq with ⟨hqt, hqb, hqbit⟩ |
            ⟨hqt, hqb, hqbit⟩
          · refine Or.inl ⟨hqt, hqb, ?_⟩
            have heq := carve_untouched hx hy hnx hny hc2 (qb.1.1 : Nat)
              (qb.1.2 : Nat) 1
              (Or.inl fun hm => hqpb (pb_ext hm.1 hm.2 hqt))
              (Or.inr (by decide))
            rw [← heq]
            exact hqbit
          · refine Or.inr ⟨hqt, hqb, ?_⟩
            have heq := carve_untouched hx hy hnx hny hc2 (qb.1.1 : Nat)
              (qb.1.2 : Nat) 2 (Or.inr (by decide)) (Or.inr (by decide))
            rw [← heq]
            exact hqbit
      · intro hq
        rcases hq with rfl | hq
        · exact mem_openPairFinset.mpr (Or.inl
            ⟨rfl, (by omega : y.toNat + 1 < w),
              carve_bit_self1 hx hy hnx hny hc2⟩)
        · rcases mem_openPairFinset.mp hq with ⟨hqt, hqb, hqbit⟩ |
            ⟨hqt, hqb, hqbit⟩
          · exact mem_openPairFinset.mpr (Or.inl ⟨hqt, hqb,
              carve_bit_mono hx hy hnx hny hc2 _ _ _ hqbit⟩)
          · exact mem_openPairFinset.mpr (Or.inr ⟨hqt, hqb,
              carve_bit_mono hx hy hnx hny hc2 _ _ _ hqbit⟩)
    · refine Or.inl ⟨?_, ?_⟩
      · show ((x.toNat : Int), (y.toNat : Int)) = (x, y)
        rw [Prod.mk.injEq]
        constructor <;> omega
      · show ((x.toNat : Int), (y.toNat : Int) + 1) = (x + 0, y + 1)
        rw [Prod.mk.injEq]
        constructor <;> omega
    · refine ⟨Or.inl ⟨?_, ?_, ?_⟩,
        (by omega : x.toNat < h), (by omega : y.toNat < w),
        (by omega : (x + 0).toNat < h), (by omega : (y + 1).toNat < w)⟩
      · show (x + 0).toNat = x.toNat
        omega
      · show (y + 1).toNat = y.toNat + 1
        omega
      · exact carve_bit_self1 hx hy hnx hny hc2
  · -- South: clears bit 2 at the cell and bit 0 at the cell below.
    have hc2 : carve g x y 2 (x + 1) (y + 0) 0 = some gc := hc
    have pfh : x.toNat < h := by omega
    have pfw : y.toNat < w := by omega
    refine ⟨((⟨x.toNat, pfh⟩, ⟨y.toNat, pfw⟩), false), ?_, ?_, ?_⟩
    · intro qb
      constructor
      · intro hq
        by_cases hqpb : qb = ((⟨x.toNat, pfh⟩, ⟨y.toNat, pfw⟩), false)
        · exact Or.inl hqpb
        · refine Or.inr (mem_openPairFinset.mpr ?_)
          rcases mem_openPairFinset.mp hq with ⟨hqt, hqb, hqbit⟩ |
            ⟨hqt, hqb, hqbit⟩
          · refine Or.inl ⟨hqt, hqb, ?_⟩
            have heq := carve_untouched hx hy hnx hny hc2 (qb.1.1 : Nat)
              (qb.1.2 : Nat) 1 (Or.inr (by decide)) (Or.inr (by decide))
            rw [← heq]
            exact hqbit
          · refine Or.inr ⟨hqt, hqb, ?_⟩
            have heq := carve_untouched hx hy hnx hny hc2 (qb.1.1 : Nat)
              (qb.1.2 : Nat) 2
              (Or.inl fun hm => hqpb (pb_ext hm.1 hm.2 hqt))
              (Or.inr (by decide))
            rw [← heq]
            exact hqbit
      · intro hq
        rcases hq with rfl | hq
        · exact mem_openPairFinset.mpr (Or.inr
            ⟨rfl, (by omega : x.toNat + 1 < h),
              carve_bit_self1 hx hy hnx hny hc2⟩)
        · rcases mem_openPairFinset.mp hq with ⟨hqt, hqb, hqbit⟩ |
            ⟨hqt, hqb, hqbit⟩
          · exact mem_openPairFinset.mpr (Or.inl ⟨hqt, hqb,
              carve_bit_mono hx hy hnx hny hc2 _ _ _ hqbit⟩)
          · exact mem_openPairFinset.mpr (Or.inr ⟨hqt, hqb,
              carve_bit_mono hx hy hnx hny hc2 _ _ _ hqbit⟩)
    · refine Or.inl ⟨?_, ?_⟩
      · show ((x.toNat : Int), (y.toNat : Int)) = (x, y)
        rw [Prod.mk.injEq]
        constructor <;> omega
      · show ((x.toNat : Int) + 1, (y.toNat : Int)) = (x + 1, y + 0)
        rw [Prod.mk.injEq]
        constructor <;> omega
    · refine ⟨Or.inr (Or.inr (Or.inl ⟨?_, ?_, ?_⟩)),
        (by omega : x.toNat < h), (by omega : y.toNat < w),
        (by omega : (x + 1).toNat < h), (by omega : (y + 0).toNat < w)⟩
      · show (x + 1).toNat = x.toNat + 1
        omega
      · show (y + 0).toNat = y.toNat
        omega
      · exact carve_bit_self1 hx hy hnx hny hc2
  · -- West: clears bit 3 at the cell and bit 1 at the cell left of it.
    have hc2 : carve g x y 3 (x + 0) (y + -1) 1 = some gc := hc
    have pfh : (x + 0).toNat < h := by omega
    have pfw : (y + -1).toNat < w := by omega
    refine ⟨((⟨(x + 0).toNat, pfh⟩, ⟨(y + -1).toNat, pfw⟩), true),
      ?_, ?_, ?_⟩
    · intro qb
      constructor
      · intro hq
        by_cases hqpb : qb =
            ((⟨(x + 0).toNat, pfh⟩, ⟨(y + -1).toNat, pfw⟩), true)
        · exact Or.inl hqpb
        · refine Or.inr (mem_openPairFinset.mpr ?_)
          rcases mem_openPairFinset.mp hq with ⟨hqt, hqb, hqbit⟩ |
            ⟨hqt, hqb, hqbit⟩
          · refine Or.inl ⟨hqt, hqb, ?_⟩
            have heq := carve_untouched hx hy hnx hny hc2 (qb.1.1 : Nat)
              (qb.1.2 : Nat) 1 (Or.inr (by decide))
              (Or.inl fun hm => hqpb (pb_ext hm.1 hm.2 hqt))
            rw [← heq]
            exact hqbit
          · refine Or.inr ⟨hqt, hqb, ?_⟩
            have heq := carve_untouched hx hy hnx hny hc2 (qb.1.1 : Nat)
              (qb.1.2 : Nat) 2 (Or.inr (by decide)) (Or.inr (by decide))
            rw [← heq]
            exact hqbit
      · intro hq
        rcases hq with rfl | hq
        · exact mem_openPairFinset.mpr (Or.inl
            ⟨rfl, (by omega : (y + -1).toNat + 1 < w),
              carve_bit_self2 hx hy hnx hny hc2⟩)
        · rcases mem_openPairFinset.mp hq with ⟨hqt, hqb, hqbit⟩ |
            ⟨hqt, hqb, hqbit⟩
          · exact mem_openPairFinset.mpr (Or.inl ⟨hqt, hqb,
              carve_bit_mono hx hy hnx hny hc2 _ _ _ hqbit⟩)
          · exact mem_openPairFinset.mpr (Or.inr ⟨hqt, hqb,
              carve_bit_mono hx hy hnx hny hc2 _ _ _ hqbit⟩)
    · refine Or.inr ⟨?_, ?_⟩
      · show (((x + 0).toNat : Int), ((y + -1).toNat : Int)) =
          (x + 0, y + -1)
        rw [Prod.mk.injEq]
        constructor <;> omega
      · show (((x + 0).toNat : Int), ((y + -1).toNat : Int) + 1) = (x, y)
        rw [Prod.mk.injEq]
        constructor <;> omega
    · refine ⟨Or.inr (Or.inl ⟨?_, ?_, ?_⟩),
        (by omega : x.toNat < h), (by omega : y.toNat < w),
        (by omega : (x + 0).toNat < h), (by omega : (y + -1).toNat < w)⟩
      · show x.toNat = (x + 0).toNat
        omega
      · show y.toNat = (y + -1).toNat + 1
        omega
      · exact carve_bit_self2 hx hy hnx hny hc2

/-- The DFS spanning-tree invariant: the visited cells are distinct,
in bounds, reachable from the entry, the opened pairs join visited
cells and number one less than the visited cells, every non-entry
visited cell has exactly one open wall toward an earlier-visited cell,
and every settled (visited, off-stack) cell has all its in-bounds
neighbours visited. -/
structure DfsInv (w h : Nat) (entry : Cell) (g : Grid)
    (stack vis : List Cell) : Prop where
  glen : g.length = h
  grows : ∀ row ∈ g, row.length = w
  stackVis : ∀ p ∈ stack, p ∈ vis
  nodup : vis.Nodup
  visBounds : ∀ v ∈ vis, 0 ≤ v.1 ∧ v.1 < (h : Int) ∧ 0 ≤ v.2 ∧
    v.2 < (w : Int)
  lastEntry : ∃ vs, vis = vs ++ [entry]
  closure : ∀ v ∈ vis, v ∉ stack → ∀ d ∈ neighborsList,
    0 ≤ v.1 + d.1 → v.1 + d.1 < (h : Int) → 0 ≤ v.2 + d.2 →
    v.2 + d.2 < (w : Int) → (v.1 + d.1, v.2 + d.2) ∈ vis
  count : (openPairFinset g w h).card + 1 = vis.length
  ends : ∀ qb ∈ openPairFinset g w h, pbFstI qb ∈ vis ∧ pbSndI qb ∈ vis
  reach : ∀ v ∈ vis, ReachInb g w h (entry.1.toNat, entry.2.toNat)
    (v.1.toNat, v.2.toNat)
  uniq : ∀ v ∈ vis, v ≠ entry →
    ∃! qb : (Fin h × Fin w) × Bool, qb ∈ openPairFinset g w h ∧
      ((pbFstI qb = v ∧ rank vis (pbSndI qb) < rank vis v) ∨
       (pbSndI qb = v ∧ rank vis (pbFstI qb) < rank vis v))

/-- The DFS loop (with no blocked cells) preserves the spanning-tree
invariant down to the empty stack. -/
theorem dfsLoop_spanning {w h : Nat} {o : Nat → Nat} {entry : Cell} :
    ∀ (fuel : Nat) (g : Grid) (stack vis : List Cell)
      (g2 : Grid) (vis2 : List Cell),
      DfsInv w h entry g stack vis →
      dfsLoop w h (fun _ _ => false) o fuel g stack vis =
        some (g2, vis2) →
      DfsInv w h entry g2 [] vis2 := by
  intro fuel
  induction fuel with
  | zero =>
    intro g stack vis g2 vis2 _ hrun
    cases hrun
  | succ f ih =>
    intro g stack vis g2 vis2 hinv hrun
    rw [dfsLoop.eq_def] at hrun
    dsimp only at hrun
    cases stack with
    | nil =>
      obtain ⟨rfl, rfl⟩ : g = g2 ∧ vis = vis2 := by
        have := Option.some.inj hrun
        exact ⟨congrArg Prod.fst this, congrArg Prod.snd this⟩
      exact hinv
    | cons p rest =>
      obtain ⟨x, y⟩ := p
      dsimp only at hrun
      rcases hfs : firstStep w h (fun _ _ => false) vis x y
          (shuffled (o f)) with _ | ⟨dx, dy⟩
      · rw [hfs] at hrun
        obtain ⟨glen, grows, stackVis, nodup, visBounds, lastEntry,
          closure, count, ends, reach, uniq⟩ := hinv
        refine ih g rest vis g2 vis2
          ⟨glen, grows, fun q hq => stackVis q (List.mem_cons_of_mem _ hq),
            nodup, visBounds, lastEntry, ?_, count, ends, reach, uniq⟩ hrun
        intro v hv hvst d hd h1 h2 h3 h4
        by_cases hvxy : v = (x, y)
        · subst hvxy
          exact firstStep_none hfs d (mem_shuffled.mpr hd) h1 h2 h3 h4 rfl
        · refine closure v hv (fun hm => ?_) d hd h1 h2 h3 h4
          rcases List.mem_cons.mp hm with he | hm2
          · exact hvxy he
          · exact hvst hm2
      · rw [hfs] at hrun
        dsimp only at hrun
        obtain ⟨hmem, hbx1, hbxlt, hby1, hbylt, _, hnv⟩ := firstStep_spec hfs
        have hmemN : (dx, dy) ∈ neighborsList := mem_shuffled.mp hmem
        rcases hcv : carve g x y (neighborsList.indexOf (dx, dy)) (x + dx)
            (y + dy) (oppositeWall.getD (neighborsList.indexOf (dx, dy)) 0)
          with _ | gc
        · rw [hcv] at hrun
          cases hrun
        · rw [hcv] at hrun
          obtain ⟨glen, grows, stackVis, nodup, visBounds, lastEntry,
            closure, count, ends, reach, uniq⟩ := hinv
          have hxyv : (x, y) ∈ vis :=
            stackVis (x, y) (List.mem_cons_self _ _)
          have hx0 : 0 ≤ x := (visBounds (x, y) hxyv).1
          have hxh : x < (h : Int) := (visBounds (x, y) hxyv).2.1
          have hy0 : 0 ≤ y := (visBounds (x, y) hxyv).2.2.1
          have hyw : y < (w : Int) := (visBounds (x, y) hxyv).2.2.2
          obtain ⟨hlenc, hrowsc⟩ := carve_rect glen grows hx0 hy0 hbx1
            hby1 hcv
          obtain ⟨pb, hchar, hendp, hedge⟩ := carve_pair hx0 hy0 hxh hyw
            hbx1 hby1 hbxlt hbylt hmemN hcv
          have htnv : (x + dx, y + dy) ∉ vis := hnv
          have hpbold : pb ∉ openPairFinset g w h := by
            intro hm
            obtain ⟨he1, he2⟩ := ends pb hm
            rcases hendp with ⟨hf, hs⟩ | ⟨hf, hs⟩
            · rw [hs] at he2
              exact htnv he2
            · rw [hf] at he1
              exact htnv he1
          have hset : openPairFinset gc w h =
              insert pb (openPairFinset g w h) := by
            apply Finset.ext
            intro qb
            rw [Finset.mem_insert]
            exact hchar qb
          have hcard : (openPairFinset gc w h).card =
              (openPairFinset g w h).card + 1 := by
            rw [hset, Finset.card_insert_of_not_mem hpbold]
          have hrankt : rank ((x + dx, y + dy) :: vis) (x + dx, y + dy) =
              vis.length := rank_cons_self htnv
          refine ih gc ((x + dx, y + dy) :: (x, y) :: rest)
            ((x + dx, y + dy) :: vis) g2 vis2
            ⟨hlenc, hrowsc, ?_, ?_, ?_, ?_, ?_, ?_, ?_, ?_, ?_⟩ hrun
          · intro q hq
            rcases List.mem_cons.mp hq with rfl | hq2
            · exact List.mem_cons_self _ _
            · exact List.mem_cons_of_mem _ (stackVis q hq2)
          · exact List.nodup_cons.mpr ⟨htnv, nodup⟩
          · intro v hv
            rcases List.mem_cons.mp hv with rfl | hv2
            · exact ⟨hbx1, hbxlt, hby1, hbylt⟩
            · exact visBounds v hv2
          · obtain ⟨vs, hvs⟩ := lastEntry
            refine ⟨(x + dx, y + dy) :: vs, ?_⟩
            rw [hvs]
            rfl
          · intro v hv hvst d hd h1 h2 h3 h4
            have hv2 : v ∈ vis := by
              rcases List.mem_cons.mp hv with rfl | hv2
              · exact absurd (List.mem_cons_self _ _) hvst
              · exact hv2
            have hvst2 : v ∉ (x, y) :: rest := fun hm =>
              hvst (List.mem_cons_of_mem _ hm)
            exact List.mem_cons_of_mem _
              (closure v hv2 hvst2 d hd h1 h2 h3 h4)
          · rw [hcard, List.length_cons]
            omega
          · intro qb hq
            rcases (hchar qb).mp hq with rfl | hq2
            · rcases hendp with ⟨hf, hs⟩ | ⟨hf, hs⟩
              · exact ⟨by rw [hf]; exact List.mem_cons_of_mem _ hxyv,
                  by rw [hs]; exact List.mem_cons_self _ _⟩
              · exact ⟨by rw [hf]; exact List.mem_cons_self _ _,
                  by rw [hs]; exact List.mem_cons_of_mem _ hxyv⟩
            · obtain ⟨he1, he2⟩ := ends qb hq2
              exact ⟨List.mem_cons_of_mem _ he1,
                List.mem_cons_of_mem _ he2⟩
          · intro v hv
            rcases List.mem_cons.mp hv with rfl | hv2
            · have hcur2 : ReachInb gc w h
                  (entry.1.toNat, entry.2.toNat) (x.toNat, y.toNat) :=
                reachInb_carve_mono hx0 hy0 hbx1 hby1 hcv
                  (reach (x, y) hxyv)
              exact Relation.ReflTransGen.tail hcur2 hedge
            · exact reachInb_carve_mono hx0 hy0 hbx1 hby1 hcv
                (reach v hv2)
          · intro v hv hvne
            rcases List.mem_cons.mp hv with rfl | hv2
            · refine ⟨pb, ⟨(hchar pb).mpr (Or.inl rfl), ?_⟩, ?_⟩
              · rcases hendp with ⟨hf, hs⟩ | ⟨hf, hs⟩
                · refine Or.inr ⟨hs, ?_⟩
                  rw [hf, hrankt, rank_cons_mem hxyv]
                  exact rank_lt_length hxyv
                · refine Or.inl ⟨hf, ?_⟩
                  rw [hs, hrankt, rank_cons_mem hxyv]
                  exact rank_lt_length hxyv
              · intro qb' hq'
                obtain ⟨hq'mem, hq'qual⟩ := hq'
                rcases (hchar qb').mp hq'mem with rfl | hq'old
                · rfl
                · obtain ⟨he1, he2⟩ := ends qb' hq'old
                  rcases hq'qual with ⟨hf', _⟩ | ⟨hs', _⟩
                  · rw [hf'] at he1
                    exact absurd he1 htnv
                  · rw [hs'] at he2
                    exact absurd he2 htnv
            · obtain ⟨qb0, ⟨hq0mem, hq0qual⟩, hq0uniq⟩ := uniq v hv2 hvne
              have hq0ends := ends qb0 hq0mem
              refine ⟨qb0, ⟨(hchar qb0).mpr (Or.inr hq0mem), ?_⟩, ?_⟩
              · rcases hq0qual with ⟨hf, hr⟩ | ⟨hs, hr⟩
                · refine Or.inl ⟨hf, ?_⟩
                  rw [rank_cons_mem hq0ends.2, rank_cons_mem hv2]
                  exact hr
                · refine Or.inr ⟨hs, ?_⟩
                  rw [rank_cons_mem hq0ends.1, rank_cons_mem hv2]
                  exact hr
              · intro qb' hq'
                obtain ⟨hq'mem, hq'qual⟩ := hq'
                rcases (hchar qb').mp hq'mem with rfl | hq'old
                · exfalso
                  rcases hendp with ⟨hf, hs⟩ | ⟨hf, hs⟩
                  · rcases hq'qual with ⟨hf', hr'⟩ | ⟨hs', hr'⟩
                    · rw [hs, hrankt, rank_cons_mem hv2] at hr'
                      have := rank_lt_length hv2
                      omega
                    · rw [hs] at hs'
                      rw [← hs'] at hv2
                      exact htnv hv2
                  · rcases hq'qual with ⟨hf', hr'⟩ | ⟨hs', hr'⟩
                    · rw [hf] at hf'
                      rw [← hf'] at hv2
                      exact htnv hv2
                    · rw [hf, hrankt, rank_cons_mem hv2] at hr'
                      have := rank_lt_length hv2
                      omega
                · have hq'ends := ends qb' hq'old
                  apply hq0uniq qb'
                  refine ⟨hq'old, ?_⟩
                  rcases hq'qual with ⟨hf', hr'⟩ | ⟨hs', hr'⟩
                  · refine Or.inl ⟨hf', ?_⟩
                    rw [rank_cons_mem hq'ends.2, rank_cons_mem hv2] at hr'
                    exact hr'
                  · refine Or.inr ⟨hs', ?_⟩
                    rw [rank_cons_mem hq'ends.1, rank_cons_mem hv2] at hr'
                    exact hr'

/-- The invariant at the start of `_dfs` (in-bounds entry). -/
theorem dfsInv_init {w h : Nat} {entry : Cell}
    (he1 : 0 ≤ entry.1) (he1h : entry.1 < (h : Int))
    (he2 : 0 ≤ entry.2) (he2w : entry.2 < (w : Int)) :
    DfsInv w h entry (fullGrid w h) [entry] [entry] := by
  refine ⟨(fullGrid_rect w h).1, (fullGrid_rect w h).2, fun p hp => hp,
    List.nodup_singleton _, ?_, ⟨[], rfl⟩, ?_, ?_, ?_, ?_, ?_⟩
  · intro v hv
    rcases List.mem_singleton.mp hv with rfl
    exact ⟨he1, he1h, he2, he2w⟩
  · intro v hv hvst
    exact absurd hv hvst
  · rw [openPairFinset_fullGrid]
    simp
  · intro qb hq
    rw [openPairFinset_fullGrid] at hq
    exact absurd hq (Finset.not_mem_empty qb)
  · intro v hv
    rcases List.mem_singleton.mp hv with rfl
    exact Relation.ReflTransGen.refl
  · intro v hv hvne
    exact absurd (List.mem_singleton.mp hv) hvne

/-- Once every visited cell has all in-bounds neighbours visited and the
entry is visited, induction on the grid distance shows every in-bounds
cell is visited. -/
theorem closure_covers {w h : Nat} {entry : Cell} {vis : List Cell}
    (hent : entry ∈ vis)
    (he1 : 0 ≤ entry.1) (he1h : entry.1 < (h : Int))
    (he2 : 0 ≤ entry.2) (he2w : entry.2 < (w : Int))
    (hclo : ∀ v ∈ vis, ∀ d ∈ neighborsList,
      0 ≤ v.1 + d.1 → v.1 + d.1 < (h : Int) → 0 ≤ v.2 + d.2 →
      v.2 + d.2 < (w : Int) → (v.1 + d.1, v.2 + d.2) ∈ vis) :
    ∀ (n : Nat) (r c : Int), 0 ≤ r → r < (h : Int) → 0 ≤ c →
      c < (w : Int) → (r - entry.1).natAbs + (c - entry.2).natAbs = n →
      (r, c) ∈ vis := by
  intro n
  induction n with
  | zero =>
    intro r c _ _ _ _ hd
    have he : r = entry.1 ∧ c = entry.2 := by omega
    rw [he.1, he.2]
    exact hent
  | succ m ih =>
    intro r c h1 h2 h3 h4 hd
    by_cases hr : r < entry.1
    · have hmem := ih (r + 1) c (by omega) (by omega) h3 h4 (by omega)
      have hstep := hclo (r + 1, c) hmem (-1, 0) (by decide)
        (show (0 : Int) ≤ r + 1 + -1 by omega)
        (show r + 1 + -1 < (h : Int) by omega)
        (show (0 : Int) ≤ c + 0 by omega)
        (show c + 0 < (w : Int) by omega)
      have hstep2 : ((r + 1 + -1 : Int), (c + 0 : Int)) ∈ vis := hstep
      have hee : ((r + 1 + -1 : Int), (c + 0 : Int)) = (r, c) := by
        rw [Prod.mk.injEq]
        constructor <;> omega
      rwa [hee] at hstep2
    · by_cases hr2 : entry.1 < r
      · have hmem := ih (r - 1) c (by omega) (by omega) h3 h4 (by omega)
        have hstep := hclo (r - 1, c) hmem (1, 0) (by decide)
          (show (0 : Int) ≤ r - 1 + 1 by omega)
          (show r - 1 + 1 < (h : Int) by omega)
          (show (0 : Int) ≤ c + 0 by omega)
          (show c + 0 < (w : Int) by omega)
        have hstep2 : ((r - 1 + 1 : Int), (c + 0 : Int)) ∈ vis := hstep
        have hee : ((r - 1 + 1 : Int), (c + 0 : Int)) = (r, c) := by
          rw [Prod.mk.injEq]
          constructor <;> omega
        rwa [hee] at hstep2
      · by_cases hcl : c < entry.2
        · have hmem := ih r (c + 1) h1 h2 (by omega) (by omega) (by omega)
          have hstep := hclo (r, c + 1) hmem (0, -1) (by decide)
            (show (0 : Int) ≤ r + 0 by omega)
            (show r + 0 < (h : Int) by omega)
            (show (0 : Int) ≤ c + 1 + -1 by omega)
            (show c + 1 + -1 < (w : Int) by omega)
          have hstep2 : ((r + 0 : Int), (c + 1 + -1 : Int)) ∈ vis := hstep
          have hee : ((r + 0 : Int), (c + 1 + -1 : Int)) = (r, c) := by
            rw [Prod.mk.injEq]
            constructor <;> omega
          rwa [hee] at hstep2
        · have hmem := ih r (c - 1) h1 h2 (by omega) (by omega) (by omega)
          have hstep := hclo (r, c - 1) hmem (0, 1) (by decide)
            (show (0 : Int) ≤ r + 0 by omega)
            (show r + 0 < (h : Int) by omega)
            (show (0 : Int) ≤ c - 1 + 1 by omega)
            (show c - 1 + 1 < (w : Int) by omega)
          have hstep2 : ((r + 0 : Int), (c - 1 + 1 : Int)) ∈ vis := hstep
          have hee : ((r + 0 : Int), (c - 1 + 1 : Int)) = (r, c) := by
            rw [Prod.mk.injEq]
            constructor <;> omega
          rwa [hee] at hstep2

/-- In-bounds open reachability gives graph reachability. -/
theorem reachInb_reachable {g : Grid} {w h : Nat} {a b : Nat × Nat}
    (hr : ReachInb g w h a b) :
    ∀ (ha1 : a.1 < h) (ha2 : a.2 < w) (hb1 : b.1 < h) (hb2 : b.2 < w),
      (mazeGraph g w h).Reachable (⟨a.1, ha1⟩, ⟨a.2, ha2⟩)
        (⟨b.1, hb1⟩, ⟨b.2, hb2⟩) := by
  induction hr with
  | refl =>
    intro ha1 ha2 hb1 hb2
    exact SimpleGraph.Reachable.refl _
  | tail hab hstep ih =>
    intro ha1 ha2 hb1 hb2
    obtain ⟨hedge, hm1, hm2, _, _⟩ := hstep
    exact SimpleGraph.Reachable.trans (ih ha1 ha2 hm1 hm2)
      (SimpleGraph.Adj.reachable hedge)

/-- A vertex as an integer cell. -/
def cellI {w h : Nat} (a : Fin h × Fin w) : Cell :=
  (((a.1 : Nat) : Int), ((a.2 : Nat) : Int))

theorem cellI_inj {w h : Nat} {a b : Fin h × Fin w}
    (he : cellI a = cellI b) : a = b := by
  unfold cellI at he
  have e1 : ((a.1 : Nat) : Int) = ((b.1 : Nat) : Int) := congrArg Prod.fst he
  have e2 : ((a.2 : Nat) : Int) = ((b.2 : Nat) : Int) := congrArg Prod.snd he
  obtain ⟨a1, a2⟩ := a
  obtain ⟨b1, b2⟩ := b
  dsimp only at e1 e2
  rw [show a1 = b1 from Fin.ext (by omega),
    show a2 = b2 from Fin.ext (by omega)]

/-- Every graph edge comes from a keyed open pair with the same two
endpoints. -/
theorem adj_openPair {g : Grid} {w h : Nat} {a b : Fin h × Fin w}
    (hab : (mazeGraph g w h).Adj a b) :
    ∃ qb ∈ openPairFinset g w h,
      ((pbFstI qb = cellI a ∧ pbSndI qb = cellI b) ∨
       (pbFstI qb = cellI b ∧ pbSndI qb = cellI a)) := by
  rcases hab with ⟨h1, h2, h3⟩ | ⟨h1, h2, h3⟩ | ⟨h1, h2, h3⟩ | ⟨h1, h2, h3⟩
  · refine ⟨(a, true), mem_openPairFinset.mpr (Or.inl ⟨rfl, ?_, h3⟩), ?_⟩
    · show (a.2 : Nat) + 1 < w
      have hlt := b.2.isLt
      have h2b : (b.2 : Nat) = (a.2 : Nat) + 1 := h2
      omega
    · refine Or.inl ⟨rfl, ?_⟩
      show (((a.1 : Nat) : Int), ((a.2 : Nat) : Int) + 1) = cellI b
      unfold cellI
      have h1b : (b.1 : Nat) = (a.1 : Nat) := h1
      have h2b : (b.2 : Nat) = (a.2 : Nat) + 1 := h2
      rw [Prod.mk.injEq]
      constructor <;> omega
  · refine ⟨(b, true), mem_openPairFinset.mpr (Or.inl ⟨rfl, ?_, h3⟩), ?_⟩
    · show (b.2 : Nat) + 1 < w
      have hlt := a.2.isLt
      have h2b : (a.2 : Nat) = (b.2 : Nat) + 1 := h2
      omega
    · refine Or.inr ⟨rfl, ?_⟩
      show (((b.1 : Nat) : Int), ((b.2 : Nat) : Int) + 1) = cellI a
      unfold cellI
      have h1b : (a.1 : Nat) = (b.1 : Nat) := h1
      have h2b : (a.2 : Nat) = (b.2 : Nat) + 1 := h2
      rw [Prod.mk.injEq]
      constructor <;> omega
  · refine ⟨(a, false), mem_openPairFinset.mpr (Or.inr ⟨rfl, ?_, h3⟩), ?_⟩
    · show (a.1 : Nat) + 1 < h
      have hlt := b.1.isLt
      have h1b : (b.1 : Nat) = (a.1 : Nat) + 1 := h1
      omega
    · refine Or.inl ⟨rfl, ?_⟩
      show (((a.1 : Nat) : Int) + 1, ((a.2 : Nat) : Int)) = cellI b
      unfold cellI
      have h1b : (b.1 : Nat) = (a.1 : Nat) + 1 := h1
      have h2b : (b.2 : Nat) = (a.2 : Nat) := h2
      rw [Prod.mk.injEq]
      constructor <;> omega
  · refine ⟨(b, false), mem_openPairFinset.mpr (Or.inr ⟨rfl, ?_, h3⟩), ?_⟩
    · show (b.1 : Nat) + 1 < h
      have hlt := a.1.isLt
      have h1b : (a.1 : Nat) = (b.1 : Nat) + 1 := h1
      omega
    · refine Or.inr ⟨rfl, ?_⟩
      show (((b.1 : Nat) : Int) + 1, ((b.2 : Nat) : Int)) = cellI a
      unfold cellI
      have h1b : (a.1 : Nat) = (b.1 : Nat) + 1 := h1
      have h2b : (a.2 : Nat) = (b.2 : Nat) := h2
      rw [Prod.mk.injEq]
      constructor <;> omega

/-- With visit ranks, coverage and the unique-parent-edge property, the
open-passage graph has no cycle: at the cycle vertex of maximal rank,
the two incident cycle edges would both be its unique open wall toward
an earlier-visited cell. -/
theorem mazeGraph_acyclic {g : Grid} {w h : Nat} {entry : Cell}
    {vis : List Cell}
    (hcov : ∀ z : Fin h × Fin w, cellI z ∈ vis)
    (hlast : ∃ vs, vis = vs ++ [entry])
    (huniq : ∀ v ∈ vis, v ≠ entry →
      ∃! qb : (Fin h × Fin w) × Bool, qb ∈ openPairFinset g w h ∧
        ((pbFstI qb = v ∧ rank vis (pbSndI qb) < rank vis v) ∨
         (pbSndI qb = v ∧ rank vis (pbFstI qb) < rank vis v))) :
    (mazeGraph g w h).IsAcyclic := by
  intro v c hc
  have htne : c.support.tail ≠ [] := by
    cases c with
    | nil => exact absurd rfl hc.ne_nil
    | cons hadj q =>
      rw [SimpleGraph.Walk.support_cons]
      simpa using SimpleGraph.Walk.support_ne_nil q
  obtain ⟨m, hmtl, hmax⟩ :=
    exists_max_rank (fun z => rank vis (cellI z)) htne
  have hmsup : m ∈ c.support := by
    rw [SimpleGraph.Walk.support_eq_cons]
    exact List.mem_cons_of_mem _ hmtl
  have hc' := hc.rotate hmsup
  have hrot := SimpleGraph.Walk.support_rotate c hmsup
  cases hcc : c.rotate hmsup with
  | nil =>
    rw [hcc] at hc'
    exact hc'.ne_nil rfl
  | cons hadj q =>
    rw [hcc] at hc' hrot
    rename_i u
    have hum : u ≠ m := hadj.ne'
    obtain ⟨wv, h2, q2, hqe⟩ :=
      SimpleGraph.Walk.exists_eq_cons_of_ne (Ne.symm hum) q.reverse
    have husup : u ∈ q.support := SimpleGraph.Walk.start_mem_support q
    have hwsup : wv ∈ q.support := by
      have hrev : wv ∈ q.reverse.support := by
        rw [hqe, SimpleGraph.Walk.support_cons]
        exact List.mem_cons_of_mem _
          (SimpleGraph.Walk.start_mem_support q2)
      rwa [SimpleGraph.Walk.support_reverse, List.mem_reverse] at hrev
    have hutail : u ∈ c.support.tail := by
      apply hrot.mem_iff.mp
      rw [SimpleGraph.Walk.support_cons]
      simpa using husup
    have hwtail : wv ∈ c.support.tail := by
      apply hrot.mem_iff.mp
      rw [SimpleGraph.Walk.support_cons]
      simpa using hwsup
    have huw : u ≠ wv := by
      intro he
      have hmem2 : s(m, wv) ∈ q.edges := by
        have hrev : s(m, wv) ∈ q.reverse.edges := by
          rw [hqe, SimpleGraph.Walk.edges_cons]
          exact List.mem_cons_self _ _
        rwa [SimpleGraph.Walk.edges_reverse, List.mem_reverse] at hrev
      have hnodupE := hc'.isCircuit.isTrail.edges_nodup
      rw [SimpleGraph.Walk.edges_cons] at hnodupE
      have hnm : s(m, u) ∉ q.edges := (List.nodup_cons.mp hnodupE).1
      rw [← he] at hmem2
      exact hnm hmem2
    have humem : cellI u ∈ vis := hcov u
    have hwmem : cellI wv ∈ vis := hcov wv
    have hmmem : cellI m ∈ vis := hcov m
    have hru : rank vis (cellI u) < rank vis (cellI m) := by
      have hle : rank vis (cellI u) ≤ rank vis (cellI m) := hmax u hutail
      have hne2 : rank vis (cellI u) ≠ rank vis (cellI m) := fun he =>
        hum (cellI_inj (rank_inj humem hmmem he))
      omega
    have hwm : wv ≠ m := h2.ne'
    have hrw : rank vis (cellI wv) < rank vis (cellI m) := by
      have hle : rank vis (cellI wv) ≤ rank vis (cellI m) := hmax wv hwtail
      have hne2 : rank vis (cellI wv) ≠ rank vis (cellI m) := fun he =>
        hwm (cellI_inj (rank_inj hwmem hmmem he))
      omega
    have hmentry : cellI m ≠ entry := by
      intro he
      obtain ⟨vs, hvs⟩ := hlast
      have h0 : rank vis (cellI m) = 0 := by
        rw [he]
        exact rank_entry hvs
      omega
    obtain ⟨qb0, hq0P, hq0uniq⟩ := huniq (cellI m) hmmem hmentry
    obtain ⟨qb1, hqb1mem, hqb1end⟩ := adj_openPair hadj
    obtain ⟨qb2, hqb2mem, hqb2end⟩ := adj_openPair h2
    have hq1 : qb1 = qb0 := by
      apply hq0uniq qb1
      refine ⟨hqb1mem, ?_⟩
      rcases hqb1end with ⟨hf, hs⟩ | ⟨hf, hs⟩
      · exact Or.inl ⟨hf, by rw [hs]; exact hru⟩
      · exact Or.inr ⟨hs, by rw [hf]; exact hru⟩
    have hq2 : qb2 = qb0 := by
      apply hq0uniq qb2
      refine ⟨hqb2mem, ?_⟩
      rcases hqb2end with ⟨hf, hs⟩ | ⟨hf, hs⟩
      · exact Or.inl ⟨hf, by rw [hs]; exact hrw⟩
      · exact Or.inr ⟨hs, by rw [hf]; exact hrw⟩
    have hq12 : qb1 = qb2 := by
      rw [hq1, hq2]
    rcases hqb1end with ⟨hf1, hs1⟩ | ⟨hf1, hs1⟩ <;>
      rcases hqb2end with ⟨hf2, hs2⟩ | ⟨hf2, hs2⟩
    · rw [hq12, hs2] at hs1
      exact huw (cellI_inj hs1).symm
    · rw [hq12, hf2] at hf1
      exact hwm (cellI_inj hf1)
    · rw [hq12, hf2] at hf1
      exact hum (cellI_inj hf1).symm
    · rw [hq12, hf2] at hf1
      exact huw (cellI_inj hf1).symm

/-- C1 amended: with the entry's coordinates read as the `_dfs` loop
reads them — `entry.1` a row index below the height and `entry.2` a
column index below the width — every completed `MazeGenerator._dfs` run
produces a spanning tree over all `w * h` cells: exactly `w * h - 1`
opened wall pairs, every cell reachable from the entry through open
passages, and the open-passage graph is a tree (connected and acyclic,
hence exactly one simple path between any two cells). -/
theorem dfs_spanning_tree (w h : Nat) (entry : Cell) (o : Nat → Nat)
    (g2 : Grid) (vis2 : List Cell)
    (he1 : 0 ≤ entry.1) (he1h : entry.1 < (h : Int))
    (he2 : 0 ≤ entry.2) (he2w : entry.2 < (w : Int))
    (hrun : dfsRun w h entry o = some (g2, vis2)) :
    openPairCount g2 w h = w * h - 1 ∧
    (∀ r c : Nat, r < h → c < w →
      ReachInb g2 w h (entry.1.toNat, entry.2.toNat) (r, c)) ∧
    (mazeGraph g2 w h).IsTree := by
  unfold dfsRun at hrun
  have hinv := dfsLoop_spanning (genFuel w h) (fullGrid w h) [entry]
    [entry] g2 vis2 (dfsInv_init he1 he1h he2 he2w) hrun
  obtain ⟨glen, grows, _, nodup, visBounds, lastEntry, closure, count,
    ends, reach, uniq⟩ := hinv
  have hent : entry ∈ vis2 := by
    obtain ⟨vs, hvs⟩ := lastEntry
    rw [hvs]
    exact List.mem_append_right _ (List.mem_singleton_self _)
  have hclo := fun v hv => closure v hv (List.not_mem_nil v)
  have hcov : ∀ r c : Int, 0 ≤ r → r < (h : Int) → 0 ≤ c →
      c < (w : Int) → (r, c) ∈ vis2 := by
    intro r c h1 h2 h3 h4
    exact closure_covers hent he1 he1h he2 he2w hclo
      ((r - entry.1).natAbs + (c - entry.2).natAbs) r c h1 h2 h3 h4 rfl
  have hsub1 : vis2 ⊆ gridCells w h := by
    intro p hp
    obtain ⟨px, py⟩ := p
    obtain ⟨b1, b2, b3, b4⟩ := visBounds (px, py) hp
    exact mem_gridCells.mpr ⟨b1, b2, b3, b4⟩
  have hsub2 : gridCells w h ⊆ vis2 := by
    intro p hp
    obtain ⟨px, py⟩ := p
    obtain ⟨b1, b2, b3, b4⟩ := mem_gridCells.mp hp
    exact hcov px py b1 b2 b3 b4
  have hglen : (gridCells w h).length = w * h := by
    unfold gridCells
    rw [List.length_map, List.length_product, List.length_range,
      List.length_range]
    exact Nat.mul_comm h w
  have hlen2 : vis2.length = w * h := by
    have hle1 := (List.subperm_of_subset nodup hsub1).length_le
    have hle2 := (List.subperm_of_subset gridCells_nodup hsub2).length_le
    omega
  refine ⟨?_, ?_, ?_⟩
  · show (openPairFinset g2 w h).card = w * h - 1
    omega
  · intro r c hr hc
    have hv : ((r : Int), (c : Int)) ∈ vis2 :=
      hcov r c (by omega) (by omega) (by omega) (by omega)
    have hre : ReachInb g2 w h (entry.1.toNat, entry.2.toNat)
        (((r : Int)).toNat, ((c : Int)).toNat) := reach _ hv
    rw [show ((r : Int)).toNat = r by omega,
      show ((c : Int)).toNat = c by omega] at hre
    exact hre
  · have hreachF : ∀ z : Fin h × Fin w,
        (mazeGraph g2 w h).Reachable
          (⟨entry.1.toNat, by omega⟩, ⟨entry.2.toNat, by omega⟩) z := by
      intro z
      have hv : cellI z ∈ vis2 := hcov ((z.1 : Nat) : Int)
        ((z.2 : Nat) : Int) (by omega) (by have := z.1.isLt; omega)
        (by omega) (by have := z.2.isLt; omega)
      have hre2 : ReachInb g2 w h (entry.1.toNat, entry.2.toNat)
          ((z.1 : Nat), (z.2 : Nat)) := reach _ hv
      exact reachInb_reachable hre2 (show entry.1.toNat < h by omega)
        (show entry.2.toNat < w by omega) z.1.isLt z.2.isLt
    refine ⟨?_, ?_⟩
    · rw [SimpleGraph.connected_iff_exists_forall_reachable]
      exact ⟨_, hreachF⟩
    · exact mazeGraph_acyclic
        (fun z => hcov ((z.1 : Nat) : Int) ((z.2 : Nat) : Int) (by omega)
          (by have := z.1.isLt; omega) (by omega)
          (by have := z.2.isLt; omega))
        lastEntry uniq

set_option maxRecDepth 400000 in
/-- Witness for `dfs42_blocked_cells_untouched`: on a concrete 7-by-7
run, the pattern cell at offset (-3, -2) — grid cell (1, 0) — is
unvisited, fully walled, and walled off from all its neighbours. -/
theorem dfs42_blocked_cells_untouched_witness :
    ((1 : Int), (0 : Int)) ∉ c10vis ∧ gAt c10grid 1 0 = 15 ∧
    (1 ≤ 1 → (gAt c10grid 0 0).testBit 2 = true) ∧
    (0 + 1 < 7 → (gAt c10grid 1 (0 + 1)).testBit 3 = true) ∧
    (1 + 1 < 7 → (gAt c10grid (1 + 1) 0).testBit 0 = true) ∧
    (1 ≤ 0 → (gAt c10grid 1 (0 - 1)).testBit 1 = true) :=
  dfs42_blocked_cells_untouched 7 7 (0, 0) (fun _ => 0) c10grid c10vis
    (by decide) (by decide) (by decide) (by decide) (by decide)
    (-3) (-2) (by decide) 1 0 (by decide) (by decide) (by decide)

theorem firstStep_c1 (l : List (Int × Int)) (hsub : l ⊆ neighborsList) :
    firstStep 5 2 (fun _ _ => false) [((3 : Int), (0 : Int))] 3 0 l =
      none := by
  induction l with
  | nil => rfl
  | cons d t ih =>
    have hd : d ∈ neighborsList := hsub (List.mem_cons_self _ _)
    have iht := ih fun a ha => hsub (List.mem_cons_of_mem _ ha)
    fin_cases hd <;> rw [firstStep, if_neg (by decide)] <;> exact iht

/-- C1 counterexample: the spec quantifies over every accepted MazeSpec,
but width 5, height 2, entry (3, 0), exit (4, 1) passes `_validate`
(the entry's first coordinate is bounded by the width) while `_dfs`
reads it as a row index: from row 3 of a 2-row grid every direction
fails the bounds test, so for every shuffle stream the loop pops
immediately and returns the fully-walled grid with one visited cell —
zero opened wall pairs instead of the required 5 * 2 - 1 = 9. -/
theorem dfs_accepted_run_not_spanning :
    configOK 5 2 (3, 0) (4, 1) = true ∧
    (∀ o : Nat → Nat,
      dfsRun 5 2 (3, 0) o = some (fullGrid 5 2, [(3, 0)])) ∧
    openPairCount (fullGrid 5 2) 5 2 = 0 ∧ 0 ≠ 5 * 2 - 1 := by
  refine ⟨by decide, ?_, by decide, by decide⟩
  intro o
  show dfsLoop 5 2 (fun _ _ => false) o (genFuel 5 2) (fullGrid 5 2)
    [(3, 0)] [(3, 0)] = some (fullGrid 5 2, [(3, 0)])
  rw [show genFuel 5 2 = 21 + 1 from rfl, dfsLoop,
    firstStep_c1 _ (shuffled_perm (o 21)).subset]
  rfl

/-- The grid produced by `_dfs` on a 3-by-3 maze with entry (0, 0) and
the all-zero shuffle stream, used by the C1 witness. -/
def c1grid : Grid := [[13, 5, 3], [9, 3, 10], [14, 12, 6]]

/-- The visited-order list accompanying `c1grid`. -/
def c1vis : List Cell :=
  [(2, 0), (1, 0), (1, 1), (2, 1), (2, 2), (1, 2), (0, 2), (0, 1), (0, 0)]

set_option maxRecDepth 400000 in
/-- Witness for `dfs_spanning_tree`: a concrete completed 3-by-3 run
yields 8 opened pairs, full reachability from the entry, and a tree. -/
theorem dfs_spanning_tree_witness :
    openPairCount c1grid 3 3 = 3 * 3 - 1 ∧
    (∀ r c : Nat, r < 3 → c < 3 →
      ReachInb c1grid 3 3 (0, 0) (r, c)) ∧
    (mazeGraph c1grid 3 3).IsTree :=
  dfs_spanning_tree 3 3 (0, 0) (fun _ => 0) c1grid c1vis
    (by decide) (by decide) (by decide) (by decide) (by decide)

end AMazeIng
